import Mathlib

/-!
Verification development for the qlibc static hash table (src/containers/qhasharr.c).

The table lives in a caller-supplied byte region: a header (maxslots, usedslots,
num) followed by a flat array of fixed-size slots.  Every operation of the C
source is embedded below as an executable Lean function over an explicit state.
Machine integers are modelled as Nat / Int with explicit wrap-around where the C
code can overflow; fallible code and C undefined behaviour (out-of-bounds slot
access, non-terminating link walks) surface as Option, with `none` meaning the
source's behaviour is undefined at that input.

The hash helpers `qhashmurmur3_32` and `qhashmd5` live in utilities/qhash.c,
which is not part of this repository snapshot; they are modelled from the spec
(section 4.1), which requires only a deterministic 32-bit mixer of the
MurmurHash3-finalizer family and an arbitrary fixed 16-byte digest.
-/

namespace QHashArr

/-- Compile-time slot factors. Q_HASHARR_KEYSIZE in the reference build. -/
def KEYMAX : Nat := 16

/-- Q_HASHARR_VALUESIZE in the reference build. -/
def VALMAX : Nat := 32

/-- Byte width of the extension payload: KEYMAX + 16 (md5) + 2 (keylen) + VALMAX. -/
def EXTMAX : Nat := 66

/-- Error kinds (errno values set by the source). -/
inductive Err : Type where
  | EINVAL : Err
  | ENOBUFS : Err
  | ENOENT : Err
  | EFAULT : Err
deriving Repr, DecidableEq

/-- One slot of the flat array (struct qhasharr_slot_s).  The payload union
(pair shape / ext shape) is kept as the raw EXTMAX bytes it occupies; the
pair-shape fields are views into those bytes at the offsets of the layout in
spec section 6: key at 0, fingerprint at 16, keylen at 32, value at 34. -/
structure Slot : Type where
  count : Int
  hash : Nat
  link : Int
  size : Nat
  data : List Nat
deriving Repr, DecidableEq

/-- Header plus slot array (qhasharr_data_t and the slots that follow it). -/
structure HState : Type where
  maxslots : Nat
  usedslots : Int
  num : Int
  slots : List Slot
deriving Repr, DecidableEq

/-- An all-zero slot, as produced by memset of the region. -/
def zeroSlot : Slot := ⟨0, 0, 0, 0, List.replicate EXTMAX 0⟩

/-- Overwrite bytes of a payload starting at offset off. -/
def writeBytes (d : List Nat) (off : Nat) (src : List Nat) : List Nat :=
  d.take off ++ src ++ d.drop (off + src.length)

/-- Key field of a pair-shape payload (bytes 0..KEYMAX). -/
def pairKey (d : List Nat) : List Nat := d.take KEYMAX

/-- Fingerprint field of a pair-shape payload (bytes 16..32). -/
def pairMd5 (d : List Nat) : List Nat := (d.drop 16).take 16

/-- The keylen field of a pair-shape payload (little-endian u16 at offset 32). -/
def pairKeylen (d : List Nat) : Nat := d.getD 32 0 + 256 * d.getD 33 0

/-- First sz bytes of the inline value of a pair-shape payload (offset 34). -/
def pairValue (d : List Nat) (sz : Nat) : List Nat := (d.drop 34).take sz

/-- First sz bytes of an ext-shape payload. -/
def extValue (d : List Nat) (sz : Nat) : List Nat := d.take sz

/-- The bytes strncpy(dst, key, KEYMAX) leaves in the key field: the first
KEYMAX key bytes, zero-padded when the key is shorter. -/
def strncpyKey (key : List Nat) : List Nat :=
  key.take KEYMAX ++ List.replicate (KEYMAX - key.length) 0

/-- Modelled from the spec (section 4.1): the murmur3 32-bit finalizer, applied
to a 32-bit fold of the key bytes.  Stands in for qhashmurmur3_32 of
utilities/qhash.c, which is outside this repository snapshot; the spec requires
only a deterministic 32-bit mixer of the MurmurHash3 finalizer family. -/
def fmix32 (h0 : Nat) : Nat :=
  let h1 := h0 % 4294967296
  let h2 := h1 ^^^ (h1 >>> 16)
  let h3 := (h2 * 2246822507) % 4294967296
  let h4 := h3 ^^^ (h3 >>> 13)
  let h5 := (h4 * 3266489909) % 4294967296
  h5 ^^^ (h5 >>> 16)

/-- Modelled from the spec (section 4.1): 32-bit key hash used for bucket
placement. -/
def mix32 (key : List Nat) : Nat :=
  fmix32 (key.foldl (fun a b => (a * 31 + b) % 4294967296) 5381)

/-- Modelled from the spec (section 4.1): the 16-byte key fingerprint.  Stands
in for qhashmd5 of utilities/qhash.c, outside this snapshot; the spec allows
any fixed 16-byte digest used consistently. -/
def md5Model (key : List Nat) : List Nat :=
  (List.range 16).map (fun i => key.foldl (fun a b => (a * 131 + b + 7) % 256) (i + 97))

/-- Modelled from the spec (section 6 layout): sizeof(qhasharr_data_t), three
u32 header words. -/
def sizeofData : Nat := 12

/-- Modelled from the spec (section 6 layout): sizeof(qhasharr_slot_t) with
natural alignment on the 64-bit reference platform: count(2)+pad(2)+hash(4)+
link(4)+size(4)+union(66) padded to a multiple of 4. -/
def sizeofSlot : Nat := 84

/-- Modelled from the source (qhasharr.c lines 234-254): the qhasharr_t handle
holds the 14 method pointers assigned there plus the data pointer; 15 pointers
of 8 bytes on the 64-bit reference platform. -/
def sizeofHandle : Nat := 120

/-- Guarded slot write: writing outside the slot array is undefined. -/
def setSlotO (S : HState) (i : Nat) (s : Slot) : Option HState :=
  if i < S.slots.length then some { S with slots := S.slots.set i s } else none

/-- The creation path of qhasharr() (memsize > 0): compute maxslots from the
region size with C size_t arithmetic, validate, zero the region and write the
header.  Returns none where the C function returns NULL with errno EINVAL. -/
def qhasharrCreate (memsize : Nat) : Option HState :=
  let diff := (memsize + 18446744073709551616 - sizeofData) % 18446744073709551616
  let maxslots := diff / sizeofSlot
  if maxslots < 1 ∨ memsize ≤ sizeofHandle then none
  else some ⟨maxslots, 0, 0, List.replicate maxslots zeroSlot⟩

/-- Loop body of find_avail: scan from idx, wrapping, for a slot with count 0;
-1 when the scan comes back to the start. -/
def findAvailLoop (S : HState) (startidx : Nat) : Nat → Nat → Option Int
  | _, 0 => none
  | idx, fuel+1 => do
    let s ← S.slots[idx]?
    if s.count = 0 then
      pure (Int.ofNat idx)
    else
      let idx2 := idx + 1
      let idx2 := if S.maxslots ≤ idx2 then 0 else idx2
      if idx2 = startidx then pure (-1)
      else findAvailLoop S startidx idx2 fuel

/-- find_avail of the source: first empty slot at or after startidx (wrapping),
-1 if the table has none. -/
def find_avail (S : HState) (startidx : Nat) : Option Int :=
  let s0 := if S.maxslots ≤ startidx then 0 else startidx
  findAvailLoop S s0 s0 (S.maxslots + 1)

/-- The key comparison of get_idx: length must equal the stored keylen; short
keys compare inline bytes, long keys compare the KEYMAX-byte prefix and the
16-byte fingerprint. -/
def matchKey (key : List Nat) (s : Slot) : Bool :=
  let keylen := key.length
  if keylen = pairKeylen s.data then
    if keylen ≤ KEYMAX then key = s.data.take keylen
    else key.take KEYMAX = s.data.take KEYMAX ∧ md5Model key = pairMd5 s.data
  else false

/-- Loop body of get_idx: scan from idx counting candidates (slots whose hash
equals the home and whose count is positive or -1) until the leading slot's
count many candidates have been seen or the scan wraps. -/
def getIdxLoop (S : HState) (key : List Nat) (hash : Nat) : Nat → Nat → Nat → Option Int
  | _, _, 0 => none
  | cnt, idx, fuel+1 => do
    let hs ← S.slots[hash]?
    if (cnt : Int) < hs.count then do
      let s ← S.slots[idx]?
      let hit := s.hash = hash ∧ (s.count > 0 ∨ s.count = -1)
      if hit ∧ matchKey key s then pure (Int.ofNat idx)
      else
        let cnt2 := if hit then cnt + 1 else cnt
        let idx2 := idx + 1
        let idx2 := if S.maxslots ≤ idx2 then 0 else idx2
        if idx2 = hash then pure (-1)
        else getIdxLoop S key hash cnt2 idx2 fuel
    else pure (-1)

/-- get_idx of the source: slot index holding the entry of key (whose home
index is hash), or -1. -/
def get_idx (S : HState) (key : List Nat) (hash : Nat) : Option Int := do
  let hs ← S.slots[hash]?
  if hs.count > 0 then getIdxLoop S key hash 0 hash (S.maxslots + 1)
  else pure (-1)

/-- Value-chain walk of get_data: concatenate size bytes per slot, ext-shape
for extension slots and pair-shape otherwise, following link until -1. -/
def getDataChain (S : HState) : Nat → Nat → Option (List Nat)
  | _, 0 => none
  | idx, fuel+1 => do
    let s ← S.slots[idx]?
    let chunk ←
      if s.count = -2 then
        if s.size ≤ EXTMAX then some (extValue s.data s.size) else none
      else
        if s.size ≤ VALMAX then some (pairValue s.data s.size) else none
    if s.link = -1 then pure chunk
    else if s.link < 0 then none
    else do
      let rest ← getDataChain S s.link.toNat fuel
      pure (chunk ++ rest)

/-- get_data of the source: assembled value of the entry at idx; `some none`
is the NULL return for a negative index (errno ENOENT). -/
def get_data (S : HState) (idx : Int) : Option (Option (List Nat)) :=
  if idx < 0 then some none
  else do
    let v ← getDataChain S idx.toNat (S.maxslots + 1)
    pure (some v)

/-- remove_slot of the source: clear count, decrement usedslots; Bool false
(errno EFAULT, no mutation) when the slot is already empty. -/
def remove_slot (S : HState) (idx : Nat) : Option (Bool × HState) := do
  let s ← S.slots[idx]?
  if s.count = 0 then pure (false, S)
  else do
    let S1 ← setSlotO S idx { s with count := 0 }
    pure (true, { S1 with usedslots := S1.usedslots - 1 })

/-- copy_slot of the source: bytewise copy of slot idx2 over the empty slot
idx1, incrementing usedslots; Bool false when the precondition fails. -/
def copy_slot (S : HState) (idx1 idx2 : Nat) : Option (Bool × HState) := do
  let s1 ← S.slots[idx1]?
  let s2 ← S.slots[idx2]?
  if s1.count ≠ 0 ∨ s2.count = 0 then pure (false, S)
  else do
    let S1 ← setSlotO S idx1 s2
    pure (true, { S1 with usedslots := S1.usedslots + 1 })

/-- Link-chain walk of remove_data: clear each slot of the chain.  The source
ignores the Bool result of remove_slot; a cyclic chain never terminates in C,
hence the fuel. -/
def removeDataLoop : Nat → HState → Nat → Option HState
  | 0, _, _ => none
  | fuel+1, S, idx => do
    let s ← S.slots[idx]?
    let link := s.link
    let r ← remove_slot S idx
    if link = -1 then pure r.2
    else if link < 0 then none
    else removeDataLoop fuel r.2 link.toNat

/-- remove_data of the source: release the slot chain anchored at idx and
decrement num; Bool false (errno EFAULT, no mutation) when idx is empty. -/
def remove_data (S : HState) (idx : Nat) : Option (Bool × HState) := do
  let s ← S.slots[idx]?
  if s.count = 0 then pure (false, S)
  else do
    let S1 ← removeDataLoop (S.maxslots + 1) S idx
    pure (true, { S1 with num := S1.num - 1 })

/-- Extension-slot allocation step inside put_data's store loop: probe for an
empty slot after newidx, memset it, mark it as an extension block linked after
newidx.  Inner none is the failed probe (NoSpace). -/
def putAlloc (S : HState) (newidx : Nat) : Option (Option (HState × Nat)) := do
  let av ← find_avail S (newidx + 1)
  if av < 0 then pure none
  else do
    let t := av.toNat
    let S1 ← setSlotO S t { count := -2, hash := newidx, link := -1, size := 0,
                            data := List.replicate EXTMAX 0 }
    let sN ← S1.slots[newidx]?
    let S2 ← setSlotO S1 newidx { sN with link := Int.ofNat t }
    pure (some (S2, t))

/-- The store loop of put_data: write value bytes chunk by chunk, allocating an
extension slot before every chunk after the first; on a failed probe free the
already committed slots via remove_data on the original index and report
ENOBUFS.  Each chunk write bumps usedslots, and the first (pair-shape) one
bumps num. -/
def putDataLoop (value : List Nat) (size : Nat) :
    Nat → HState → Nat → Nat → Nat → Option (Option Err × HState)
  | 0, _, _, _, _ => none
  | fuel+1, S, origIdx, newidx, savesize =>
    if savesize < size then do
      let r ← if savesize > 0 then putAlloc S newidx else pure (some (S, newidx))
      match r with
      | none => do
        let rd ← remove_data S origIdx
        pure (some Err.ENOBUFS, rd.2)
      | some (S1, cur) => do
        let s ← S1.slots[cur]?
        let isExt := s.count = -2
        let cap := if isExt then EXTMAX else VALMAX
        let copysize := min (size - savesize) cap
        let chunk := (value.drop savesize).take copysize
        let d2 := if isExt then writeBytes s.data 0 chunk else writeBytes s.data 34 chunk
        let S2 ← setSlotO S1 cur { s with data := d2, size := copysize }
        let S3 := if isExt then S2 else { S2 with num := S2.num + 1 }
        let S4 := { S3 with usedslots := S3.usedslots + 1 }
        putDataLoop value size fuel S4 origIdx cur (savesize + copysize)
    else pure (none, S)

/-- put_data of the source: write the key fields of slot idx (count, hash,
strncpy'd key, fingerprint, keylen, link -1) and then store the value through
the chunk loop.  EFAULT when the slot is not empty.  Note the size field is
only written inside the loop, so a zero-length value leaves it stale. -/
def put_data (S : HState) (idx : Nat) (hash : Nat) (key value : List Nat)
    (size : Nat) (count : Int) : Option (Option Err × HState) := do
  let s ← S.slots[idx]?
  if s.count ≠ 0 then pure (some Err.EFAULT, S)
  else do
    let keylen := key.length
    let d0 := writeBytes s.data 0 (strncpyKey key)
    let d1 := writeBytes d0 16 (md5Model key)
    let d2 := writeBytes d1 32 [keylen % 256, (keylen / 256) % 256]
    let S1 ← setSlotO S idx { s with count := count, hash := hash, link := -1, data := d2 }
    putDataLoop value size (size + 1) S1 idx idx 0

/-- Collision-sibling scan of remove_by_idx's leading-with-collisions branch:
from idx+1, wrapping, find a slot with count -1 and the target hash; inner
none is the wrapped scan (EFAULT). -/
def findCollLoop (S : HState) (idx : Nat) (targetHash : Nat) : Nat → Nat → Option (Option Nat)
  | _, 0 => none
  | i, fuel+1 =>
    let i2 := if S.maxslots ≤ i then 0 else i
    if i2 = idx then pure none
    else do
      let s ← S.slots[i2]?
      if s.count = -1 ∧ s.hash = targetHash then pure (some i2)
      else findCollLoop S idx targetHash (i2 + 1) fuel

/-- qhasharr_remove_by_idx of the source.  Dispatches on the count of the slot
at idx: 1 releases the chain; greater than 1 relocates a colliding sibling
into the freed home index; -1 decrements the leading count and releases the
chain; 0 and -2 are ENOENT; a negative idx is EINVAL.  The result pairs the
errno (none on success) with the final state. -/
def qhasharr_remove_by_idx (S : HState) (idx : Int) : Option (Option Err × HState) :=
  if idx < 0 then pure (some Err.EINVAL, S)
  else do
    let s ← S.slots[idx.toNat]?
    if s.count = 1 then do
      let rd ← remove_data S idx.toNat
      pure (none, rd.2)
    else if s.count > 1 then do
      let r ← findCollLoop S idx.toNat s.hash (idx.toNat + 1) (S.maxslots + 2)
      match r with
      | none => pure (some Err.EFAULT, S)
      | some i2 => do
        let rd ← remove_data S idx.toNat
        let cp ← copy_slot rd.2 idx.toNat i2
        let rs ← remove_slot cp.2 i2
        let si ← rs.2.slots[idx.toNat]?
        let S4 ← setSlotO rs.2 idx.toNat { si with count := s.count - 1 }
        let si2 ← S4.slots[idx.toNat]?
        if si2.link = -1 then pure (none, S4)
        else if si2.link < 0 then none
        else do
          let sl ← S4.slots[si2.link.toNat]?
          let S5 ← setSlotO S4 si2.link.toNat { sl with hash := idx.toNat }
          pure (none, S5)
    else if s.count = -1 then do
      let sh ← S.slots[s.hash]?
      if sh.count ≤ 1 then pure (some Err.EFAULT, S)
      else do
        let S1 ← setSlotO S s.hash { sh with count := sh.count - 1 }
        let rd ← remove_data S1 idx.toNat
        pure (none, rd.2)
    else pure (some Err.ENOENT, S)

/-- qhasharr_remove of the source: lookup by key, then remove by index. -/
def qhasharr_remove (S : HState) (key : List Nat) : Option (Option Err × HState) := do
  if S.maxslots = 0 then none
  else do
    let hash := mix32 key % S.maxslots
    let idx ← get_idx S key hash
    if idx < 0 then pure (some Err.ENOENT, S)
    else qhasharr_remove_by_idx S idx

/-- qhasharr_put of the source, with explicit recursion fuel for the
remove-and-reinsert replace path (the C source recurses).  Rejects a full
table with ENOBUFS before anything else; dispatches on the home slot's count:
empty stores in place, leading either replaces the same key or stores a
colliding slot, and -1 / -2 evicts the occupant to a probed slot (repairing an
evicted extension's chain) before storing in place. -/
def putFuel : Nat → HState → List Nat → List Nat → Option (Option Err × HState)
  | 0, _, _, _ => none
  | fuel+1, S, key, value =>
    if S.usedslots ≥ (S.maxslots : Int) then pure (some Err.ENOBUFS, S)
    else if S.maxslots = 0 then none
    else do
      let hash := mix32 key % S.maxslots
      let s ← S.slots[hash]?
      if s.count = 0 then
        put_data S hash hash key value value.length 1
      else if s.count > 0 then do
        let idx ← get_idx S key hash
        if idx ≥ 0 then do
          let rm ← qhasharr_remove S key
          putFuel fuel rm.2 key value
        else do
          let av ← find_avail S hash
          if av < 0 then pure (some Err.ENOBUFS, S)
          else do
            let pd ← put_data S av.toNat hash key value value.length (-1)
            match pd.1 with
            | some e => pure (some e, pd.2)
            | none => do
              let sh ← pd.2.slots[hash]?
              let S2 ← setSlotO pd.2 hash { sh with count := sh.count + 1 }
              pure (none, S2)
      else do
        let av ← find_avail S (hash + 1)
        if av < 0 then pure (some Err.ENOBUFS, S)
        else do
          let t := av.toNat
          let cp ← copy_slot S t hash
          let rs ← remove_slot cp.2 hash
          let st ← rs.2.slots[t]?
          let S3 ←
            if st.count = -2 then do
              let sm ← rs.2.slots[st.hash]?
              let Sa ← setSlotO rs.2 st.hash { sm with link := Int.ofNat t }
              if st.link = -1 then pure Sa
              else if st.link < 0 then none
              else do
                let sl ← Sa.slots[st.link.toNat]?
                setSlotO Sa st.link.toNat { sl with hash := t }
            else pure rs.2
          put_data S3 hash hash key value value.length 1

/-- qhasharr_put with enough fuel for any chain of same-key replacements the
state can demand. -/
def qhasharr_put (S : HState) (key value : List Nat) : Option (Option Err × HState) :=
  putFuel (S.maxslots + 2) S key value

/-- qhasharr_get of the source: `some none` is the NULL return (key absent),
`some (some v)` the assembled value. -/
def qhasharr_get (S : HState) (key : List Nat) : Option (Option (List Nat)) := do
  if S.maxslots = 0 then none
  else do
    let hash := mix32 key % S.maxslots
    let idx ← get_idx S key hash
    if idx < 0 then pure none
    else get_data S idx

/-- Scan loop of qhasharr_getnext: advance the cursor past empty and extension
slots; on a hit return the (possibly truncated) stored key, the assembled
value, and the advanced cursor. -/
def getnextLoop (S : HState) : Nat → Nat → Option (Option (List Nat × List Nat × Nat))
  | _, 0 => none
  | idx, fuel+1 =>
    if idx < S.maxslots then do
      let s ← S.slots[idx]?
      if s.count = 0 ∨ s.count = -2 then getnextLoop S (idx + 1) fuel
      else do
        let keylen := min (pairKeylen s.data) KEYMAX
        let name := s.data.take keylen
        let d ← getDataChain S idx (S.maxslots + 1)
        pure (some (name, d, idx + 1))
    else pure none

/-- qhasharr_getnext of the source: `some none` is the ENOENT end of table. -/
def qhasharr_getnext (S : HState) (idx : Nat) : Option (Option (List Nat × List Nat × Nat)) :=
  getnextLoop S idx (S.maxslots + 1)

/-- qhasharr_clear of the source: zero usedslots, num and the whole slot
array; a table with usedslots 0 is returned untouched. -/
def qhasharr_clear (S : HState) : HState :=
  if S.usedslots = 0 then S
  else { S with usedslots := 0, num := 0, slots := List.replicate S.maxslots zeroSlot }

/-! Invariant checkers for the section-3 invariants of the spec, as decidable
Bool-valued functions so they can be evaluated on concrete states. -/

/-- Leading-or-colliding discriminator: the slots that carry a logical entry. -/
def entrySlot (s : Slot) : Bool := decide (1 ≤ s.count) || s.count == -1

/-- Spec invariant 1: usedslots counts the non-empty slots. -/
def inv1check (S : HState) : Bool :=
  S.usedslots == (S.slots.countP (fun s => !(s.count == 0)) : Int)

/-- Spec invariant 2 as literally stated: num counts the slots with count at
least 1. -/
def inv2LitCheck (S : HState) : Bool :=
  S.num == (S.slots.countP (fun s => decide (1 ≤ s.count)) : Int)

/-- Corrected form of spec invariant 2: num counts the leading and the
colliding slots, i.e. one slot per logical entry. -/
def inv2CorrCheck (S : HState) : Bool :=
  S.num == (S.slots.countP entrySlot : Int)

/-- Spec invariant 3 (with the data-model fact that a leading slot sits at its
own home index): a leading slot at h with count n has hash h and exactly n-1
colliding slots carrying hash h. -/
def inv3check (S : HState) : Bool :=
  (List.range S.slots.length).all (fun h =>
    match S.slots[h]? with
    | some s =>
      if 1 ≤ s.count then
        s.hash == h &&
          ((S.slots.countP (fun t => t.count == -1 && t.hash == h) : Int) == s.count - 1)
      else true
    | none => true)

/-- Spec invariant 4: an extension slot's hash back-link names a slot whose
link comes back to it, and its forward link (when set) names a slot whose hash
back-link returns. -/
def inv4check (S : HState) : Bool :=
  (List.range S.slots.length).all (fun e =>
    match S.slots[e]? with
    | some s =>
      if s.count == -2 then
        (match S.slots[s.hash]? with
         | some p => p.link == Int.ofNat e
         | none => false) &&
        (s.link == -1 ||
          (decide (0 ≤ s.link) &&
            match S.slots[s.link.toNat]? with
            | some q => q.hash == e && q.count == -2
            | none => false))
      else true
    | none => true)

/-- The slot indices of one value chain, following link until -1.  The fuel
bounds the walk; none means the chain leaves the array or cycles. -/
def chainList (S : HState) : Nat → Nat → Option (List Nat)
  | _, 0 => none
  | idx, fuel+1 => do
    let s ← S.slots[idx]?
    if s.link = -1 then pure [idx]
    else if s.link < 0 then none
    else do
      let rest ← chainList S s.link.toNat fuel
      pure (idx :: rest)

/-- Spec invariant 5: from every leading or colliding slot the link chain is
finite and duplicate-free, and every slot after the head is an extension. -/
def inv5check (S : HState) : Bool :=
  (List.range S.slots.length).all (fun i =>
    match S.slots[i]? with
    | some s =>
      if entrySlot s then
        match chainList S i (S.maxslots + 1) with
        | some L =>
          decide L.Nodup &&
            L.tail.all (fun j =>
              match S.slots[j]? with
              | some t => t.count == -2
              | none => false)
        | none => false
      else true
    | none => true)

/-- The key material stored in a pair-shape slot, which is everything the
lookup of get_idx can observe about the key. -/
def keyTriple (s : Slot) : Nat × List Nat × List Nat :=
  (pairKeylen s.data, pairKey s.data, pairMd5 s.data)

/-- Spec invariant 6: no two leading-or-colliding slots hold the same key
(observable key material is pairwise distinct). -/
def inv6check (S : HState) : Bool :=
  decide (((S.slots.filter entrySlot).map keyTriple).Nodup)

/-- Structural wellformedness of a table state implied by the section-3 data
model: the slot array has maxslots slots, every payload is EXTMAX bytes, hash
and link fields stay inside the array, and the per-slot stored size fits the
payload shape. -/
def wfCheck (S : HState) : Bool :=
  decide (S.slots.length = S.maxslots) && decide (1 ≤ S.maxslots) &&
  S.slots.all (fun s =>
    decide (s.data.length = EXTMAX) &&
    (s.count == 0 ||
      (decide (s.hash < S.maxslots) &&
       (s.link == -1 || (decide (0 ≤ s.link) && decide (s.link < (S.maxslots : Int)))) &&
       (if s.count == -2 then decide (s.size ≤ EXTMAX) else decide (s.size ≤ VALMAX)))))

/-- All section-3 invariants as literally stated in the spec. -/
def checkInvLit (S : HState) : Bool :=
  wfCheck S && inv1check S && inv2LitCheck S && inv3check S && inv4check S &&
    inv5check S && inv6check S

/-- The section-3 invariants with the corrected entry accounting (invariant 2
counts leading and colliding slots). -/
def checkInvCorr (S : HState) : Bool :=
  wfCheck S && inv1check S && inv2CorrCheck S && inv3check S && inv4check S &&
    inv5check S && inv6check S

/-! Concrete states used by the claim analyses.  Keys are byte lists; under
the modelled mix32 the single-byte keys 97 and 101 share home index 0 both mod
4 and mod 5, while 104 has home 1 mod 4 and 98 has home 1 mod 2. -/

/-- Placeholder state for extracting from Option results. -/
def emptyH : HState := ⟨0, 0, 0, []⟩

/-- The state component of an operation result. -/
def stOf (r : Option (Option Err × HState)) : HState := (r.getD (none, emptyH)).2

/-- Fresh table with 3 slots (region of 264 bytes). -/
def T3 : HState := (qhasharrCreate 264).getD emptyH

/-- Fresh table with 2 slots (region of 180 bytes). -/
def T2 : HState := (qhasharrCreate 180).getD emptyH

/-- Fresh table with 4 slots (region of 348 bytes). -/
def T4 : HState := (qhasharrCreate 348).getD emptyH

/-- Fresh table with 5 slots (region of 456 bytes). -/
def T5 : HState := (qhasharrCreate 456).getD emptyH

/-- Table of 3 slots holding key 97 with the one-byte value 7. -/
def C1afterPut : HState := stOf (qhasharr_put T3 [97] [7])

/-- The previous table after removing key 97 again: empty counters, but the
freed slot keeps its stale size and value bytes. -/
def C1afterRemove : HState := stOf (qhasharr_remove C1afterPut [97])

/-- The same table after re-inserting key 97 with a zero-length value. -/
def C1afterEmptyPut : HState := stOf (qhasharr_put C1afterRemove [97] [])

/-- Table of 5 slots holding key 97 (value 1). -/
def C2one : HState := stOf (qhasharr_put T5 [97] [1])

/-- The previous table after also inserting the colliding key 101 (value 2):
slot 0 leads with count 2 and the entry of 101 sits in a colliding slot. -/
def C2two : HState := stOf (qhasharr_put C2one [101] [2])

/-- The two-colliding-entries table after removing key 97: the sibling slot of
101 is relocated over the freed home slot. -/
def C10afterRemove : HState := stOf (qhasharr_remove C2two [97])

/-- The table after put of key 97 with value 7 followed by a same-key put of
the empty value (replace path). -/
def C4afterReplace : HState := stOf (qhasharr_put C1afterPut [97] [])

/-- A 40-byte value (needs one extension slot beyond the 32 inline bytes). -/
def v40 : List Nat := List.replicate 40 5

/-- Another 40-byte value. -/
def v40b : List Nat := List.replicate 40 6

/-- Table of 4 slots holding key 97 (one slot, home 0). -/
def C9one : HState := stOf (qhasharr_put T4 [97] [9])

/-- The previous table after inserting the colliding key 101 with a 40-byte
value: a colliding slot at index 1 plus an extension slot at index 2. -/
def C9two : HState := stOf (qhasharr_put C9one [101] v40)

/-- The previous table after the failed put of key 104 (home 1): the colliding
slot of 101 is evicted from index 1 to index 3, the new entry runs out of
space mid-chain and is rolled back with ENOBUFS. -/
def C9afterFail : HState := stOf (qhasharr_put C9two [104] v40b)

/-- Full table of 2 slots (keys 97 and 98 land on homes 0 and 1 mod 2). -/
def C6full : HState := stOf (qhasharr_put (stOf (qhasharr_put T2 [97] [1])) [98] [2])

/-- Table of 2 slots after put and remove of key 97: usedslots is 0 but the
freed slot keeps stale bytes. -/
def C8stale : HState := stOf (qhasharr_remove (stOf (qhasharr_put T2 [97] [7])) [97])

/-- A leading pair-shape payload for the direct counterexample states: key k,
one value byte v. -/
def mkPairData (k : Nat) (v : Nat) : List Nat :=
  writeBytes (writeBytes (writeBytes (writeBytes zeroSlot.data 0 (strncpyKey [k]))
    16 (md5Model [k])) 32 [1, 0]) 34 [v]

/-- Directly built 4-slot state satisfying every literal section-3 invariant:
slot 0 leads (count 2, key 97), slot 1 collides (key 101), and num is 1 as the
literal invariant 2 demands. -/
def C3lit : HState :=
  ⟨4, 2, 1,
   [⟨2, 0, -1, 1, mkPairData 97 7⟩,
    ⟨-1, 0, -1, 1, mkPairData 101 8⟩,
    zeroSlot, zeroSlot]⟩

/-- The literal-invariant state after remove_by_idx on its leading slot. -/
def C3litAfter : HState := stOf (qhasharr_remove_by_idx C3lit 0)

/-- Equality of every slot field except count: what a removal is claimed to
leave untouched on each slot. -/
def sameButCount (a b : Slot) : Prop :=
  a.hash = b.hash ∧ a.link = b.link ∧ a.size = b.size ∧ a.data = b.data

/-- A state change that keeps the geometry and every slot field except the
count fields: the frame effect claimed for removal. -/
def countOnlyChange (S T : HState) : Prop :=
  T.maxslots = S.maxslots ∧ T.slots.length = S.slots.length ∧
  ∀ j, sameButCount (T.slots.getD j zeroSlot) (S.slots.getD j zeroSlot)

/-! Proposition-level invariants of spec section 3, used by the general
preservation theorems.  Every component is decidable, so concrete states can
discharge them by decide. -/

/-- The slot at index i (zeroSlot out of range; the invariants bound i). -/
def slotAt (S : HState) (i : Nat) : Slot := S.slots.getD i zeroSlot

/-- A slot carrying a logical entry: leading or colliding. -/
def entryP (s : Slot) : Prop := 1 ≤ s.count ∨ s.count = -1

instance (s : Slot) : Decidable (entryP s) := by
  unfold entryP
  infer_instance

/-- Two slots whose stored key material can be matched by one and the same
lookup key: equal keylen, and equal inline bytes (short keys) or equal
KEYMAX-prefix and fingerprint (long keys). -/
def matchEquiv (s t : Slot) : Prop :=
  pairKeylen s.data = pairKeylen t.data ∧
  (if pairKeylen s.data ≤ KEYMAX
   then s.data.take (pairKeylen s.data) = t.data.take (pairKeylen t.data)
   else s.data.take KEYMAX = t.data.take KEYMAX ∧ pairMd5 s.data = pairMd5 t.data)

instance (s t : Slot) : Decidable (matchEquiv s t) := by
  unfold matchEquiv
  infer_instance

/-- Number of colliding slots whose home is h. -/
def collCountAt (S : HState) (h : Nat) : Nat :=
  S.slots.countP (fun t => t.count == -1 && t.hash == h)

/-- Per-slot wellformedness from the section-3 data model: full payload,
in-range hash and link for occupied slots, and a size fitting the payload
shape. -/
def slotWf (S : HState) (j : Nat) : Prop :=
  (slotAt S j).data.length = EXTMAX ∧
  ((slotAt S j).count ≠ 0 →
    (slotAt S j).hash < S.maxslots ∧
    ((slotAt S j).link = -1 ∨
      (0 ≤ (slotAt S j).link ∧ (slotAt S j).link < (S.maxslots : Int))) ∧
    ((slotAt S j).count = -2 → (slotAt S j).size ≤ EXTMAX) ∧
    ((slotAt S j).count ≠ -2 → (slotAt S j).size ≤ VALMAX))

instance (S : HState) (j : Nat) : Decidable (slotWf S j) := by
  unfold slotWf
  infer_instance

/-- One predecessor per chained slot (the formal content of invariants 4-5):
two occupied slots with the same forward link are the same slot. -/
def linkInjBody (S : HState) (j k : Nat) : Prop :=
  (slotAt S j).count ≠ 0 → (slotAt S k).count ≠ 0 →
  (slotAt S j).link = (slotAt S k).link → (slotAt S j).link ≠ -1 → j = k

instance (S : HState) (j k : Nat) : Decidable (linkInjBody S j k) := by
  unfold linkInjBody
  infer_instance

/-- linkInjBody bounded over the second index. -/
def linkInjInner (S : HState) (j : Nat) : Prop :=
  ∀ k, k < S.maxslots → linkInjBody S j k

instance (S : HState) (j : Nat) : Decidable (linkInjInner S j) := by
  unfold linkInjInner
  infer_instance

/-- Spec invariant 6 between two slots: two distinct entry-carrying slots may
not hold matchable key material. -/
def keyUniqBody (S : HState) (j k : Nat) : Prop :=
  j ≠ k → entryP (slotAt S j) → entryP (slotAt S k) →
    ¬ matchEquiv (slotAt S j) (slotAt S k)

instance (S : HState) (j k : Nat) : Decidable (keyUniqBody S j k) := by
  unfold keyUniqBody
  infer_instance

/-- keyUniqBody bounded over the second index. -/
def keyUniqInner (S : HState) (j : Nat) : Prop :=
  ∀ k, k < S.maxslots → keyUniqBody S j k

instance (S : HState) (j : Nat) : Decidable (keyUniqInner S j) := by
  unfold keyUniqInner
  infer_instance

/-- Executable check of spec invariant 5 for the chain anchored at j: the walk
terminates inside the array, visits no slot twice, starts at j and continues
through extension slots only. -/
def chainCheck (S : HState) (j : Nat) : Bool :=
  match chainList S j (S.maxslots + 1) with
  | some L =>
    decide L.Nodup && L.all (fun t => decide (t < S.maxslots)) &&
      (L.head? == some j) && L.tail.all (fun t => (slotAt S t).count == -2)
  | none => false

/-- The section-3 invariants (with the corrected entry accounting of invariant
2, counting leading and colliding slots) over a table state: geometry, slot
wellformedness, counter correctness, collision accounting anchored at the home
index, extension back-links, links landing on extension slots, at most one
predecessor per slot (the formal content of invariants 4-5), terminating
duplicate-free chains, and pairwise unmatchable key material. -/
structure Inv (S : HState) : Prop where
  lenEq : S.slots.length = S.maxslots
  capPos : 0 < S.maxslots
  wf : ∀ j, j < S.maxslots → slotWf S j
  usedEq : S.usedslots = (S.slots.countP (fun s => !(s.count == 0)) : Int)
  numEq : S.num = (S.slots.countP entrySlot : Int)
  leadOk : ∀ j, j < S.maxslots → 1 ≤ (slotAt S j).count →
    (slotAt S j).hash = j ∧ (collCountAt S j : Int) = (slotAt S j).count - 1
  extBk : ∀ e, e < S.maxslots → (slotAt S e).count = -2 →
    (slotAt S (slotAt S e).hash).count ≠ 0 ∧
    (slotAt S (slotAt S e).hash).link = Int.ofNat e
  nxtExt : ∀ j, j < S.maxslots → (slotAt S j).count ≠ 0 → (slotAt S j).link ≠ -1 →
    (slotAt S (slotAt S j).link.toNat).count = -2
  linkInj : ∀ j, j < S.maxslots → linkInjInner S j
  chainsOk : ∀ j, j < S.maxslots → entryP (slotAt S j) → chainCheck S j = true
  keyUniq : ∀ j, j < S.maxslots → keyUniqInner S j

/-- Wrap-around successor used by every linear scan of the source. -/
def wrapIdx (n p : Nat) : Nat := if n ≤ p then 0 else p

/-- Ring distance from position a to position b when scanning forward with
wrap-around (positions below n). -/
def rdist (n a b : Nat) : Nat := if a ≤ b then b - a else b + n - a

/-- The sequence of positions a wrapping scan visits: fuel entries starting at
p (taken modulo n at each step). -/
def ringList (n : Nat) : Nat → Nat → List Nat
  | _, 0 => []
  | p, fuel+1 => wrapIdx n p :: ringList n (wrapIdx n p + 1) fuel

/-- Candidate test of the lookup scan: the slot's home is h and it is leading
or colliding. -/
def candB (S : HState) (h p : Nat) : Bool :=
  ((slotAt S p).hash == h) && (decide (0 < (slotAt S p).count) || ((slotAt S p).count == -1))

/-- The first position in scan order from h whose slot is a candidate for home
h and matches the lookup key: the index get_idx returns under the section-3
invariants. -/
def firstMatch (S : HState) (key : List Nat) (h : Nat) : Option Nat :=
  (ringList S.maxslots h S.maxslots).find? (fun p => candB S h p && matchKey key (slotAt S p))

/-! Claim theorems. -/

/-- C1: the round-trip law `put(k, v); get(k) == v` fails for the zero-length
value.  On a 3-slot table satisfying every section-3 invariant (reached by
put of key 97 with value [7] and remove of it, which leaves the freed slot's
size and payload bytes stale), put of key 97 with the empty value succeeds,
but get returns the one stale byte [7] instead of the empty buffer: put_data's
store loop never runs for size 0, so the slot's size field keeps its stale
value 1. -/
theorem C1_roundtrip_fails_for_empty_value :
    checkInvLit C1afterRemove = true ∧
    qhasharr_put C1afterRemove [97] [] = some (none, C1afterEmptyPut) ∧
    qhasharr_get C1afterEmptyPut [97] = some (some [7]) ∧
    some (some [7]) ≠ some (some ([] : List Nat)) := by
  refine ⟨by decide, by decide, by decide, by decide⟩

/-- C2: counterexample.  The literal spec formula `entries = #{slots with
count ≥ 1}` is violated by the very first hash collision: on a 5-slot table
holding key 97 (a state satisfying every literal section-3 invariant), the
public put of the colliding key 101 yields num = 2 while only one slot (the
leading one, count 2) has count ≥ 1 — the entry of 101 lives in a slot with
count = -1.  The code counts one num per logical entry, leading or colliding. -/
theorem C2_collision_breaks_literal_entry_count :
    checkInvLit C2one = true ∧
    qhasharr_put C2one [101] [2] = some (none, C2two) ∧
    C2two.num = 2 ∧
    (C2two.slots.countP (fun s => decide (1 ≤ s.count))) = 1 := by
  refine ⟨by decide, by decide, by decide, by decide⟩

/-- C3: counterexample.  On a 4-slot state satisfying every literal section-3
invariant (slot 0 leading with count 2, slot 1 its colliding sibling, num = 1
as the literal invariant 2 dictates), remove_by_idx on the leading slot
succeeds but the literal invariants do not hold afterwards: num drops to 0
while the relocated sibling still has count 1. -/
theorem C3_literal_invariants_not_preserved :
    checkInvLit C3lit = true ∧
    (C3lit.slots.getD 0 zeroSlot).count = 2 ∧
    qhasharr_remove_by_idx C3lit 0 = some (none, C3litAfter) ∧
    checkInvLit C3litAfter = false := by
  refine ⟨by decide, by decide, by decide, by decide⟩

/-- C4: the replace law `put(k, v1); put(k, v2); get(k) == v2` with entries
unchanged fails when v2 is the zero-length value: after put of key 97 with
value [7] (num = 1), the second put succeeds through the remove-and-reinsert
path, but get returns the stale [7] (not the empty v2) and num is 0 (not 1),
because put_data's store loop never runs for a zero-length value. -/
theorem C4_replace_with_empty_value_fails :
    qhasharr_put T3 [97] [7] = some (none, C1afterPut) ∧
    C1afterPut.num = 1 ∧
    qhasharr_put C1afterPut [97] [] = some (none, C4afterReplace) ∧
    qhasharr_get C4afterReplace [97] = some (some [7]) ∧
    C4afterReplace.num = 0 := by
  refine ⟨by decide, by decide, by decide, by decide, by decide⟩

/-- C5: the create-mode size check is not `size < sizeof(Header) +
sizeof(Slot)`.  The source compares memsize against sizeof(qhasharr_t) — the
malloc'ed handle full of method pointers (120 bytes) — instead of the header,
so a 100-byte region, big enough for the 12-byte header plus one 84-byte slot,
is rejected with EINVAL, contradicting the source's own doc comment ("It must
bigger enough to allocate at least 1 slot").  A 121-byte region does create a
one-slot table. -/
theorem C5_create_rejects_one_slot_region :
    sizeofData + sizeofSlot ≤ 100 ∧
    qhasharrCreate 100 = none ∧
    100 ≤ sizeofHandle ∧
    qhasharrCreate 121 = some ⟨1, 0, 0, List.replicate 1 zeroSlot⟩ := by
  refine ⟨by decide, by decide, by decide, by decide⟩

/-- C6: on a full table (usedslots at capacity) put fails with ENOBUFS and
returns the state unchanged, whatever the key and value — the capacity check
is the first thing qhasharr_put does, before the same-key lookup. -/
theorem C6_put_on_full_table_no_space (S : HState) (key value : List Nat)
    (h : (S.maxslots : Int) ≤ S.usedslots) :
    qhasharr_put S key value = some (some Err.ENOBUFS, S) := by
  show putFuel (S.maxslots + 1 + 1) S key value = some (some Err.ENOBUFS, S)
  rw [putFuel]
  simp [ge_iff_le, h]

/-- Witness for C6: the full 2-slot table rejects a further insert of key 99
(whose entry is not present) without mutation. -/
theorem C6_witness :
    qhasharr_put C6full [99] [3] = some (some Err.ENOBUFS, C6full) :=
  C6_put_on_full_table_no_space C6full [99] [3] (by decide)

/-- C7: counterexample.  The claim includes indices outside [0, capacity),
but the source checks only negative indices: at index 2 of a 2-slot table
remove_by_idx reads slot 2 out of bounds (undefined behaviour, none in this
embedding) instead of failing NotFound with the state unchanged. -/
theorem C7_out_of_range_index_undefined :
    qhasharr_remove_by_idx T2 2 = none ∧
    ¬ qhasharr_remove_by_idx T2 2 = some (some Err.ENOENT, T2) := by
  refine ⟨by decide, by decide⟩

/-- C7 amended: a negative index fails EINVAL with the state unchanged, and an
in-range index holding an empty or extension slot fails ENOENT with the state
unchanged; the source performs no upper bounds check, so indices at or past
capacity are undefined instead. -/
theorem C7_nonentry_index_fails_unchanged (S : HState) (idx : Int) :
    (idx < 0 → qhasharr_remove_by_idx S idx = some (some Err.EINVAL, S)) ∧
    (∀ s, ¬ idx < 0 → S.slots[idx.toNat]? = some s → s.count = 0 ∨ s.count = -2 →
      qhasharr_remove_by_idx S idx = some (some Err.ENOENT, S)) := by
  constructor
  · intro h
    simp [qhasharr_remove_by_idx, h]
  · intro s hneg hs hc
    simp only [qhasharr_remove_by_idx, if_neg hneg, hs, Option.some_bind]
    rcases hc with h0 | h2
    · simp [h0]
    · simp [h2]

/-- Witness for C7: on the fresh 2-slot table, remove_by_idx fails EINVAL at
index -3 and ENOENT at the empty in-range index 1, both without mutation. -/
theorem C7_witness :
    qhasharr_remove_by_idx T2 (-3) = some (some Err.EINVAL, T2) ∧
    qhasharr_remove_by_idx T2 1 = some (some Err.ENOENT, T2) :=
  ⟨(C7_nonentry_index_fails_unchanged T2 (-3)).1 (by decide),
   (C7_nonentry_index_fails_unchanged T2 1).2 zeroSlot (by decide) (by decide)
     (Or.inl (by decide))⟩

/-- C8: counterexample.  clear does not zero the slot array on every reachable
state: it returns immediately when usedslots is 0.  The reachable 2-slot state
after put and remove of key 97 has usedslots 0 but stale nonzero bytes in the
freed slot, and clear leaves them all in place. -/
theorem C8_clear_skips_stale_bytes :
    C8stale.usedslots = 0 ∧
    qhasharr_clear C8stale = C8stale ∧
    C8stale.slots ≠ List.replicate C8stale.maxslots zeroSlot := by
  refine ⟨by decide, by decide, by decide⟩

/-- Helper: indexing a fully zeroed slot array. -/
theorem getElem?_replicate_zero {n i : Nat} (h : i < n) :
    (List.replicate n zeroSlot)[i]? = some zeroSlot := by
  simp [List.getElem?_replicate, h]

/-- Helper: lookup of any key on a fully zeroed table reports the key absent
(the home slot has count 0). -/
theorem get_on_zeroed (n : Nat) (hpos : 0 < n) (u e : Int) (key : List Nat) :
    qhasharr_get ⟨n, u, e, List.replicate n zeroSlot⟩ key = some none := by
  have hmod : mix32 key % n < n := Nat.mod_lt _ hpos
  simp only [qhasharr_get, get_idx]
  rw [if_neg (Nat.pos_iff_ne_zero.mp hpos)]
  simp only [getElem?_replicate_zero hmod, Option.some_bind]
  norm_num [zeroSlot]

/-- Helper: the getnext scan over a fully zeroed slot array skips every slot
and ends with the not-found result, given fuel covering the remaining range. -/
theorem getnextLoop_zeroed (n : Nat) (u e : Int) :
    ∀ (k idx : Nat), n ≤ idx + k →
      getnextLoop ⟨n, u, e, List.replicate n zeroSlot⟩ idx (k + 1) = some none := by
  intro k
  induction k with
  | zero =>
    intro idx h
    rw [getnextLoop]
    simp [show ¬ idx < n by omega]
  | succ k ih =>
    intro idx h
    rw [getnextLoop]
    by_cases hlt : idx < n
    · simp only [hlt, if_true, getElem?_replicate_zero hlt]
      exact ih (idx + 1) (by omega)
    · simp [hlt]

/-- C8 amended: clear zeroes the counters and every byte of the slot array
whenever usedslots is nonzero on entry, and then any get and any getnext both
report not-found; when usedslots is already 0 it returns without touching the
region, so stale non-count bytes survive it. -/
theorem C8_clear_behaviour (S : HState) (hpos : 0 < S.maxslots) :
    (S.usedslots = 0 → qhasharr_clear S = S) ∧
    (S.usedslots ≠ 0 →
      qhasharr_clear S = ⟨S.maxslots, 0, 0, List.replicate S.maxslots zeroSlot⟩ ∧
      (∀ key, qhasharr_get (qhasharr_clear S) key = some none) ∧
      (∀ cur, qhasharr_getnext (qhasharr_clear S) cur = some none)) := by
  constructor
  · intro h
    simp [qhasharr_clear, h]
  · intro h
    have hc : qhasharr_clear S = ⟨S.maxslots, 0, 0, List.replicate S.maxslots zeroSlot⟩ := by
      simp [qhasharr_clear, h]
    refine ⟨hc, ?_, ?_⟩
    · intro key
      rw [hc]
      exact get_on_zeroed S.maxslots hpos 0 0 key
    · intro cur
      rw [hc]
      show getnextLoop ⟨S.maxslots, 0, 0, List.replicate S.maxslots zeroSlot⟩ cur
        (S.maxslots + 1) = some none
      exact getnextLoop_zeroed S.maxslots 0 0 S.maxslots cur (by omega)

/-- Witness for C8: applying the amended clear behaviour to the populated
2-slot table: clear zeroes it and get of key 97 and a fresh getnext both
report not-found. -/
theorem C8_witness :
    qhasharr_clear C6full = ⟨2, 0, 0, List.replicate 2 zeroSlot⟩ ∧
    qhasharr_get (qhasharr_clear C6full) [97] = some none ∧
    qhasharr_getnext (qhasharr_clear C6full) 0 = some none := by
  have h := (C8_clear_behaviour C6full (by decide)).2 (by decide)
  exact ⟨h.1, h.2.1 [97], h.2.2 0⟩

/-- C9: after put of key 104 (home index 1) finds slot 1 occupied by the
colliding slot of entry 101, evicts it to slot 3 and then fails ENOBUFS while
extending the new value chain, the rollback removes only the new entry's
slots and the evicted occupant stays relocated and retrievable — but its
extension slot 2 still carries the stale back-link hash 1 (slot 1's link is
-1 after the rollback), so section-3 invariant 4 does not hold: the source
repairs chain links only when the evicted occupant is an extension slot, not
a colliding slot with a value chain. -/
theorem C9_eviction_rollback_keeps_stale_backlink :
    checkInvCorr C9two = true ∧
    qhasharr_put C9two [104] v40b = some (some Err.ENOBUFS, C9afterFail) ∧
    (C9afterFail.slots.getD 3 zeroSlot).count = -1 ∧
    (C9afterFail.slots.getD 2 zeroSlot).count = -2 ∧
    (C9afterFail.slots.getD 2 zeroSlot).hash = 1 ∧
    (C9afterFail.slots.getD 1 zeroSlot).link = -1 ∧
    inv4check C9afterFail = false ∧
    qhasharr_get C9afterFail [101] = some (some v40) ∧
    C9afterFail ≠ C9two := by
  refine ⟨by decide, by decide, by decide, by decide, by decide, by decide, by decide,
    by decide, by decide⟩

/-- C10: counterexample.  Removal does not always leave the freed slots' bytes
in place: removing key 97, whose leading slot 0 has count 2, relocates the
colliding sibling (key 101) over the freed home slot by a full bytewise copy,
so the removed entry's key and payload bytes at slot 0 are overwritten during
the remove itself, not by a later insertion. -/
theorem C10_relocation_overwrites_freed_leading_slot :
    (C2two.slots.getD 0 zeroSlot).count = 2 ∧
    pairKey (C2two.slots.getD 0 zeroSlot).data = strncpyKey [97] ∧
    qhasharr_remove C2two [97] = some (none, C10afterRemove) ∧
    pairKey (C10afterRemove.slots.getD 0 zeroSlot).data = strncpyKey [101] ∧
    (C10afterRemove.slots.getD 0 zeroSlot).data ≠ (C2two.slots.getD 0 zeroSlot).data := by
  refine ⟨by decide, by decide, by decide, by decide, by decide⟩

/-- Helper: sameButCount is reflexive. -/
theorem sameButCount_refl (a : Slot) : sameButCount a a := ⟨rfl, rfl, rfl, rfl⟩

/-- Helper: sameButCount is transitive. -/
theorem sameButCount_trans {a b c : Slot} (h1 : sameButCount a b) (h2 : sameButCount b c) :
    sameButCount a c :=
  ⟨h1.1.trans h2.1, h1.2.1.trans h2.2.1, h1.2.2.1.trans h2.2.2.1, h1.2.2.2.trans h2.2.2.2⟩

/-- Helper: countOnlyChange is reflexive. -/
theorem countOnlyChange_refl (S : HState) : countOnlyChange S S :=
  ⟨rfl, rfl, fun _ => sameButCount_refl _⟩

/-- Helper: countOnlyChange composes. -/
theorem countOnlyChange_trans {S T U : HState} (h1 : countOnlyChange S T)
    (h2 : countOnlyChange T U) : countOnlyChange S U :=
  ⟨h2.1.trans h1.1, h2.2.1.trans h1.2.1,
   fun j => sameButCount_trans (h2.2.2 j) (h1.2.2 j)⟩

/-- Helper: a state whose slot list is the old one with slot i replaced by a
slot agreeing on every field but count is a countOnlyChange of the old. -/
theorem countOnlyChange_of_set {S T : HState} {i : Nat} (s t : Slot)
    (hs : S.slots[i]? = some s) (hsam : sameButCount t s)
    (hm : T.maxslots = S.maxslots) (hsl : T.slots = S.slots.set i t) :
    countOnlyChange S T := by
  refine ⟨hm, by rw [hsl]; exact List.length_set S.slots i t, fun j => ?_⟩
  rw [hsl]
  simp only [List.getD_eq_getElem?_getD, List.getElem?_set]
  by_cases hij : i = j
  · subst hij
    have hlen : i < S.slots.length := by
      by_contra hh
      rw [List.getElem?_eq_none (Nat.le_of_not_lt hh)] at hs
      exact Option.noConfusion hs
    rw [if_pos rfl, if_pos hlen, hs]
    exact hsam
  · rw [if_neg hij]
    exact sameButCount_refl _

/-- Helper: remove_slot changes only the count field of its slot (and the
usedslots counter). -/
theorem remove_slot_frame {S : HState} {i : Nat} {r : Bool × HState}
    (h : remove_slot S i = some r) : r.2.num = S.num ∧ countOnlyChange S r.2 := by
  rcases hs : S.slots[i]? with _ | s
  · rw [remove_slot, hs] at h
    simp at h
  · rw [remove_slot, hs] at h
    simp only [Option.bind_eq_bind, Option.some_bind] at h
    by_cases hc : s.count = 0
    · rw [if_pos hc] at h
      simp only [Option.pure_def, Option.some.injEq] at h
      rw [← h]
      exact ⟨rfl, countOnlyChange_refl S⟩
    · rw [if_neg hc] at h
      have hlen : i < S.slots.length := by
        by_contra hh
        rw [List.getElem?_eq_none (Nat.le_of_not_lt hh)] at hs
        exact Option.noConfusion hs
      rw [setSlotO, if_pos hlen] at h
      simp only [Option.bind_eq_bind, Option.some_bind, Option.pure_def,
        Option.some.injEq] at h
      rw [← h]
      exact ⟨rfl, countOnlyChange_of_set s { s with count := 0 } hs ⟨rfl, rfl, rfl, rfl⟩ rfl rfl⟩

/-- Helper: the chain walk of remove_data changes only count fields. -/
theorem removeDataLoop_frame :
    ∀ (fuel : Nat) (S : HState) (i : Nat) (S2 : HState),
      removeDataLoop fuel S i = some S2 → S2.num = S.num ∧ countOnlyChange S S2 := by
  intro fuel
  induction fuel with
  | zero =>
    intro S i S2 h
    rw [removeDataLoop] at h
    exact Option.noConfusion h
  | succ fuel ih =>
    intro S i S2 h
    rw [removeDataLoop] at h
    rcases hs : S.slots[i]? with _ | s
    · rw [hs] at h; simp at h
    · rw [hs] at h
      simp only [Option.bind_eq_bind, Option.some_bind] at h
      rcases hr : remove_slot S i with _ | r
      · rw [hr] at h; simp at h
      · rw [hr] at h
        simp only [Option.some_bind] at h
        have hf := remove_slot_frame hr
        by_cases hl : s.link = -1
        · rw [if_pos hl] at h
          simp only [Option.pure_def, Option.some.injEq] at h
          rw [← h]
          exact hf
        · rw [if_neg hl] at h
          by_cases hl2 : s.link < 0
          · rw [if_pos hl2] at h; exact Option.noConfusion h
          · rw [if_neg hl2] at h
            have hrec := ih r.2 s.link.toNat S2 h
            exact ⟨hrec.1.trans hf.1, countOnlyChange_trans hf.2 hrec.2⟩

/-- Helper: remove_data changes only count fields (and the counters). -/
theorem remove_data_frame {S : HState} {i : Nat} {r : Bool × HState}
    (h : remove_data S i = some r) : countOnlyChange S r.2 := by
  rcases hs : S.slots[i]? with _ | s
  · rw [remove_data, hs] at h; simp at h
  · rw [remove_data, hs] at h
    simp only [Option.bind_eq_bind, Option.some_bind] at h
    by_cases hc : s.count = 0
    · rw [if_pos hc] at h
      simp only [Option.pure_def, Option.some.injEq] at h
      rw [← h]
      exact countOnlyChange_refl S
    · rw [if_neg hc] at h
      rcases hL : removeDataLoop (S.maxslots + 1) S i with _ | S2
      · rw [hL] at h; simp at h
      · rw [hL] at h
        simp only [Option.bind_eq_bind, Option.some_bind, Option.pure_def,
          Option.some.injEq] at h
        rw [← h]
        exact (removeDataLoop_frame _ S i S2 hL).2

/-- C10 amended: removal of a solitary leading slot (count 1) or of a
colliding slot (count -1) through remove_by_idx — the paths taken by remove
and by put's internal replace except when the removed key leads a collision
chain — changes only count fields of the slot array besides the header
counters: every freed slot's key bytes, fingerprint, keylen, size, link and
payload bytes stay in the region.  (When the removed slot leads a collision
chain, remove_by_idx additionally relocates a colliding sibling over the freed
home slot, overwriting those bytes at once, as the counterexample shows.) -/
theorem C10_remove_changes_only_count_fields (S : HState) (idx : Int) (e : Option Err)
    (S2 : HState) (hin : idx.toNat < S.slots.length)
    (hc : (S.slots.getD idx.toNat zeroSlot).count = 1 ∨
      (S.slots.getD idx.toNat zeroSlot).count = -1)
    (h : qhasharr_remove_by_idx S idx = some (e, S2)) :
    countOnlyChange S S2 := by
  have hs : S.slots[idx.toNat]? = some (S.slots.getD idx.toNat zeroSlot) := by
    rw [List.getD_eq_getElem?_getD, List.getElem?_eq_getElem hin]
    rfl
  set s := S.slots.getD idx.toNat zeroSlot with hsdef
  by_cases hneg : idx < 0
  · rw [qhasharr_remove_by_idx, if_pos hneg] at h
    simp only [Option.pure_def, Option.some.injEq, Prod.mk.injEq] at h
    rw [← h.2]
    exact countOnlyChange_refl S
  · rw [qhasharr_remove_by_idx, if_neg hneg] at h
    rw [hs] at h
    simp only [Option.bind_eq_bind, Option.some_bind] at h
    rcases hc with h1 | h1
    · rw [if_pos h1] at h
      rcases hrd : remove_data S idx.toNat with _ | rd
      · rw [hrd] at h; simp at h
      · rw [hrd] at h
        simp only [Option.bind_eq_bind, Option.some_bind, Option.pure_def,
          Option.some.injEq, Prod.mk.injEq] at h
        rw [← h.2]
        exact remove_data_frame hrd
    · rw [if_neg (by rw [h1]; decide), if_neg (by rw [h1]; decide), if_pos h1] at h
      rcases hsh : S.slots[s.hash]? with _ | sh
      · rw [hsh] at h; simp at h
      · rw [hsh] at h
        simp only [Option.bind_eq_bind, Option.some_bind] at h
        by_cases hle : sh.count ≤ 1
        · rw [if_pos hle] at h
          simp only [Option.pure_def, Option.some.injEq, Prod.mk.injEq] at h
          rw [← h.2]
          exact countOnlyChange_refl S
        · rw [if_neg hle] at h
          have hlen2 : s.hash < S.slots.length := by
            by_contra hh
            rw [List.getElem?_eq_none (Nat.le_of_not_lt hh)] at hsh
            exact Option.noConfusion hsh
          rw [setSlotO, if_pos hlen2] at h
          simp only [Option.bind_eq_bind, Option.some_bind] at h
          have hstep1 : countOnlyChange S
              { S with slots := S.slots.set s.hash { sh with count := sh.count - 1 } } :=
            countOnlyChange_of_set sh { sh with count := sh.count - 1 } hsh
              ⟨rfl, rfl, rfl, rfl⟩ rfl rfl
          rcases hrd : remove_data
              { S with slots := S.slots.set s.hash { sh with count := sh.count - 1 } }
              idx.toNat with _ | rd
          · rw [hrd] at h; simp at h
          · rw [hrd] at h
            simp only [Option.bind_eq_bind, Option.some_bind, Option.pure_def,
              Option.some.injEq, Prod.mk.injEq] at h
            rw [← h.2]
            exact countOnlyChange_trans hstep1 (remove_data_frame hrd)

/-- Witness for C10: removing the solitary entry of key 97 from the populated
3-slot table leaves every slot field except the counts in place. -/
theorem C10_witness : countOnlyChange C1afterPut C1afterRemove :=
  C10_remove_changes_only_count_fields C1afterPut 1 none C1afterRemove (by decide)
    (Or.inl (by decide)) (by decide)

/-! Structural lemmas about slot access, ring scans and chains, feeding the
invariant-preservation theorems. -/

/-- Reading an in-range slot through getElem? gives slotAt. -/
theorem getElem?_slots {S : HState} {i : Nat} (h : i < S.slots.length) :
    S.slots[i]? = some (slotAt S i) := by
  rw [List.getElem?_eq_getElem h, slotAt, List.getD_eq_getElem?_getD,
    List.getElem?_eq_getElem h]
  rfl

/-- A successful getElem? read is slotAt. -/
theorem slotAt_eq_of_getElem? {S : HState} {i : Nat} {s : Slot}
    (h : S.slots[i]? = some s) : slotAt S i = s := by
  rw [slotAt, List.getD_eq_getElem?_getD, h]
  rfl

/-- A successful getElem? read is in range. -/
theorem lt_length_of_getElem? {S : HState} {i : Nat} {s : Slot}
    (h : S.slots[i]? = some s) : i < S.slots.length := by
  by_contra hh
  rw [List.getElem?_eq_none (Nat.le_of_not_lt hh)] at h
  exact Option.noConfusion h

/-- getD after set at the written index. -/
theorem getD_set_self {l : List Slot} {i : Nat} (t : Slot) (h : i < l.length) :
    (l.set i t).getD i zeroSlot = t := by
  rw [List.getD_eq_getElem?_getD, List.getElem?_set, if_pos rfl, if_pos h]
  rfl

/-- getD after set at another index. -/
theorem getD_set_ne {l : List Slot} {i j : Nat} (t : Slot) (h : i ≠ j) :
    (l.set i t).getD j zeroSlot = l.getD j zeroSlot := by
  rw [List.getD_eq_getElem?_getD, List.getElem?_set, if_neg h, ← List.getD_eq_getElem?_getD]

/-- Ring distance is below n for positions below n. -/
theorem rdist_lt {n a b : Nat} (ha : a < n) (hb : b < n) : rdist n a b < n := by
  unfold rdist
  split <;> omega

/-- Ring distance vanishes exactly at the target. -/
theorem rdist_eq_zero_iff {n a b : Nat} (ha : a < n) (hb : b < n) :
    rdist n a b = 0 ↔ a = b := by
  unfold rdist
  split <;> omega

/-- One scan step decreases the ring distance to a target not yet reached. -/
theorem rdist_step {n a b : Nat} (ha : a < n) (hb : b < n) (hne : a ≠ b) :
    rdist n (wrapIdx n (a + 1)) b + 1 = rdist n a b := by
  simp only [rdist, wrapIdx]
  split_ifs <;> omega

/-- The wrap guard is the remainder for arguments up to n. -/
theorem wrapIdx_eq_mod {n p : Nat} (hp : p ≤ n) (hn : 0 < n) : wrapIdx n p = p % n := by
  unfold wrapIdx
  rcases Nat.lt_or_ge p n with h | h
  · rw [if_neg (by omega), Nat.mod_eq_of_lt h]
  · have hpn : p = n := by omega
    rw [if_pos (by omega), hpn, Nat.mod_self]

/-- The wrapped position stays below n. -/
theorem wrapIdx_lt {n p : Nat} (hn : 0 < n) : wrapIdx n p < n := by
  unfold wrapIdx
  split <;> omega

/-- Length of the ring scan list. -/
theorem ringList_length (n : Nat) : ∀ f p, (ringList n p f).length = f := by
  intro f
  induction f with
  | zero => intro p; rfl
  | succ f ih => intro p; simp [ringList, ih]

/-- Every position of a ring scan is below n. -/
theorem mem_ringList_lt {n : Nat} (hn : 0 < n) :
    ∀ f p x, x ∈ ringList n p f → x < n := by
  intro f
  induction f with
  | zero => intro p x hx; simp [ringList] at hx
  | succ f ih =>
    intro p x hx
    rw [ringList] at hx
    rcases List.mem_cons.mp hx with h | h
    · rw [h]; exact wrapIdx_lt hn
    · exact ih _ x h

/-- Closed form of the ring scan as remainders. -/
theorem ringList_eq_map {n : Nat} (hn : 0 < n) :
    ∀ f p, p ≤ n → ringList n p f = (List.range f).map (fun t => (p + t) % n) := by
  intro f
  induction f with
  | zero => intro p _; rfl
  | succ f ih =>
    intro p hp
    rw [ringList, List.range_succ_eq_map, List.map_cons, List.map_map]
    have hw : wrapIdx n p = p % n := wrapIdx_eq_mod hp hn
    have hwlt : wrapIdx n p < n := wrapIdx_lt hn
    rw [ih (wrapIdx n p + 1) (by omega)]
    simp only [List.cons.injEq]
    refine ⟨by rw [hw, Nat.add_zero], ?_⟩
    apply List.map_congr_left
    intro t _
    simp only [Function.comp]
    have h1 : wrapIdx n p + 1 + t = p % n + (1 + t) := by omega
    have h2 : p + Nat.succ t = p + (1 + t) := by omega
    rw [h1, h2]
    exact (Nat.mod_modEq p n).add_right (1 + t)

/-- The full ring scan from any start is a permutation of range n. -/
theorem ringList_perm {n : Nat} (hn : 0 < n) (p : Nat) (hp : p ≤ n) :
    (ringList n p n).Perm (List.range n) := by
  have hnd : (ringList n p n).Nodup := by
    rw [ringList_eq_map hn n p hp]
    refine List.Nodup.map_on ?_ (List.nodup_range n)
    intro x hx y hy hxy
    rw [List.mem_range] at hx hy
    have hx2 : x % n = x := Nat.mod_eq_of_lt hx
    have hy2 : y % n = y := Nat.mod_eq_of_lt hy
    have h3 : x ≡ y [MOD n] := Nat.ModEq.add_left_cancel' p hxy
    have h4 : x % n = y % n := h3
    omega
  have hsub : (ringList n p n) ⊆ List.range n := by
    intro x hx
    rw [List.mem_range]
    exact mem_ringList_lt hn n p x hx
  refine List.Subperm.perm_of_length_le (List.subperm_of_subset hnd hsub) ?_
  rw [ringList_length, List.length_range]

/-- Unpacking a successful chainCheck. -/
theorem chainCheck_elim {S : HState} {j : Nat} (h : chainCheck S j = true) :
    ∃ L, chainList S j (S.maxslots + 1) = some L ∧ L.Nodup ∧
      (∀ t ∈ L, t < S.maxslots) ∧ L.head? = some j ∧
      (∀ t ∈ L.tail, (slotAt S t).count = -2) := by
  unfold chainCheck at h
  rcases hL : chainList S j (S.maxslots + 1) with _ | L
  · rw [hL] at h; exact Bool.noConfusion h
  · rw [hL] at h
    simp only [Bool.and_eq_true, decide_eq_true_eq, List.all_eq_true, beq_iff_eq] at h
    exact ⟨L, rfl, h.1.1.1, fun t ht => h.1.1.2 t ht, h.1.2, fun t ht => h.2 t ht⟩

/-- A successful chain walk starts at its anchor. -/
theorem chainList_head : ∀ (fuel : Nat) (S : HState) (i : Nat) (L : List Nat),
    chainList S i fuel = some L → ∃ rest, L = i :: rest := by
  intro fuel S i L h
  cases fuel with
  | zero => rw [chainList] at h; exact Option.noConfusion h
  | succ fuel =>
    rw [chainList] at h
    rcases hs : S.slots[i]? with _ | s
    · rw [hs] at h; simp at h
    · rw [hs] at h
      simp only [Option.bind_eq_bind, Option.some_bind] at h
      by_cases hl : s.link = -1
      · rw [if_pos hl] at h
        simp only [Option.pure_def, Option.some.injEq] at h
        exact ⟨[], h.symm⟩
      · rw [if_neg hl] at h
        by_cases hl2 : s.link < 0
        · rw [if_pos hl2] at h; exact Option.noConfusion h
        · rw [if_neg hl2] at h
          rcases hr : chainList S s.link.toNat fuel with _ | rest
          · rw [hr] at h; simp at h
          · rw [hr] at h
            simp only [Option.bind_eq_bind, Option.some_bind, Option.pure_def,
              Option.some.injEq] at h
            exact ⟨rest, h.symm⟩

/-- The chain walk only looks at link fields: states agreeing on the links of
the visited slots produce the same chain. -/
theorem chainList_congr {S T : HState} : ∀ (fuel : Nat) (i : Nat) (L : List Nat),
    chainList S i fuel = some L →
    (∀ j ∈ L, ∃ sj tj, S.slots[j]? = some sj ∧ T.slots[j]? = some tj ∧ tj.link = sj.link) →
    chainList T i fuel = some L := by
  intro fuel
  induction fuel with
  | zero => intro i L h _; rw [chainList] at h; exact Option.noConfusion h
  | succ fuel ih =>
    intro i L h hagree
    obtain ⟨rest, rfl⟩ := chainList_head _ _ _ _ h
    obtain ⟨si, ti, hsi, hti, htl⟩ := hagree i (List.mem_cons_self i rest)
    rw [chainList] at h ⊢
    rw [hsi] at h
    rw [hti]
    simp only [Option.bind_eq_bind, Option.some_bind] at h ⊢
    rw [htl]
    by_cases hl : si.link = -1
    · rw [if_pos hl] at h ⊢
      exact h
    · rw [if_neg hl] at h ⊢
      by_cases hl2 : si.link < 0
      · rw [if_pos hl2] at h; exact Option.noConfusion h
      · rw [if_neg hl2] at h ⊢
        rcases hr : chainList S si.link.toNat fuel with _ | rest2
        · rw [hr] at h; simp at h
        · rw [hr] at h
          simp only [Option.bind_eq_bind, Option.some_bind, Option.pure_def,
            Option.some.injEq, List.cons.injEq, true_and] at h
          have hargs : ∀ j ∈ rest2, ∃ sj tj, S.slots[j]? = some sj ∧
              T.slots[j]? = some tj ∧ tj.link = sj.link := by
            intro j hj
            exact hagree j (List.mem_cons_of_mem i (h ▸ hj))
          rw [ih si.link.toNat rest2 hr hargs]
          simp [h]

/-- Adjacent chain positions are linked. -/
theorem chainList_adj : ∀ (fuel : Nat) (S : HState) (i : Nat) (L : List Nat),
    chainList S i fuel = some L →
    ∀ m, m + 1 < L.length →
      (slotAt S (L.getD m 0)).link = Int.ofNat (L.getD (m + 1) 0) := by
  intro fuel
  induction fuel with
  | zero => intro S i L h; rw [chainList] at h; exact Option.noConfusion h
  | succ fuel ih =>
    intro S i L h m hm
    rw [chainList] at h
    rcases hs : S.slots[i]? with _ | s
    · rw [hs] at h; simp at h
    · rw [hs] at h
      simp only [Option.bind_eq_bind, Option.some_bind] at h
      by_cases hl : s.link = -1
      · rw [if_pos hl] at h
        simp only [Option.pure_def, Option.some.injEq] at h
        rw [← h] at hm
        simp at hm
      · rw [if_neg hl] at h
        by_cases hl2 : s.link < 0
        · rw [if_pos hl2] at h; exact Option.noConfusion h
        · rw [if_neg hl2] at h
          rcases hr : chainList S s.link.toNat fuel with _ | rest
          · rw [hr] at h; simp at h
          · rw [hr] at h
            simp only [Option.bind_eq_bind, Option.some_bind, Option.pure_def,
              Option.some.injEq] at h
            obtain ⟨rest2, hrest2⟩ := chainList_head _ _ _ _ hr
            cases m with
            | zero =>
              rw [← h]
              simp only [List.getD_cons_zero, List.getD_cons_succ]
              rw [slotAt_eq_of_getElem? hs, hrest2]
              simp only [List.getD_cons_zero]
              exact (Int.toNat_of_nonneg (by omega)).symm
            | succ m =>
              rw [← h]
              simp only [List.getD_cons_succ]
              refine ih S s.link.toNat rest hr m ?_
              rw [← h] at hm
              simpa using hm

/-- Every non-anchor chain member has a chain member linking to it. -/
theorem chainList_pred : ∀ (fuel : Nat) (S : HState) (i : Nat) (L : List Nat),
    chainList S i fuel = some L →
    ∀ t ∈ L, t = i ∨ ∃ p ∈ L, (slotAt S p).link = Int.ofNat t := by
  intro fuel
  induction fuel with
  | zero => intro S i L h; rw [chainList] at h; exact Option.noConfusion h
  | succ fuel ih =>
    intro S i L h t ht
    rw [chainList] at h
    rcases hs : S.slots[i]? with _ | s
    · rw [hs] at h; simp at h
    · rw [hs] at h
      simp only [Option.bind_eq_bind, Option.some_bind] at h
      by_cases hl : s.link = -1
      · rw [if_pos hl] at h
        simp only [Option.pure_def, Option.some.injEq] at h
        rw [← h] at ht
        simp at ht
        exact Or.inl ht
      · rw [if_neg hl] at h
        by_cases hl2 : s.link < 0
        · rw [if_pos hl2] at h; exact Option.noConfusion h
        · rw [if_neg hl2] at h
          rcases hr : chainList S s.link.toNat fuel with _ | rest
          · rw [hr] at h; simp at h
          · rw [hr] at h
            simp only [Option.bind_eq_bind, Option.some_bind, Option.pure_def,
              Option.some.injEq] at h
            rw [← h] at ht
            rcases List.mem_cons.mp ht with h1 | h1
            · exact Or.inl h1
            · rcases ih S s.link.toNat rest hr t h1 with h2 | h2
              · refine Or.inr ⟨i, by rw [← h]; exact List.mem_cons_self i rest, ?_⟩
                rw [slotAt_eq_of_getElem? hs, h2]
                exact (Int.toNat_of_nonneg (by omega)).symm
              · obtain ⟨p, hp, hpl⟩ := h2
                exact Or.inr ⟨p, by rw [← h]; exact List.mem_cons_of_mem i hp, hpl⟩

/-- getD of an in-range index is a member. -/
theorem getD_mem_of_lt {L : List Nat} {m : Nat} (h : m < L.length) : L.getD m 0 ∈ L := by
  rw [List.getD_eq_getElem?_getD, List.getElem?_eq_getElem h]
  exact List.getElem_mem h

/-- Membership gives a getD index. -/
theorem mem_getD_idx {L : List Nat} {t : Nat} (h : t ∈ L) :
    ∃ m, m < L.length ∧ L.getD m 0 = t := by
  obtain ⟨n, hn, he⟩ := List.getElem_of_mem h
  refine ⟨n, hn, ?_⟩
  rw [List.getD_eq_getElem?_getD, List.getElem?_eq_getElem hn, he]
  rfl

/-- Facts about the chain of an entry slot under the invariants: no
duplicates, in-range members, anchored head, extension tail, occupied
members. -/
theorem chain_facts {S : HState} (hInv : Inv S) {a : Nat} {L : List Nat}
    (ha : a < S.maxslots) (hea : entryP (slotAt S a))
    (hL : chainList S a (S.maxslots + 1) = some L) :
    L.Nodup ∧ (∀ t ∈ L, t < S.maxslots) ∧ L.head? = some a ∧
      (∀ t ∈ L.tail, (slotAt S t).count = -2) ∧
      (∀ t ∈ L, (slotAt S t).count ≠ 0) := by
  obtain ⟨L2, hL2, hnd, hran, hhd, htl⟩ := chainCheck_elim (hInv.chainsOk a ha hea)
  rw [hL] at hL2
  obtain rfl : L = L2 := Option.some.injEq _ _ ▸ hL2.symm ▸ rfl
  refine ⟨hnd, hran, hhd, htl, ?_⟩
  obtain ⟨rest, rfl⟩ := chainList_head _ _ _ _ hL
  intro t ht
  rcases List.mem_cons.mp ht with h1 | h1
  · subst h1
    rcases hea with h2 | h2 <;> omega
  · have := htl t h1
    omega

/-- Two distinct entries' chains share no slot: each chained slot has exactly
one predecessor. -/
theorem chains_disjoint {S : HState} (hInv : Inv S) {a b : Nat} {La Lb : List Nat}
    (ha : a < S.maxslots) (hb : b < S.maxslots)
    (hea : entryP (slotAt S a)) (heb : entryP (slotAt S b)) (hab : a ≠ b)
    (hLa : chainList S a (S.maxslots + 1) = some La)
    (hLb : chainList S b (S.maxslots + 1) = some Lb) :
    ∀ t, t ∈ La → t ∈ Lb → False := by
  obtain ⟨hndA, hranA, hhdA, htlA, hnzA⟩ := chain_facts hInv ha hea hLa
  obtain ⟨hndB, hranB, hhdB, htlB, hnzB⟩ := chain_facts hInv hb heb hLb
  obtain ⟨restA, rfl⟩ := chainList_head _ _ _ _ hLa
  obtain ⟨restB, rfl⟩ := chainList_head _ _ _ _ hLb
  have key : ∀ m, m < (a :: restA).length → (a :: restA).getD m 0 ∉ (b :: restB) := by
    intro m
    induction m using Nat.strong_induction_on with
    | _ m ih =>
      intro hm ht2
      cases m with
      | zero =>
        simp only [List.getD_cons_zero] at ht2
        rcases List.mem_cons.mp ht2 with h1 | h1
        · exact hab h1
        · have := htlB a h1
          rcases hea with h2 | h2 <;> omega
      | succ m1 =>
        set t := (a :: restA).getD (m1 + 1) 0 with htdef
        have htA : t ∈ (a :: restA) := getD_mem_of_lt hm
        obtain ⟨m2, hm2, hm2e⟩ := mem_getD_idx ht2
        cases m2 with
        | zero =>
          simp only [List.getD_cons_zero] at hm2e
          have h3 : t ∈ restA := by
            rw [htdef, List.getD_cons_succ]
            refine getD_mem_of_lt ?_
            simp only [List.length_cons] at hm
            omega
          have h4 := htlA t h3
          rw [← hm2e] at h4
          rcases heb with h5 | h5 <;> omega
        | succ m2' =>
          have hadjA := chainList_adj _ _ _ _ hLa m1 hm
          have hadjB := chainList_adj _ _ _ _ hLb m2' hm2
          rw [hm2e] at hadjB
          set p1 := (a :: restA).getD m1 0 with hp1def
          set p2 := (b :: restB).getD m2' 0 with hp2def
          have hp1m : p1 ∈ (a :: restA) := getD_mem_of_lt (by omega)
          have hp2m : p2 ∈ (b :: restB) := getD_mem_of_lt (by omega)
          have heq : p1 = p2 := by
            refine hInv.linkInj p1 (hranA p1 hp1m) p2 (hranB p2 hp2m)
              (hnzA p1 hp1m) (hnzB p2 hp2m) ?_ ?_
            · rw [hadjA, hadjB]
            · rw [hadjA]
              simp only [Int.ofNat_eq_coe]
              omega
          have hfinal : (a :: restA).getD m1 0 ∈ (b :: restB) := by
            rw [← hp1def, heq]
            exact hp2m
          exact ih m1 (by omega) (by omega) hfinal
  intro t htA htB
  obtain ⟨m, hm, hme⟩ := mem_getD_idx htA
  exact key m hm (hme ▸ htB)

/-- Shape of the chain-release walk: every chain slot's count is zeroed,
usedslots drops by the chain length and nothing else changes. -/
theorem removeDataLoop_shape : ∀ (fuel : Nat) (S : HState) (i : Nat) (L : List Nat),
    chainList S i fuel = some L → L.Nodup →
    (∀ j ∈ L, j < S.slots.length ∧ (slotAt S j).count ≠ 0) →
    ∃ A, removeDataLoop fuel S i = some A ∧
      A.maxslots = S.maxslots ∧ A.num = S.num ∧
      A.usedslots = S.usedslots - L.length ∧ A.slots.length = S.slots.length ∧
      (∀ j, j ∈ L → A.slots[j]? = (S.slots[j]?).map (fun s => { s with count := 0 })) ∧
      (∀ j, j ∉ L → A.slots[j]? = S.slots[j]?) := by
  intro fuel
  induction fuel with
  | zero => intro S i L h; rw [chainList] at h; exact Option.noConfusion h
  | succ fuel ih =>
    intro S i L h hnd hcond
    obtain ⟨rest, rfl⟩ := chainList_head _ _ _ _ h
    rw [chainList] at h
    rcases hs : S.slots[i]? with _ | s
    · rw [hs] at h; simp at h
    · rw [hs] at h
      simp only [Option.bind_eq_bind, Option.some_bind] at h
      have hnz : (slotAt S i).count ≠ 0 := (hcond i (List.mem_cons_self i rest)).2
      have hlen : i < S.slots.length := (hcond i (List.mem_cons_self i rest)).1
      rw [slotAt_eq_of_getElem? hs] at hnz
      have hrs : remove_slot S i = some (true,
          { S with slots := S.slots.set i { s with count := 0 },
                   usedslots := S.usedslots - 1 }) := by
        rw [remove_slot, hs]
        simp only [Option.bind_eq_bind, Option.some_bind, if_neg hnz]
        rw [setSlotO, if_pos hlen]
        rfl
      rw [removeDataLoop, hs]
      simp only [Option.bind_eq_bind, Option.some_bind]
      rw [hrs]
      simp only [Option.some_bind]
      set S1 : HState := { S with slots := S.slots.set i { s with count := 0 },
                                  usedslots := S.usedslots - 1 } with hS1
      have hS1at : ∀ j, j ≠ i → S1.slots[j]? = S.slots[j]? := by
        intro j hj
        show (S.slots.set i { s with count := 0 })[j]? = S.slots[j]?
        rw [List.getElem?_set, if_neg (fun hh => hj hh.symm)]
      have hS1i : S1.slots[i]? = some { s with count := 0 } := by
        show (S.slots.set i { s with count := 0 })[i]? = _
        rw [List.getElem?_set, if_pos rfl, if_pos hlen]
      by_cases hl : s.link = -1
      · rw [if_pos hl] at h ⊢
        simp only [Option.pure_def, Option.some.injEq] at h
        obtain rfl : rest = [] := by
          have := congrArg List.tail h
          simpa using this.symm
        refine ⟨S1, rfl, rfl, rfl, ?_, by simp [hS1], ?_, ?_⟩
        · simp [hS1]
        · intro j hj
          obtain rfl : j = i := by simpa using hj
          rw [hS1i, hs]
          rfl
        · intro j hj
          exact hS1at j (fun hh => hj (hh ▸ List.mem_cons_self i []))
      · rw [if_neg hl] at h ⊢
        by_cases hl2 : s.link < 0
        · rw [if_pos hl2] at h; exact Option.noConfusion h
        · rw [if_neg hl2] at h ⊢
          rcases hr : chainList S s.link.toNat fuel with _ | rest2
          · rw [hr] at h; simp at h
          · rw [hr] at h
            simp only [Option.bind_eq_bind, Option.some_bind, Option.pure_def,
              Option.some.injEq, List.cons.injEq, true_and] at h
            subst h
            have hinotin : i ∉ rest2 := by
              intro hmem
              exact (List.nodup_cons.mp hnd).1 hmem
            have hr1 : chainList S1 s.link.toNat fuel = some rest2 := by
              refine chainList_congr fuel s.link.toNat rest2 hr ?_
              intro j hj
              have hjne : j ≠ i := fun hh => hinotin (hh ▸ hj)
              have hjlen : j < S.slots.length := (hcond j (List.mem_cons_of_mem i hj)).1
              exact ⟨slotAt S j, slotAt S j, getElem?_slots hjlen,
                by rw [hS1at j hjne]; exact getElem?_slots hjlen, rfl⟩
            have hcond1 : ∀ j ∈ rest2, j < S1.slots.length ∧ (slotAt S1 j).count ≠ 0 := by
              intro j hj
              have hjne : j ≠ i := fun hh => hinotin (hh ▸ hj)
              have h2 := hcond j (List.mem_cons_of_mem i hj)
              refine ⟨by simpa [hS1] using h2.1, ?_⟩
              have : slotAt S1 j = slotAt S j := by
                rw [slotAt, slotAt, List.getD_eq_getElem?_getD, List.getD_eq_getElem?_getD,
                  hS1at j hjne]
              rw [this]
              exact h2.2
            obtain ⟨A, hA, hAm, hAn, hAu, hAl, hAin, hAout⟩ :=
              ih S1 s.link.toNat rest2 hr1 (List.nodup_cons.mp hnd).2 hcond1
            refine ⟨A, hA, hAm, hAn, ?_, by simpa [hS1] using hAl, ?_, ?_⟩
            · rw [hAu]
              show S.usedslots - 1 - (rest2.length : Int) = _
              simp only [List.length_cons]
              push_cast
              ring
            · intro j hj
              rcases List.mem_cons.mp hj with h1 | h1
              · subst h1
                rw [hAout j hinotin, hS1i, hs]
                rfl
              · rw [hAin j h1, hS1at j (fun hh => hinotin (hh ▸ h1))]
            · intro j hj
              rw [hAout j (fun hh => hj (List.mem_cons_of_mem i hh)),
                hS1at j (fun hh => hj (hh ▸ List.mem_cons_self i rest2))]

/-! Counting toolkit: countP of a slot list that changed at finitely many
known indices. -/

/-- Lists of equal length agreeing at every in-range getD index are equal. -/
theorem eq_of_getD_eq {l l' : List Slot} (hlen : l'.length = l.length)
    (h : ∀ j, j < l.length → l'.getD j zeroSlot = l.getD j zeroSlot) : l' = l := by
  refine List.ext_getElem? (fun n => ?_)
  by_cases hn : n < l.length
  · rw [List.getElem?_eq_getElem (hlen ▸ hn), List.getElem?_eq_getElem hn]
    have h2 := h n hn
    rw [List.getD_eq_getElem l' zeroSlot (hlen ▸ hn), List.getD_eq_getElem l zeroSlot hn] at h2
    rw [h2]
  · rw [List.getElem?_eq_none (by omega), List.getElem?_eq_none (by omega)]

/-- countP after a set, in additive form without truncated subtraction. -/
theorem countP_set_add (p : Slot → Bool) (l : List Slot) (i : Nat) (a : Slot)
    (h : i < l.length) :
    (l.set i a).countP p + (if p (l.getD i zeroSlot) then 1 else 0) =
      l.countP p + (if p a then 1 else 0) := by
  rw [List.countP_set p l i a h, List.getD_eq_getElem l zeroSlot h]
  have hb : (if p l[i] = true then 1 else 0) ≤ l.countP p := by
    split_ifs with hp
    · exact List.countP_pos_iff.mpr ⟨l[i], List.getElem_mem h, hp⟩
    · omega
  split_ifs at hb ⊢ <;> omega

/-- Two equally long lists agreeing outside a duplicate-free index set have
countP values differing only by the indicator sums over that set. -/
theorem countP_split (p : Slot → Bool) :
    ∀ (D : List Nat), D.Nodup →
    ∀ (l l' : List Slot), l'.length = l.length →
    (∀ j ∈ D, j < l.length) →
    (∀ j, j < l.length → j ∉ D → l'.getD j zeroSlot = l.getD j zeroSlot) →
    l'.countP p + (D.map (fun j => if p (l.getD j zeroSlot) then 1 else 0)).sum =
      l.countP p + (D.map (fun j => if p (l'.getD j zeroSlot) then 1 else 0)).sum := by
  intro D
  induction D with
  | nil =>
    intro _ l l' hlen _ hout
    rw [eq_of_getD_eq hlen (fun j hj => hout j hj (List.not_mem_nil j))]
  | cons d D' ih =>
    intro hnd l l' hlen hin hout
    have hdl : d < l.length := hin d (List.mem_cons_self d D')
    have hdl' : d < l'.length := by omega
    have hndD' : D'.Nodup := (List.nodup_cons.mp hnd).2
    have hdD' : d ∉ D' := (List.nodup_cons.mp hnd).1
    have hset := countP_set_add p l' d (l.getD d zeroSlot) hdl'
    have hih := ih hndD' l (l'.set d (l.getD d zeroSlot)) (by rw [List.length_set]; exact hlen)
      (fun j hj => hin j (List.mem_cons_of_mem d hj))
      (fun j hj hjD => by
        by_cases hjd : j = d
        · subst hjd
          exact getD_set_self _ hdl'
        · rw [getD_set_ne _ (fun he => hjd he.symm)]
          exact hout j hj (by simp [hjd, hjD]))
    have hmap : (D'.map (fun j =>
        if p ((l'.set d (l.getD d zeroSlot)).getD j zeroSlot) then 1 else 0)).sum =
        (D'.map (fun j => if p (l'.getD j zeroSlot) then 1 else 0)).sum := by
      refine congrArg List.sum (List.map_congr_left (fun j hj => ?_))
      rw [getD_set_ne _ (fun he => hdD' (by rw [he]; exact hj))]
    rw [hmap] at hih
    simp only [List.map_cons, List.sum_cons]
    omega

/-- Sum of a map that is 1 on every member. -/
theorem sum_map_ones {f : Nat → Nat} :
    ∀ {D : List Nat}, (∀ j ∈ D, f j = 1) → (D.map f).sum = D.length := by
  intro D
  induction D with
  | nil => intro _; rfl
  | cons d D' ih =>
    intro h
    simp only [List.map_cons, List.sum_cons, List.length_cons,
      h d (List.mem_cons_self d D'), ih (fun j hj => h j (List.mem_cons_of_mem d hj))]
    omega

/-- Sum of a map that vanishes on every member. -/
theorem sum_map_zeros {f : Nat → Nat} :
    ∀ {D : List Nat}, (∀ j ∈ D, f j = 0) → (D.map f).sum = 0 := by
  intro D
  induction D with
  | nil => intro _; rfl
  | cons d D' ih =>
    intro h
    simp only [List.map_cons, List.sum_cons, List.length_cons,
      h d (List.mem_cons_self d D'), ih (fun j hj => h j (List.mem_cons_of_mem d hj))]

/-- Sum of a map over a duplicate-free list that is 1 at one member and 0 at
the rest. -/
theorem sum_map_single {f : Nat → Nat} {x : Nat} :
    ∀ {D : List Nat}, D.Nodup → x ∈ D → f x = 1 →
      (∀ j ∈ D, j ≠ x → f j = 0) → (D.map f).sum = 1 := by
  intro D
  induction D with
  | nil => intro _ hx; exact absurd hx (List.not_mem_nil x)
  | cons d D' ih =>
    intro hnd hx h1 h0
    simp only [List.map_cons, List.sum_cons]
    rcases List.mem_cons.mp hx with h2 | h2
    · subst h2
      rw [h1, sum_map_zeros (fun j hj => h0 j (List.mem_cons_of_mem x hj)
        (fun he => (List.nodup_cons.mp hnd).1 (he ▸ hj)))]
    · rw [h0 d (List.mem_cons_self d D') (fun he => (List.nodup_cons.mp hnd).1 (he ▸ h2)),
        ih (List.nodup_cons.mp hnd).2 h2 h1
          (fun j hj hjx => h0 j (List.mem_cons_of_mem d hj) hjx)]

/-- The last slot of a chain ends the chain: its link is -1. -/
theorem chainList_last : ∀ (fuel : Nat) (S : HState) (i : Nat) (L : List Nat),
    chainList S i fuel = some L →
    (slotAt S (L.getD (L.length - 1) 0)).link = -1 := by
  intro fuel
  induction fuel with
  | zero => intro S i L h; rw [chainList] at h; exact Option.noConfusion h
  | succ fuel ih =>
    intro S i L h
    rw [chainList] at h
    rcases hs : S.slots[i]? with _ | s
    · rw [hs] at h; simp at h
    · rw [hs] at h
      simp only [Option.bind_eq_bind, Option.some_bind] at h
      by_cases hl : s.link = -1
      · rw [if_pos hl] at h
        simp only [Option.pure_def, Option.some.injEq] at h
        rw [← h]
        simp only [List.length_cons, List.length_nil, Nat.add_sub_cancel, List.getD_cons_zero]
        rw [slotAt_eq_of_getElem? hs]
        exact hl
      · rw [if_neg hl] at h
        by_cases hl2 : s.link < 0
        · rw [if_pos hl2] at h; exact Option.noConfusion h
        · rw [if_neg hl2] at h
          rcases hr : chainList S s.link.toNat fuel with _ | rest
          · rw [hr] at h; simp at h
          · rw [hr] at h
            simp only [Option.bind_eq_bind, Option.some_bind, Option.pure_def,
              Option.some.injEq] at h
            obtain ⟨rest2, hrest2⟩ := chainList_head _ _ _ _ hr
            have hlen : 1 ≤ rest.length := by rw [hrest2]; simp
            have hstep : (i :: rest).getD ((i :: rest).length - 1) 0 =
                rest.getD (rest.length - 1) 0 := by
              have h3 : (i :: rest).length - 1 = (rest.length - 1) + 1 := by
                simp only [List.length_cons]
                omega
              rw [h3, List.getD_cons_succ]
            rw [← h, hstep]
            exact ih S s.link.toNat rest hr

/-- A chain member with a live link has its link target in the chain. -/
theorem chainList_next_mem {S : HState} {fuel : Nat} {i : Nat} {L : List Nat}
    (hL : chainList S i fuel = some L) {b : Nat} (hb : b ∈ L)
    (hlink : (slotAt S b).link ≠ -1) : (slotAt S b).link.toNat ∈ L := by
  obtain ⟨m, hm, hme⟩ := mem_getD_idx hb
  by_cases h2 : m + 1 < L.length
  · have h3 := chainList_adj _ _ _ _ hL m h2
    rw [hme] at h3
    rw [h3, Int.ofNat_eq_coe, Int.toNat_ofNat]
    exact getD_mem_of_lt h2
  · have hlast := chainList_last _ _ _ _ hL
    have h3 : m = L.length - 1 := by omega
    rw [h3] at hme
    rw [hme] at hlast
    exact absurd hlast hlink

/-- The value walk only reads the slots it visits: states agreeing on the
chain's slots assemble the same value. -/
theorem getDataChain_congr {S T : HState} : ∀ (fuel : Nat) (i : Nat) (L : List Nat),
    chainList S i fuel = some L →
    (∀ j ∈ L, T.slots[j]? = S.slots[j]?) →
    getDataChain T i fuel = getDataChain S i fuel := by
  intro fuel
  induction fuel with
  | zero => intro i L h _; rw [chainList] at h; exact Option.noConfusion h
  | succ fuel ih =>
    intro i L h hagree
    obtain ⟨rest, rfl⟩ := chainList_head _ _ _ _ h
    have hTi := hagree i (List.mem_cons_self i rest)
    rw [chainList] at h
    rcases hs : S.slots[i]? with _ | s
    · rw [hs] at h; simp at h
    · rw [hs] at h
      rw [hs] at hTi
      simp only [Option.bind_eq_bind, Option.some_bind] at h
      rw [getDataChain, getDataChain, hs, hTi]
      simp only [Option.bind_eq_bind, Option.some_bind]
      by_cases hl : s.link = -1
      · simp only [if_pos hl]
      · rw [if_neg hl] at h
        by_cases hl2 : s.link < 0
        · rw [if_pos hl2] at h; exact Option.noConfusion h
        · rw [if_neg hl2] at h
          rcases hr : chainList S s.link.toNat fuel with _ | rest2
          · rw [hr] at h; simp at h
          · rw [hr] at h
            simp only [Option.bind_eq_bind, Option.some_bind, Option.pure_def,
              Option.some.injEq, List.cons.injEq, true_and] at h
            have hrec : getDataChain T s.link.toNat fuel =
                getDataChain S s.link.toNat fuel := by
              refine ih s.link.toNat rest2 hr (fun j hj => ?_)
              refine hagree j (List.mem_cons_of_mem i ?_)
              rw [← h]
              exact hj
            simp only [if_neg hl, if_neg hl2, hrec]

/-- The collision-sibling scan succeeds whenever a sibling exists: as long as
the scan position is no further (in ring distance) from some sibling than from
the wrap-exit index, the wrap exit is never taken and a sibling is returned. -/
theorem findCollLoop_finds {S : HState} {idx targetHash j : Nat}
    (hlen : S.maxslots ≤ S.slots.length) (hidx : idx < S.maxslots)
    (hj : j < S.maxslots) (hjn : j ≠ idx)
    (hc : (slotAt S j).count = -1) (hh : (slotAt S j).hash = targetHash) :
    ∀ (fuel i : Nat),
      rdist S.maxslots (wrapIdx S.maxslots i) j < fuel →
      rdist S.maxslots (wrapIdx S.maxslots i) j ≤
        rdist S.maxslots (wrapIdx S.maxslots i) idx →
      ∃ k, findCollLoop S idx targetHash i fuel = some (some k) ∧ k < S.maxslots ∧
        k ≠ idx ∧ (slotAt S k).count = -1 ∧ (slotAt S k).hash = targetHash := by
  have hn : 0 < S.maxslots := by omega
  intro fuel
  induction fuel with
  | zero => intro i hd _; omega
  | succ fuel ih =>
    intro i hd hdi
    have hi2lt : wrapIdx S.maxslots i < S.maxslots := wrapIdx_lt hn
    have hne : wrapIdx S.maxslots i ≠ idx := by
      intro he
      have hidxlt : idx < S.maxslots := he ▸ hi2lt
      rw [he] at hdi
      rw [(rdist_eq_zero_iff hidxlt hidxlt).mpr rfl] at hdi
      exact hjn (((rdist_eq_zero_iff hidxlt hj).mp (by omega)).symm)
    have hw : (if S.maxslots ≤ i then 0 else i) = wrapIdx S.maxslots i := rfl
    rw [findCollLoop, hw, if_neg hne, getElem?_slots (by omega)]
    simp only [Option.bind_eq_bind, Option.some_bind]
    by_cases hhit : (slotAt S (wrapIdx S.maxslots i)).count = -1 ∧
        (slotAt S (wrapIdx S.maxslots i)).hash = targetHash
    · rw [if_pos hhit]
      exact ⟨wrapIdx S.maxslots i, rfl, hi2lt, hne, hhit.1, hhit.2⟩
    · rw [if_neg hhit]
      have hnej : wrapIdx S.maxslots i ≠ j := by
        intro he
        exact hhit ⟨he ▸ hc, he ▸ hh⟩
      have hstepj := rdist_step hi2lt hj hnej
      have hstepi := rdist_step hi2lt hidx hne
      exact ih (wrapIdx S.maxslots i + 1) (by omega) (by omega)

/-- Instantiation of the sibling scan at the call site of remove_by_idx's
leading-with-collisions branch: from idx + 1 with maxslots + 2 fuel. -/
theorem findCollLoop_call {S : HState} {idx j : Nat}
    (hlen : S.maxslots ≤ S.slots.length) (hidx : idx < S.maxslots)
    (hj : j < S.maxslots) (hjn : j ≠ idx)
    (hc : (slotAt S j).count = -1) (hh : (slotAt S j).hash = idx) :
    ∃ k, findCollLoop S idx idx (idx + 1) (S.maxslots + 2) = some (some k) ∧
      k < S.maxslots ∧ k ≠ idx ∧ (slotAt S k).count = -1 ∧
      (slotAt S k).hash = idx := by
  have hn : 0 < S.maxslots := by omega
  have hback : rdist S.maxslots (wrapIdx S.maxslots (idx + 1)) idx = S.maxslots - 1 := by
    simp only [rdist, wrapIdx]
    split_ifs <;> omega
  have hdj : rdist S.maxslots (wrapIdx S.maxslots (idx + 1)) j < S.maxslots :=
    rdist_lt (wrapIdx_lt hn) hj
  refine findCollLoop_finds hlen hidx hj hjn hc hh (S.maxslots + 2) (idx + 1)
    (by omega) ?_
  rw [hback]
  omega

/-- When the anchor's link is live, its target is in the chain's tail. -/
theorem chainList_second : ∀ (fuel : Nat) (S : HState) (i : Nat) (L : List Nat),
    chainList S i fuel = some L → (slotAt S i).link ≠ -1 →
    (slotAt S i).link.toNat ∈ L.tail := by
  intro fuel S i L h hlk
  cases fuel with
  | zero => rw [chainList] at h; exact Option.noConfusion h
  | succ fuel =>
    rw [chainList] at h
    rcases hs : S.slots[i]? with _ | s
    · rw [hs] at h; simp at h
    · rw [hs] at h
      simp only [Option.bind_eq_bind, Option.some_bind] at h
      rw [slotAt_eq_of_getElem? hs] at hlk ⊢
      rw [if_neg hlk] at h
      by_cases hl2 : s.link < 0
      · rw [if_pos hl2] at h; exact Option.noConfusion h
      · rw [if_neg hl2] at h
        rcases hr : chainList S s.link.toNat fuel with _ | rest
        · rw [hr] at h; simp at h
        · rw [hr] at h
          simp only [Option.bind_eq_bind, Option.some_bind, Option.pure_def,
            Option.some.injEq] at h
          obtain ⟨rest2, hrest2⟩ := chainList_head _ _ _ _ hr
          rw [← h]
          simp only [List.tail_cons]
          rw [hrest2]
          exact List.mem_cons_self _ _

/-- getElem? equality transfers to slotAt. -/
theorem slotAt_congr {S T : HState} {j : Nat} (h : T.slots[j]? = S.slots[j]?) :
    slotAt T j = slotAt S j := by
  rw [slotAt, slotAt, List.getD_eq_getElem?_getD, List.getD_eq_getElem?_getD, h]

/-- Operational shape of remove_by_idx on a leading slot with collisions
(count above 1), on a state satisfying the section-3 invariants: the sibling
scan finds a colliding slot i2 of this home, the leading entry's chain L is
released, the sibling is bytewise relocated into the home index with count
one lower, the donor slot is cleared, the relocated chain's first extension
(if any) gets its back-link repaired, entries drops by one and usedslots by
the released chain's length, and no other slot changes. -/
theorem remove_promote_shape {S : HState} (hInv : Inv S) {idx : Nat}
    (hidx : idx < S.maxslots) (hc2 : 2 ≤ (slotAt S idx).count) :
    ∃ (i2 : Nat) (L : List Nat) (S' : HState),
      qhasharr_remove_by_idx S idx = some (none, S') ∧
      chainList S idx (S.maxslots + 1) = some L ∧
      i2 < S.maxslots ∧ i2 ≠ idx ∧ i2 ∉ L ∧
      (slotAt S i2).count = -1 ∧ (slotAt S i2).hash = idx ∧
      S'.maxslots = S.maxslots ∧ S'.slots.length = S.slots.length ∧
      S'.num = S.num - 1 ∧ S'.usedslots = S.usedslots - L.length ∧
      S'.slots[idx]? = some { slotAt S i2 with count := (slotAt S idx).count - 1 } ∧
      S'.slots[i2]? = some { slotAt S i2 with count := 0 } ∧
      (∀ j ∈ L, j ≠ idx → S'.slots[j]? = some { slotAt S j with count := 0 }) ∧
      (((slotAt S i2).link = -1 ∧
          (∀ j, j ∉ L → j ≠ i2 → S'.slots[j]? = S.slots[j]?)) ∨
        (∃ t0 : Nat, (slotAt S i2).link = Int.ofNat t0 ∧ t0 < S.maxslots ∧
          t0 ∉ L ∧ t0 ≠ i2 ∧ (slotAt S t0).count = -2 ∧
          S'.slots[t0]? = some { slotAt S t0 with hash := idx } ∧
          (∀ j, j ∉ L → j ≠ i2 → j ≠ t0 → S'.slots[j]? = S.slots[j]?))) := by
  have hn := hInv.capPos
  have hlenEq := hInv.lenEq
  have hcEq : (slotAt S idx).hash = idx := (hInv.leadOk idx hidx (by omega)).1
  have hcoll : (collCountAt S idx : Int) = (slotAt S idx).count - 1 :=
    (hInv.leadOk idx hidx (by omega)).2
  have hpos : 0 < S.slots.countP (fun t => t.count == -1 && t.hash == idx) := by
    have h1 : 1 ≤ collCountAt S idx := by omega
    unfold collCountAt at h1
    omega
  obtain ⟨a, ham, hap⟩ := List.countP_pos_iff.mp hpos
  obtain ⟨m, hm, hma⟩ := List.getElem_of_mem ham
  have hsm : slotAt S m = a := by rw [slotAt, List.getD_eq_getElem _ _ hm, hma]
  simp only [Bool.and_eq_true, beq_iff_eq] at hap
  have hmn : m < S.maxslots := by omega
  have hmne : m ≠ idx := by
    intro he
    rw [he] at hsm
    rw [hsm, hap.1] at hc2
    omega
  obtain ⟨k, hflc, hklt, hkne, hkc, hkh⟩ :=
    findCollLoop_call (by omega) hidx hmn hmne (by rw [hsm]; exact hap.1)
      (by rw [hsm]; exact hap.2)
  have heidx : entryP (slotAt S idx) := Or.inl (by omega)
  have hek : entryP (slotAt S k) := Or.inr hkc
  obtain ⟨L, hL, hLnd, hLlt, hLhd, hLtl⟩ := chainCheck_elim (hInv.chainsOk idx hidx heidx)
  have hLnz : ∀ t ∈ L, (slotAt S t).count ≠ 0 :=
    (chain_facts hInv hidx heidx hL).2.2.2.2
  obtain ⟨M, hM, hMnd, hMlt, hMhd, hMtl⟩ := chainCheck_elim (hInv.chainsOk k hklt hek)
  have hdisj := chains_disjoint hInv hidx hklt heidx hek (fun he => hkne he.symm) hL hM
  obtain ⟨restL, rfl⟩ := chainList_head _ _ _ _ hL
  have hidxL : idx ∈ idx :: restL := List.mem_cons_self _ _
  have hkM : k ∈ M := by
    obtain ⟨restM, hrM⟩ := chainList_head _ _ _ _ hM
    rw [hrM]
    exact List.mem_cons_self _ _
  have hkL : k ∉ idx :: restL := fun hh => hdisj k hh hkM
  obtain ⟨A, hA, hAm, hAn, hAu, hAl, hAin, hAout⟩ :=
    removeDataLoop_shape (S.maxslots + 1) S idx (idx :: restL) hL hLnd
      (fun j hj => ⟨by rw [hlenEq]; exact hLlt j hj, hLnz j hj⟩)
  have hsidx : S.slots[idx]? = some (slotAt S idx) := getElem?_slots (by omega)
  have hsk : S.slots[k]? = some (slotAt S k) := getElem?_slots (by omega)
  have hrd : remove_data S idx = some (true, { A with num := A.num - 1 }) := by
    rw [remove_data, hsidx]
    simp only [Option.bind_eq_bind, Option.some_bind]
    rw [if_neg (by omega : ¬(slotAt S idx).count = 0), hA]
    rfl
  -- the relocation target state after copy_slot
  set R : HState := { A with num := A.num - 1 } with hR
  have hRidx : R.slots[idx]? = some { slotAt S idx with count := 0 } := by
    show A.slots[idx]? = _
    rw [hAin idx hidxL, hsidx]
    rfl
  have hRk : R.slots[k]? = some (slotAt S k) := by
    show A.slots[k]? = _
    rw [hAout k hkL, hsk]
  have hRlen : R.slots.length = S.slots.length := hAl
  have hcp : copy_slot R idx k = some (true,
      { R with slots := R.slots.set idx (slotAt S k),
               usedslots := R.usedslots + 1 }) := by
    rw [copy_slot, hRidx, hRk]
    simp only [Option.bind_eq_bind, Option.some_bind]
    rw [if_neg (not_or.mpr ⟨by simp, by rw [hkc]; decide⟩)]
    rw [setSlotO, if_pos (by rw [hRlen, hlenEq]; omega)]
    rfl
  set B : HState := { R with slots := R.slots.set idx (slotAt S k),
                             usedslots := R.usedslots + 1 } with hB
  have hBj : ∀ j, j ≠ idx → B.slots[j]? = R.slots[j]? := by
    intro j hj
    show (R.slots.set idx (slotAt S k))[j]? = _
    rw [List.getElem?_set, if_neg (fun hh => hj hh.symm)]
  have hBidx : B.slots[idx]? = some (slotAt S k) := by
    show (R.slots.set idx (slotAt S k))[idx]? = _
    rw [List.getElem?_set, if_pos rfl, if_pos (by rw [hRlen, hlenEq]; omega)]
  have hBk : B.slots[k]? = some (slotAt S k) := by
    rw [hBj k hkne, hRk]
  have hBlen : B.slots.length = S.slots.length := by
    show (R.slots.set idx (slotAt S k)).length = _
    rw [List.length_set, hRlen]
  have hrs : remove_slot B k = some (true,
      { B with slots := B.slots.set k { slotAt S k with count := 0 },
               usedslots := B.usedslots - 1 }) := by
    rw [remove_slot, hBk]
    simp only [Option.bind_eq_bind, Option.some_bind]
    rw [if_neg (by rw [hkc]; decide), setSlotO, if_pos (by rw [hBlen, hlenEq]; omega)]
    rfl
  set C : HState := { B with slots := B.slots.set k { slotAt S k with count := 0 },
                             usedslots := B.usedslots - 1 } with hC
  have hCj : ∀ j, j ≠ k → C.slots[j]? = B.slots[j]? := by
    intro j hj
    show (B.slots.set k _)[j]? = _
    rw [List.getElem?_set, if_neg (fun hh => hj hh.symm)]
  have hCk : C.slots[k]? = some { slotAt S k with count := 0 } := by
    show (B.slots.set k _)[k]? = _
    rw [List.getElem?_set, if_pos rfl, if_pos (by rw [hBlen, hlenEq]; omega)]
  have hCidx : C.slots[idx]? = some (slotAt S k) := by
    rw [hCj idx (fun hh => hkne hh.symm), hBidx]
  have hClen : C.slots.length = S.slots.length := by
    show (B.slots.set k _).length = _
    rw [List.length_set, hBlen]
  set s4 : Slot := { slotAt S k with count := (slotAt S idx).count - 1 } with hs4
  set S4 : HState := { C with slots := C.slots.set idx s4 } with hS4
  have hS4j : ∀ j, j ≠ idx → S4.slots[j]? = C.slots[j]? := by
    intro j hj
    show (C.slots.set idx s4)[j]? = _
    rw [List.getElem?_set, if_neg (fun hh => hj hh.symm)]
  have hS4idx : S4.slots[idx]? = some s4 := by
    show (C.slots.set idx s4)[idx]? = _
    rw [List.getElem?_set, if_pos rfl, if_pos (by rw [hClen, hlenEq]; omega)]
  have hS4len : S4.slots.length = S.slots.length := by
    show (C.slots.set idx s4).length = _
    rw [List.length_set, hClen]
  have hS4m : S4.maxslots = S.maxslots := hAm
  have hS4n : S4.num = S.num - 1 := by
    show A.num - 1 = S.num - 1
    rw [hAn]
  have hS4u : S4.usedslots = S.usedslots - (idx :: restL).length := by
    show A.usedslots + 1 - 1 = _
    rw [hAu]
    ring
  -- assemble the call down to the back-link dispatch
  have hsetS4 : setSlotO C idx s4 = some S4 := by
    rw [setSlotO, if_pos (by rw [hClen, hlenEq]; omega)]
  have hcall : qhasharr_remove_by_idx S idx =
      (if s4.link = -1 then pure (none, S4)
       else if s4.link < 0 then none
       else do
         let sl ← S4.slots[s4.link.toNat]?
         let S5 ← setSlotO S4 s4.link.toNat { sl with hash := idx }
         pure (none, S5)) := by
    rw [qhasharr_remove_by_idx, if_neg (by omega : ¬((idx : Nat) : Int) < 0)]
    simp only [Int.toNat_ofNat, hsidx, Option.bind_eq_bind, Option.some_bind]
    rw [if_neg (by omega : ¬(slotAt S idx).count = 1),
      if_pos (by omega : (slotAt S idx).count > 1), hcEq, hflc]
    simp only [Option.some_bind]
    rw [hrd]
    simp only [Option.some_bind]
    rw [hcp]
    simp only [Option.some_bind]
    rw [hrs]
    simp only [Option.some_bind]
    rw [hCidx]
    simp only [Option.some_bind]
    rw [← hs4, hsetS4]
    simp only [Option.some_bind]
    rw [hS4idx]
    simp only [Option.some_bind]
  have hs4link : s4.link = (slotAt S k).link := rfl
  by_cases hlk : (slotAt S k).link = -1
  · refine ⟨k, idx :: restL, S4, ?_, hL, hklt, hkne, hkL, hkc, hkh, hS4m, hS4len,
      hS4n, hS4u, ?_, ?_, ?_, Or.inl ⟨hlk, ?_⟩⟩
    · rw [hcall, if_pos (by rw [hs4link]; exact hlk)]
      rfl
    · exact hS4idx
    · rw [hS4j k hkne, hCk]
    · intro j hj hjne
      rw [hS4j j hjne, hCj j (fun hh => hkL (hh ▸ hj)), hBj j hjne]
      show A.slots[j]? = _
      rw [hAin j hj, getElem?_slots (by rw [hlenEq]; exact hLlt j hj)]
      rfl
    · intro j hjL hjk
      by_cases hji : j = idx
      · exact absurd (hji ▸ hidxL) hjL
      · rw [hS4j j hji, hCj j hjk, hBj j hji]
        show A.slots[j]? = _
        exact hAout j hjL
  · -- live back-link: the chain's first extension gets hash idx
    have hwfk := (hInv.wf k hklt).2 (by rw [hkc]; decide)
    have hlkge : 0 ≤ (slotAt S k).link := by
      rcases hwfk.2.1 with h1 | h1
      · exact absurd h1 hlk
      · exact h1.1
    set t0 : Nat := (slotAt S k).link.toNat with ht0
    have hlkofnat : (slotAt S k).link = Int.ofNat t0 := by
      rw [ht0, Int.ofNat_eq_coe, Int.toNat_of_nonneg hlkge]
    have ht0lt : t0 < S.maxslots := by
      rcases hwfk.2.1 with h1 | h1
      · exact absurd h1 hlk
      · rw [ht0]
        omega
    have ht0M : t0 ∈ M.tail := chainList_second _ _ _ _ hM hlk
    have ht0Mfull : t0 ∈ M := by
      cases M with
      | nil => exact absurd ht0M (List.not_mem_nil t0)
      | cons x xs => exact List.mem_cons_of_mem x ht0M
    have ht0L : t0 ∉ idx :: restL := fun hh => hdisj t0 hh ht0Mfull
    have ht0k : t0 ≠ k := by
      intro he
      obtain ⟨restM, hrM⟩ := chainList_head _ _ _ _ hM
      rw [hrM] at hMnd ht0M
      simp only [List.tail_cons] at ht0M
      exact (List.nodup_cons.mp hMnd).1 (he ▸ ht0M)
    have ht0c : (slotAt S t0).count = -2 := hMtl t0 ht0M
    have hS4t0 : S4.slots[t0]? = some (slotAt S t0) := by
      rw [hS4j t0 (fun hh => ht0L (hh ▸ hidxL)), hCj t0 ht0k,
        hBj t0 (fun hh => ht0L (hh ▸ hidxL))]
      show A.slots[t0]? = _
      rw [hAout t0 ht0L]
      exact getElem?_slots (by omega)
    set S5 : HState := { S4 with slots := S4.slots.set t0 { slotAt S t0 with hash := idx } }
      with hS5
    have hsetS5 : setSlotO S4 t0 { slotAt S t0 with hash := idx } = some S5 := by
      rw [setSlotO, if_pos (by rw [hS4len, hlenEq]; omega)]
    have hS5j : ∀ j, j ≠ t0 → S5.slots[j]? = S4.slots[j]? := by
      intro j hj
      show (S4.slots.set t0 _)[j]? = _
      rw [List.getElem?_set, if_neg (fun hh => hj hh.symm)]
    have hS5t0 : S5.slots[t0]? = some { slotAt S t0 with hash := idx } := by
      show (S4.slots.set t0 _)[t0]? = _
      rw [List.getElem?_set, if_pos rfl, if_pos (by rw [hS4len, hlenEq]; omega)]
    have hS5len : S5.slots.length = S.slots.length := by
      show (S4.slots.set t0 _).length = _
      rw [List.length_set, hS4len]
    refine ⟨k, idx :: restL, S5, ?_, hL, hklt, hkne, hkL, hkc, hkh, hAm, hS5len,
      hS4n, hS4u, ?_, ?_, ?_, Or.inr ⟨t0, hlkofnat, ht0lt, ht0L, ht0k, ht0c, hS5t0, ?_⟩⟩
    · rw [hcall, if_neg (by rw [hs4link]; exact hlk),
        if_neg (by rw [hs4link]; omega)]
      rw [hS4t0]
      simp only [Option.bind_eq_bind, Option.some_bind]
      have h9 : setSlotO S4 t0 { count := (slotAt S t0).count, hash := idx, link := (slotAt S t0).link, size := (slotAt S t0).size, data := (slotAt S t0).data } = some S5 := hsetS5
      rw [h9]
      simp only [Option.some_bind, Option.pure_def]
    · rw [hS5j idx (fun he => ht0L (he ▸ hidxL)), hS4idx]
    · rw [hS5j k (fun he => ht0k he.symm), hS4j k hkne, hCk]
    · intro j hj hjne
      rw [hS5j j (fun hh => ht0L (hh ▸ hj)), hS4j j hjne, hCj j (fun hh => hkL (hh ▸ hj)),
        hBj j hjne]
      show A.slots[j]? = _
      rw [hAin j hj, getElem?_slots (by rw [hlenEq]; exact hLlt j hj)]
      rfl
    · intro j hjL hjk hjt0
      by_cases hji : j = idx
      · exact absurd (hji ▸ hidxL) hjL
      · rw [hS5j j hjt0, hS4j j hji, hCj j hjk, hBj j hji]
        show A.slots[j]? = _
        exact hAout j hjL

/-- countP_split restated through slotAt. -/
theorem countP_split_slotAt (p : Slot → Bool) {S T : HState} (D : List Nat) (hnd : D.Nodup)
    (hlen : T.slots.length = S.slots.length) (hin : ∀ j ∈ D, j < S.slots.length)
    (hout : ∀ j, j < S.slots.length → j ∉ D → slotAt T j = slotAt S j) :
    T.slots.countP p + (D.map (fun j => if p (slotAt S j) then 1 else 0)).sum =
      S.slots.countP p + (D.map (fun j => if p (slotAt T j) then 1 else 0)).sum :=
  countP_split p D hnd S.slots T.slots hlen hin hout

/-- Count bookkeeping of the relocation: usedslots-counting drops by the
released chain's length, entry-counting drops by one, and collision-counting
drops by one exactly at the home index. -/
theorem promote_counts {S S' : HState} {idx i2 : Nat} {L : List Nat}
    (hlenEq : S.slots.length = S.maxslots)
    (hlen' : S'.slots.length = S.slots.length)
    (hidx : idx < S.maxslots) (hc2 : 2 ≤ (slotAt S idx).count)
    (hidxL : idx ∈ L) (hLnd : L.Nodup) (hLlt : ∀ t ∈ L, t < S.maxslots)
    (hLtl : ∀ t ∈ L, t ≠ idx → (slotAt S t).count = -2)
    (hi2lt : i2 < S.maxslots) (hi2ne : i2 ≠ idx) (hi2L : i2 ∉ L)
    (hi2c : (slotAt S i2).count = -1) (hi2h : (slotAt S i2).hash = idx)
    (hidx' : slotAt S' idx = { slotAt S i2 with count := (slotAt S idx).count - 1 })
    (hi2' : slotAt S' i2 = { slotAt S i2 with count := 0 })
    (hL' : ∀ j ∈ L, j ≠ idx → slotAt S' j = { slotAt S j with count := 0 })
    (hcase :
      (∀ j, j < S.maxslots → j ∉ L → j ≠ i2 → slotAt S' j = slotAt S j) ∨
      (∃ t0, t0 < S.maxslots ∧ t0 ∉ L ∧ t0 ≠ i2 ∧ (slotAt S t0).count = -2 ∧
        slotAt S' t0 = { slotAt S t0 with hash := idx } ∧
        (∀ j, j < S.maxslots → j ∉ L → j ≠ i2 → j ≠ t0 → slotAt S' j = slotAt S j))) :
    S'.slots.countP (fun s => !(s.count == 0)) + L.length =
        S.slots.countP (fun s => !(s.count == 0)) ∧
      S'.slots.countP entrySlot + 1 = S.slots.countP entrySlot ∧
      (∀ h, h < S.maxslots →
        S'.slots.countP (fun t => t.count == -1 && t.hash == h) +
            (if h = idx then 1 else 0) =
          S.slots.countP (fun t => t.count == -1 && t.hash == h)) := by
  -- indicator values of the touched slots, shared by both back-link cases
  have u_i2S : (if !((slotAt S i2).count == 0) then 1 else 0) = 1 := by
    rw [hi2c]; rfl
  have u_i2T : (if !((slotAt S' i2).count == 0) then 1 else 0) = 0 := by
    rw [hi2']; rfl
  have u_idxT : (if !((slotAt S' idx).count == 0) then 1 else 0) = 1 := by
    rw [hidx']
    refine if_pos ?_
    show (!(((slotAt S idx).count - 1) == 0)) = true
    simp only [Bool.not_eq_true', beq_eq_false_iff_ne, ne_eq]
    omega
  have u_LS : ∀ j ∈ L, (if !((slotAt S j).count == 0) then 1 else 0) = 1 := by
    intro j hj
    by_cases hji : j = idx
    · subst hji
      refine if_pos ?_
      simp only [Bool.not_eq_true', beq_eq_false_iff_ne, ne_eq]
      omega
    · rw [hLtl j hj hji]
      rfl
  have u_LT : ∀ j ∈ L, j ≠ idx → (if !((slotAt S' j).count == 0) then 1 else 0) = 0 := by
    intro j hj hji
    rw [hL' j hj hji]
    rfl
  have e_i2S : (if entrySlot (slotAt S i2) then 1 else 0) = 1 := by
    rw [entrySlot, hi2c]
    rfl
  have e_i2T : (if entrySlot (slotAt S' i2) then 1 else 0) = 0 := by
    rw [hi2', entrySlot]
    rfl
  have e_idxS : (if entrySlot (slotAt S idx) then 1 else 0) = 1 := by
    rw [entrySlot]
    refine if_pos ?_
    have h1 : decide (1 ≤ (slotAt S idx).count) = true := decide_eq_true (by omega)
    rw [h1, Bool.true_or]
  have e_idxT : (if entrySlot (slotAt S' idx) then 1 else 0) = 1 := by
    rw [hidx', entrySlot]
    refine if_pos ?_
    show (decide (1 ≤ (slotAt S idx).count - 1) || (((slotAt S idx).count - 1) == -1)) = true
    have h1 : decide (1 ≤ (slotAt S idx).count - 1) = true := decide_eq_true (by omega)
    rw [h1, Bool.true_or]
  have e_LS0 : ∀ j ∈ L, j ≠ idx → (if entrySlot (slotAt S j) then 1 else 0) = 0 := by
    intro j hj hji
    rw [entrySlot, hLtl j hj hji]
    rfl
  have e_LT0 : ∀ j ∈ L, j ≠ idx → (if entrySlot (slotAt S' j) then 1 else 0) = 0 := by
    intro j hj hji
    rw [hL' j hj hji, entrySlot]
    rfl
  have c_i2S : ∀ h, (if ((slotAt S i2).count == -1 && (slotAt S i2).hash == h)
      then 1 else 0) = (if h = idx then 1 else 0) := by
    intro h
    rw [hi2c, hi2h]
    by_cases hh : h = idx
    · subst hh
      rw [if_pos rfl]
      refine if_pos ?_
      simp
    · rw [if_neg hh]
      refine if_neg ?_
      simp only [Bool.and_eq_true, beq_iff_eq]
      rintro ⟨-, h2⟩
      exact hh h2.symm
  have c_i2T : ∀ h, (if ((slotAt S' i2).count == -1 && (slotAt S' i2).hash == h)
      then 1 else 0) = 0 := by
    intro h
    rw [hi2']
    rfl
  have c_idxS : ∀ h, (if ((slotAt S idx).count == -1 && (slotAt S idx).hash == h)
      then 1 else 0) = 0 := by
    intro h
    refine if_neg ?_
    simp only [Bool.and_eq_true, beq_iff_eq]
    rintro ⟨h1, -⟩
    omega
  have c_idxT : ∀ h, (if ((slotAt S' idx).count == -1 && (slotAt S' idx).hash == h)
      then 1 else 0) = 0 := by
    intro h
    rw [hidx']
    refine if_neg ?_
    show ¬((((slotAt S idx).count - 1) == -1) && ((slotAt S i2).hash == h)) = true
    simp only [Bool.and_eq_true, beq_iff_eq]
    rintro ⟨h1, -⟩
    omega
  have c_LS0 : ∀ h, ∀ j ∈ L, (if ((slotAt S j).count == -1 && (slotAt S j).hash == h)
      then 1 else 0) = 0 := by
    intro h j hj
    by_cases hji : j = idx
    · subst hji
      exact c_idxS h
    · rw [hLtl j hj hji]
      rfl
  have c_LT0 : ∀ h, ∀ j ∈ L, (if ((slotAt S' j).count == -1 && (slotAt S' j).hash == h)
      then 1 else 0) = 0 := by
    intro h j hj
    by_cases hji : j = idx
    · subst hji
      exact c_idxT h
    · rw [hL' j hj hji]
      rfl
  rcases hcase with hframe | ⟨t0, ht0lt, ht0L, ht0i2, ht0c, ht0new, hframe⟩
  · -- no extension behind the relocated sibling
    have hDnd : (i2 :: L).Nodup := List.nodup_cons.mpr ⟨hi2L, hLnd⟩
    have hin : ∀ j ∈ i2 :: L, j < S.slots.length := by
      intro j hj
      rcases List.mem_cons.mp hj with h1 | h1
      · omega
      · have := hLlt j h1
        omega
    have hout : ∀ j, j < S.slots.length → j ∉ i2 :: L → slotAt S' j = slotAt S j := by
      intro j hj hjD
      exact hframe j (by omega) (fun hh => hjD (List.mem_cons_of_mem i2 hh))
        (fun hh => hjD (hh ▸ List.mem_cons_self i2 L))
    refine ⟨?_, ?_, ?_⟩
    · have hs := countP_split_slotAt (fun s => !(s.count == 0)) (i2 :: L) hDnd hlen' hin hout
      simp only [List.map_cons, List.sum_cons] at hs
      rw [u_i2S, u_i2T, sum_map_ones u_LS,
        sum_map_single hLnd hidxL u_idxT u_LT] at hs
      omega
    · have hs := countP_split_slotAt entrySlot (i2 :: L) hDnd hlen' hin hout
      simp only [List.map_cons, List.sum_cons] at hs
      rw [e_i2S, e_i2T, sum_map_single hLnd hidxL e_idxS e_LS0,
        sum_map_single hLnd hidxL e_idxT e_LT0] at hs
      omega
    · intro h hh
      have hs := countP_split_slotAt (fun t => t.count == -1 && t.hash == h)
        (i2 :: L) hDnd hlen' hin hout
      simp only [List.map_cons, List.sum_cons] at hs
      rw [c_i2S h, c_i2T h, sum_map_zeros (c_LS0 h), sum_map_zeros (c_LT0 h)] at hs
      by_cases hcaseh : h = idx
      · rw [if_pos hcaseh]
        rw [if_pos hcaseh] at hs
        omega
      · rw [if_neg hcaseh]
        rw [if_neg hcaseh] at hs
        omega
  · -- the relocated sibling has a chain: one extra touched slot, equal on both sides
    have hDnd : (i2 :: t0 :: L).Nodup := by
      refine List.nodup_cons.mpr ⟨?_, List.nodup_cons.mpr ⟨ht0L, hLnd⟩⟩
      simp only [List.mem_cons]
      push_neg
      exact ⟨fun hh => ht0i2 hh.symm, hi2L⟩
    have hin : ∀ j ∈ i2 :: t0 :: L, j < S.slots.length := by
      intro j hj
      rcases List.mem_cons.mp hj with h1 | h1
      · omega
      · rcases List.mem_cons.mp h1 with h2 | h2
        · omega
        · have := hLlt j h2
          omega
    have hout : ∀ j, j < S.slots.length → j ∉ i2 :: t0 :: L → slotAt S' j = slotAt S j := by
      intro j hj hjD
      simp only [List.mem_cons] at hjD
      push_neg at hjD
      exact hframe j (by omega) hjD.2.2 hjD.1 hjD.2.1
    have u_t0S : (if !((slotAt S t0).count == 0) then 1 else 0) = 1 := by
      rw [ht0c]
      rfl
    have u_t0T : (if !((slotAt S' t0).count == 0) then 1 else 0) = 1 := by
      rw [ht0new]
      show (if !((slotAt S t0).count == 0) then 1 else 0) = 1
      rw [ht0c]
      rfl
    have e_t0S : (if entrySlot (slotAt S t0) then 1 else 0) = 0 := by
      rw [entrySlot, ht0c]
      rfl
    have e_t0T : (if entrySlot (slotAt S' t0) then 1 else 0) = 0 := by
      rw [ht0new, entrySlot]
      show (if (decide (1 ≤ (slotAt S t0).count) || ((slotAt S t0).count == -1))
        then 1 else 0) = 0
      rw [ht0c]
      rfl
    have c_t0S : ∀ h, (if ((slotAt S t0).count == -1 && (slotAt S t0).hash == h)
        then 1 else 0) = 0 := by
      intro h
      rw [ht0c]
      rfl
    have c_t0T : ∀ h, (if ((slotAt S' t0).count == -1 && (slotAt S' t0).hash == h)
        then 1 else 0) = 0 := by
      intro h
      rw [ht0new]
      show (if (((slotAt S t0).count == -1) && ((idx : Nat) == h)) then 1 else 0) = 0
      rw [ht0c]
      rfl
    refine ⟨?_, ?_, ?_⟩
    · have hs := countP_split_slotAt (fun s => !(s.count == 0)) (i2 :: t0 :: L)
        hDnd hlen' hin hout
      simp only [List.map_cons, List.sum_cons] at hs
      rw [u_i2S, u_i2T, u_t0S, u_t0T, sum_map_ones u_LS,
        sum_map_single hLnd hidxL u_idxT u_LT] at hs
      omega
    · have hs := countP_split_slotAt entrySlot (i2 :: t0 :: L) hDnd hlen' hin hout
      simp only [List.map_cons, List.sum_cons] at hs
      rw [e_i2S, e_i2T, e_t0S, e_t0T, sum_map_single hLnd hidxL e_idxS e_LS0,
        sum_map_single hLnd hidxL e_idxT e_LT0] at hs
      omega
    · intro h hh
      have hs := countP_split_slotAt (fun t => t.count == -1 && t.hash == h)
        (i2 :: t0 :: L) hDnd hlen' hin hout
      simp only [List.map_cons, List.sum_cons] at hs
      rw [c_i2S h, c_i2T h, c_t0S h, c_t0T h,
        sum_map_zeros (c_LS0 h), sum_map_zeros (c_LT0 h)] at hs
      by_cases hcaseh : h = idx
      · rw [if_pos hcaseh]
        rw [if_pos hcaseh] at hs
        omega
      · rw [if_neg hcaseh]
        rw [if_neg hcaseh] at hs
        omega

/-- Peeling one step off a chain whose anchor has a live link. -/
theorem chainList_peel : ∀ (fuel : Nat) (S : HState) (i : Nat) (L : List Nat),
    chainList S i (fuel + 1) = some L → (slotAt S i).link ≠ -1 →
    chainList S (slotAt S i).link.toNat fuel = some L.tail := by
  intro fuel S i L h hlk
  rw [chainList] at h
  rcases hs : S.slots[i]? with _ | s
  · rw [hs] at h; simp at h
  · rw [hs] at h
    simp only [Option.bind_eq_bind, Option.some_bind] at h
    rw [slotAt_eq_of_getElem? hs] at hlk ⊢
    rw [if_neg hlk] at h
    by_cases hl2 : s.link < 0
    · rw [if_pos hl2] at h; exact Option.noConfusion h
    · rw [if_neg hl2] at h
      rcases hr : chainList S s.link.toNat fuel with _ | rest
      · rw [hr] at h; simp at h
      · rw [hr] at h
        simp only [Option.bind_eq_bind, Option.some_bind, Option.pure_def,
          Option.some.injEq] at h
        rw [← h]
        simpa using hr

/-- A chain whose anchor ends immediately is the singleton. -/
theorem chainList_single : ∀ (fuel : Nat) (S : HState) (i : Nat) (L : List Nat),
    chainList S i (fuel + 1) = some L → (slotAt S i).link = -1 → L = [i] := by
  intro fuel S i L h hlk
  rw [chainList] at h
  rcases hs : S.slots[i]? with _ | s
  · rw [hs] at h; simp at h
  · rw [hs] at h
    simp only [Option.bind_eq_bind, Option.some_bind] at h
    rw [slotAt_eq_of_getElem? hs] at hlk
    rw [if_pos hlk] at h
    simp only [Option.pure_def, Option.some.injEq] at h
    exact h.symm

/-- Reassembling a successful chainCheck from its parts. -/
theorem chainCheck_intro {S : HState} {j : Nat} {L : List Nat}
    (hL : chainList S j (S.maxslots + 1) = some L) (hnd : L.Nodup)
    (hlt : ∀ t ∈ L, t < S.maxslots) (hhd : L.head? = some j)
    (htl : ∀ t ∈ L.tail, (slotAt S t).count = -2) : chainCheck S j = true := by
  rw [chainCheck, hL]
  simp only [Bool.and_eq_true, decide_eq_true_eq, List.all_eq_true, beq_iff_eq]
  exact ⟨⟨⟨hnd, fun t ht => hlt t ht⟩, hhd⟩, fun t ht => htl t ht⟩

/-- matchEquiv observes only the stored payloads. -/
theorem matchEquiv_data_congr {a b c d : Slot} (hab : a.data = b.data)
    (hcd : c.data = d.data) : matchEquiv a c ↔ matchEquiv b d := by
  rw [matchEquiv, matchEquiv, hab, hcd]

/-- The section-3 invariants are preserved by the relocation: given the slot
layout produced by remove_by_idx's leading-with-collisions branch, the
resulting state satisfies Inv again. -/
theorem Inv_promote {S S' : HState} (hInv : Inv S) {idx i2 : Nat} {L : List Nat}
    (hidx : idx < S.maxslots) (hc2 : 2 ≤ (slotAt S idx).count)
    (hL : chainList S idx (S.maxslots + 1) = some L)
    (hi2lt : i2 < S.maxslots) (hi2ne : i2 ≠ idx) (hi2L : i2 ∉ L)
    (hi2c : (slotAt S i2).count = -1) (hi2h : (slotAt S i2).hash = idx)
    (hm : S'.maxslots = S.maxslots) (hlen' : S'.slots.length = S.slots.length)
    (hnum : S'.num = S.num - 1) (hused : S'.usedslots = S.usedslots - L.length)
    (hidx' : slotAt S' idx = { slotAt S i2 with count := (slotAt S idx).count - 1 })
    (hi2' : slotAt S' i2 = { slotAt S i2 with count := 0 })
    (hL' : ∀ j ∈ L, j ≠ idx → slotAt S' j = { slotAt S j with count := 0 })
    (hcase :
      ((slotAt S i2).link = -1 ∧
        (∀ j, j < S.maxslots → j ∉ L → j ≠ i2 → slotAt S' j = slotAt S j)) ∨
      (∃ t0, (slotAt S i2).link = Int.ofNat t0 ∧ t0 < S.maxslots ∧ t0 ∉ L ∧
        t0 ≠ i2 ∧ (slotAt S t0).count = -2 ∧
        slotAt S' t0 = { slotAt S t0 with hash := idx } ∧
        (∀ j, j < S.maxslots → j ∉ L → j ≠ i2 → j ≠ t0 → slotAt S' j = slotAt S j))) :
    Inv S' := by
  have hn := hInv.capPos
  have hlenEq := hInv.lenEq
  have heidx : entryP (slotAt S idx) := Or.inl (by omega)
  have hek : entryP (slotAt S i2) := Or.inr hi2c
  obtain ⟨hLnd, hLlt, hLhd, hLtlT, hLnz⟩ := chain_facts hInv hidx heidx hL
  obtain ⟨restL, rfl⟩ := chainList_head _ _ _ _ hL
  obtain ⟨M, hM, hMnd2, hMlt, hMhd, hMtl⟩ := chainCheck_elim (hInv.chainsOk i2 hi2lt hek)
  obtain ⟨restM, rfl⟩ := chainList_head _ _ _ _ hM
  have hdisj := chains_disjoint hInv hidx hi2lt heidx hek (fun he => hi2ne he.symm) hL hM
  have hidxL : idx ∈ idx :: restL := List.mem_cons_self _ _
  have hLtl : ∀ t ∈ idx :: restL, t ≠ idx → (slotAt S t).count = -2 := by
    intro t ht hti
    rcases List.mem_cons.mp ht with h1 | h1
    · exact absurd h1 hti
    · exact hLtlT t h1
  have htouch : ∀ j, (slotAt S i2).link = Int.ofNat j →
      j < S.maxslots ∧ j ∉ idx :: restL ∧ j ≠ i2 ∧ (slotAt S j).count = -2 ∧
      slotAt S' j = { slotAt S j with hash := idx } := by
    intro j hj
    rcases hcase with ⟨hlkm1, _⟩ | ⟨t0, hlk, ht0lt, ht0L, ht0i2, ht0c, ht0new, _⟩
    · rw [hlkm1] at hj
      exact absurd hj (by rw [Int.ofNat_eq_coe]; omega)
    · have hjt : j = t0 := by
        rw [hlk, Int.ofNat_eq_coe, Int.ofNat_eq_coe] at hj
        omega
      subst hjt
      exact ⟨ht0lt, ht0L, ht0i2, ht0c, ht0new⟩
  have hother : ∀ j, j < S.maxslots → j ∉ idx :: restL → j ≠ i2 →
      (slotAt S i2).link ≠ Int.ofNat j → slotAt S' j = slotAt S j := by
    intro j hj hjL hji2 hlkj
    rcases hcase with ⟨_, hframe⟩ | ⟨t0, hlk, _, _, _, _, _, hframe⟩
    · exact hframe j hj hjL hji2
    · refine hframe j hj hjL hji2 (fun hjt => hlkj ?_)
      rw [hjt]
      exact hlk
  have hfidx : (slotAt S' idx).count = (slotAt S idx).count - 1 ∧
      (slotAt S' idx).hash = (slotAt S i2).hash ∧
      (slotAt S' idx).link = (slotAt S i2).link ∧
      (slotAt S' idx).size = (slotAt S i2).size ∧
      (slotAt S' idx).data = (slotAt S i2).data := by
    rw [hidx']
    exact ⟨rfl, rfl, rfl, rfl, rfl⟩
  have hfi2 : (slotAt S' i2).count = 0 ∧
      (slotAt S' i2).hash = (slotAt S i2).hash ∧
      (slotAt S' i2).link = (slotAt S i2).link ∧
      (slotAt S' i2).size = (slotAt S i2).size ∧
      (slotAt S' i2).data = (slotAt S i2).data := by
    rw [hi2']
    exact ⟨rfl, rfl, rfl, rfl, rfl⟩
  have hfL : ∀ j ∈ idx :: restL, j ≠ idx → (slotAt S' j).count = 0 ∧
      (slotAt S' j).hash = (slotAt S j).hash ∧ (slotAt S' j).link = (slotAt S j).link ∧
      (slotAt S' j).size = (slotAt S j).size ∧ (slotAt S' j).data = (slotAt S j).data := by
    intro j hj hji
    rw [hL' j hj hji]
    exact ⟨rfl, rfl, rfl, rfl, rfl⟩
  have hsame : ∀ j, j < S.maxslots → j ∉ idx :: restL → j ≠ i2 →
      (slotAt S' j).count = (slotAt S j).count ∧
      (slotAt S' j).link = (slotAt S j).link ∧
      (slotAt S' j).size = (slotAt S j).size ∧
      (slotAt S' j).data = (slotAt S j).data := by
    intro j hj hjL hji2
    by_cases ht : (slotAt S i2).link = Int.ofNat j
    · obtain ⟨_, _, _, _, hnew⟩ := htouch j ht
      rw [hnew]
      exact ⟨rfl, rfl, rfl, rfl⟩
    · rw [hother j hj hjL hji2 ht]
      exact ⟨rfl, rfl, rfl, rfl⟩
  have hcounts := promote_counts hlenEq hlen' hidx hc2 hidxL hLnd hLlt hLtl hi2lt hi2ne
    hi2L hi2c hi2h hidx' hi2' hL' (by
      rcases hcase with ⟨_, hframe⟩ | ⟨t0, _, ht0lt, ht0L, ht0i2, ht0c, ht0new, hframe⟩
      · exact Or.inl hframe
      · exact Or.inr ⟨t0, ht0lt, ht0L, ht0i2, ht0c, ht0new, hframe⟩)
  refine ⟨?_, ?_, ?_, ?_, ?_, ?_, ?_, ?_, ?_, ?_, ?_⟩
  · -- lenEq
    rw [hlen', hlenEq, hm]
  · -- capPos
    rw [hm]
    exact hn
  · -- wf
    intro j hj
    have hjn : j < S.maxslots := by rw [hm] at hj; exact hj
    by_cases hj1 : j = idx
    · subst hj1
      obtain ⟨f1, f2, f3, f4, f5⟩ := hfidx
      have hw2 := (hInv.wf i2 hi2lt).2 (by rw [hi2c]; decide)
      refine ⟨by rw [f5]; exact (hInv.wf i2 hi2lt).1, fun _ => ?_⟩
      refine ⟨by rw [f2, hi2h, hm]; exact hidx, ?_, ?_, ?_⟩
      · rw [f3, hm]
        exact hw2.2.1
      · intro hcnt2
        rw [f1] at hcnt2
        exact absurd hcnt2 (by omega)
      · intro _
        rw [f4]
        exact hw2.2.2.2 (by rw [hi2c]; decide)
    · by_cases hj2 : j = i2
      · subst hj2
        obtain ⟨f1, f2, f3, f4, f5⟩ := hfi2
        exact ⟨by rw [f5]; exact (hInv.wf j hi2lt).1, fun hcnt => absurd f1 hcnt⟩
      · by_cases hjL : j ∈ idx :: restL
        · obtain ⟨f1, f2, f3, f4, f5⟩ := hfL j hjL hj1
          exact ⟨by rw [f5]; exact (hInv.wf j hjn).1, fun hcnt => absurd f1 hcnt⟩
        · by_cases ht : (slotAt S i2).link = Int.ofNat j
          · obtain ⟨_, _, _, hjc, hnew⟩ := htouch j ht
            obtain ⟨f1, f2, f3, f4⟩ := hsame j hjn hjL hj2
            have hw2 := (hInv.wf j hjn).2 (by rw [hjc]; decide)
            refine ⟨by rw [f4]; exact (hInv.wf j hjn).1, fun _ => ?_⟩
            refine ⟨?_, ?_, ?_, ?_⟩
            · have hh : (slotAt S' j).hash = idx := by rw [hnew]
              rw [hh, hm]
              exact hidx
            · rw [f2, hm]
              exact hw2.2.1
            · intro _
              rw [f3]
              exact hw2.2.2.1 hjc
            · intro hne2
              rw [f1] at hne2
              exact absurd hjc hne2
          · rw [slotWf, hother j hjn hjL hj2 ht]
            refine ⟨(hInv.wf j hjn).1, fun hcnt => ?_⟩
            have hw2 := (hInv.wf j hjn).2 hcnt
            exact ⟨by rw [hm]; exact hw2.1, by rw [hm]; exact hw2.2.1,
              hw2.2.2.1, hw2.2.2.2⟩
  · -- usedEq
    have h2 := hcounts.1
    rw [hused, hInv.usedEq]
    omega
  · -- numEq
    have h2 := hcounts.2.1
    rw [hnum, hInv.numEq]
    omega
  · -- leadOk
    intro j hj hcnt'
    have hjn : j < S.maxslots := by rw [hm] at hj; exact hj
    by_cases hj1 : j = idx
    · rw [hj1]
      obtain ⟨f1, f2, f3, f4, f5⟩ := hfidx
      refine ⟨by rw [f2, hi2h], ?_⟩
      have h3 := hcounts.2.2 idx hidx
      rw [if_pos rfl] at h3
      have h4 := (hInv.leadOk idx hidx (by omega)).2
      rw [collCountAt] at h4
      rw [collCountAt, f1]
      omega
    · by_cases hj2 : j = i2
      · subst hj2
        exact absurd hcnt' (by rw [hfi2.1]; decide)
      · by_cases hjL : j ∈ idx :: restL
        · exact absurd hcnt' (by rw [(hfL j hjL hj1).1]; decide)
        · by_cases ht : (slotAt S i2).link = Int.ofNat j
          · obtain ⟨_, _, _, hjc, _⟩ := htouch j ht
            exact absurd hcnt' (by rw [(hsame j hjn hjL hj2).1, hjc]; decide)
          · have heq := hother j hjn hjL hj2 ht
            have hcnt2 : 1 ≤ (slotAt S j).count := by rw [← heq]; exact hcnt'
            refine ⟨by rw [heq]; exact (hInv.leadOk j hjn hcnt2).1, ?_⟩
            have h3 := hcounts.2.2 j hjn
            rw [if_neg hj1] at h3
            have h4 := (hInv.leadOk j hjn hcnt2).2
            rw [collCountAt] at h4
            rw [collCountAt, heq]
            omega
  · -- extBk
    intro e he hec
    have hen : e < S.maxslots := by rw [hm] at he; exact he
    by_cases he1 : e = idx
    · subst he1
      rw [hfidx.1] at hec
      exact absurd hec (by omega)
    · by_cases he2 : e = i2
      · subst he2
        rw [hfi2.1] at hec
        exact absurd hec (by decide)
      · by_cases heL : e ∈ idx :: restL
        · rw [(hfL e heL he1).1] at hec
          exact absurd hec (by decide)
        · by_cases het : (slotAt S i2).link = Int.ofNat e
          · obtain ⟨_, _, _, _, hnew⟩ := htouch e het
            have hhash : (slotAt S' e).hash = idx := by rw [hnew]
            rw [hhash]
            constructor
            · rw [hfidx.1]
              omega
            · rw [hfidx.2.2.1]
              exact het
          · have heq := hother e hen heL he2 het
            rw [heq] at hec
            have hb := hInv.extBk e hen hec
            have hhash : (slotAt S' e).hash = (slotAt S e).hash := by rw [heq]
            rw [hhash]
            have hblt : (slotAt S e).hash < S.maxslots :=
              ((hInv.wf e hen).2 (by rw [hec]; decide)).1
            by_cases hbL : (slotAt S e).hash ∈ idx :: restL
            · exfalso
              have hblk : (slotAt S (slotAt S e).hash).link ≠ -1 := by
                rw [hb.2, Int.ofNat_eq_coe]
                omega
              have h5 := chainList_next_mem hL hbL hblk
              rw [hb.2, Int.ofNat_eq_coe, Int.toNat_ofNat] at h5
              exact heL h5
            · by_cases hbi2 : (slotAt S e).hash = i2
              · exact absurd (by rw [← hbi2]; exact hb.2) het
              · obtain ⟨g1, g2, _, _⟩ := hsame (slotAt S e).hash hblt hbL hbi2
                constructor
                · rw [g1]
                  exact hb.1
                · rw [g2]
                  exact hb.2
  · -- nxtExt
    intro j hj hcnt' hlk'
    have hjn : j < S.maxslots := by rw [hm] at hj; exact hj
    by_cases hj1 : j = idx
    · subst hj1
      rw [hfidx.2.2.1] at hlk' ⊢
      have hge : 0 ≤ (slotAt S i2).link := by
        rcases ((hInv.wf i2 hi2lt).2 (by rw [hi2c]; decide)).2.1 with h1 | h1
        · exact absurd h1 hlk'
        · exact h1.1
      have hofn : (slotAt S i2).link = Int.ofNat (slotAt S i2).link.toNat := by
        rw [Int.ofNat_eq_coe, Int.toNat_of_nonneg hge]
      obtain ⟨_, _, _, hjc, hnew⟩ := htouch _ hofn
      rw [hnew]
      exact hjc
    · by_cases hj2 : j = i2
      · subst hj2
        exact absurd hfi2.1 hcnt'
      · by_cases hjL : j ∈ idx :: restL
        · exact absurd (hfL j hjL hj1).1 hcnt'
        · by_cases ht : (slotAt S i2).link = Int.ofNat j
          · obtain ⟨_, hjLn, hji2n, hjc, hnew⟩ := htouch j ht
            have hlkj : (slotAt S' j).link = (slotAt S j).link := by rw [hnew]
            rw [hlkj] at hlk' ⊢
            have hu := hInv.nxtExt j hjn (by rw [hjc]; decide) hlk'
            have hjM : j ∈ restM := by
              have h5 := chainList_second _ _ _ _ hM (by rw [ht, Int.ofNat_eq_coe]; omega)
              rw [ht, Int.ofNat_eq_coe, Int.toNat_ofNat] at h5
              simpa using h5
            by_cases hui2 : (slotAt S j).link.toNat = i2
            · rw [hui2, hi2c] at hu
              exact absurd hu (by decide)
            · have huM : (slotAt S j).link.toNat ∈ i2 :: restM :=
                chainList_next_mem hM (List.mem_cons_of_mem i2 hjM) hlk'
              have huL : (slotAt S j).link.toNat ∉ idx :: restL :=
                fun hh => hdisj _ hh huM
              have hult : (slotAt S j).link.toNat < S.maxslots := hMlt _ huM
              rw [(hsame _ hult huL hui2).1]
              exact hu
          · have heq := hother j hjn hjL hj2 ht
            rw [heq] at hcnt' hlk' ⊢
            have hu := hInv.nxtExt j hjn hcnt' hlk'
            have hge : 0 ≤ (slotAt S j).link := by
              rcases ((hInv.wf j hjn).2 hcnt').2.1 with h1 | h1
              · exact absurd h1 hlk'
              · exact h1.1
            have hult : (slotAt S j).link.toNat < S.maxslots := by
              rcases ((hInv.wf j hjn).2 hcnt').2.1 with h1 | h1
              · exact absurd h1 hlk'
              · omega
            by_cases hui2 : (slotAt S j).link.toNat = i2
            · rw [hui2, hi2c] at hu
              exact absurd hu (by decide)
            · by_cases huL : (slotAt S j).link.toNat ∈ idx :: restL
              · exfalso
                by_cases huidx : (slotAt S j).link.toNat = idx
                · rw [huidx] at hu
                  omega
                · rcases chainList_pred _ _ _ _ hL _ huL with h5 | ⟨p, hp, hpl⟩
                  · exact huidx h5
                  · have hplt : p < S.maxslots := hLlt p hp
                    have hpnz : (slotAt S p).count ≠ 0 := hLnz p hp
                    have hjl : (slotAt S j).link = Int.ofNat (slotAt S j).link.toNat := by
                      rw [Int.ofNat_eq_coe, Int.toNat_of_nonneg hge]
                    have h6 := hInv.linkInj j hjn p hplt hcnt' hpnz
                      (by rw [hjl, hpl]) hlk'
                    exact hjL (by rw [h6]; exact hp)
              · rw [(hsame _ hult huL hui2).1]
                exact hu
  · -- linkInj
    intro j hj k hk hcj hck hleq hlne
    have hjn : j < S.maxslots := by rw [hm] at hj; exact hj
    have hkn : k < S.maxslots := by rw [hm] at hk; exact hk
    have hrep : ∀ x, x < S.maxslots → (slotAt S' x).count ≠ 0 →
        (x = idx ∧ (slotAt S' x).link = (slotAt S i2).link) ∨
        (x ≠ idx ∧ x ≠ i2 ∧ (slotAt S' x).link = (slotAt S x).link ∧
          (slotAt S x).count ≠ 0) := by
      intro x hx hcx
      by_cases hx1 : x = idx
      · subst hx1
        exact Or.inl ⟨rfl, hfidx.2.2.1⟩
      · by_cases hx2 : x = i2
        · subst hx2
          exact absurd hfi2.1 hcx
        · by_cases hxL : x ∈ idx :: restL
          · exact absurd (hfL x hxL hx1).1 hcx
          · obtain ⟨hc1, hl1, _, _⟩ := hsame x hx hxL hx2
            refine Or.inr ⟨hx1, hx2, hl1, ?_⟩
            rw [← hc1]
            exact hcx
    rcases hrep j hjn hcj with ⟨hj1, hlj⟩ | ⟨hj1, hji2, hlj, hcjS⟩ <;>
      rcases hrep k hkn hck with ⟨hk1, hlk2⟩ | ⟨hk1, hki2, hlk2, hckS⟩
    · rw [hj1, hk1]
    · exfalso
      rw [hlj] at hleq hlne
      rw [hlk2] at hleq
      have h6 := hInv.linkInj i2 hi2lt k hkn (by rw [hi2c]; decide) hckS hleq hlne
      exact hki2 h6.symm
    · exfalso
      rw [hlj] at hleq hlne
      rw [hlk2] at hleq
      have h6 := hInv.linkInj j hjn i2 hi2lt hcjS (by rw [hi2c]; decide) hleq hlne
      exact hji2 h6
    · rw [hlj] at hleq hlne
      rw [hlk2] at hleq
      exact hInv.linkInj j hjn k hkn hcjS hckS hleq hlne
  · -- chainsOk
    intro j hj hent
    have hjn : j < S.maxslots := by rw [hm] at hj; exact hj
    by_cases hj1 : j = idx
    · rw [hj1]
      have hchain2 : chainList S' idx (S.maxslots + 1) = some (idx :: restM) := by
        rw [chainList]
        rw [getElem?_slots (show idx < S'.slots.length by rw [hlen']; omega)]
        simp only [Option.bind_eq_bind, Option.some_bind]
        rw [hfidx.2.2.1]
        rcases hcase with ⟨hlkm1, _⟩ | ⟨t0, hlk, ht0lt, ht0L, ht0i2, ht0c, ht0new, _⟩
        · have hrM : restM = [] := by
            have h5 := chainList_single _ _ _ _ hM hlkm1
            simpa using h5
          rw [hlkm1, if_pos rfl, hrM]
          rfl
        · rw [hlk]
          rw [if_neg (by rw [Int.ofNat_eq_coe]; omega),
            if_neg (by rw [Int.ofNat_eq_coe]; omega)]
          rw [Int.ofNat_eq_coe, Int.toNat_ofNat]
          have hpeel := chainList_peel _ _ _ _ hM (by rw [hlk, Int.ofNat_eq_coe]; omega)
          rw [hlk, Int.ofNat_eq_coe, Int.toNat_ofNat] at hpeel
          simp only [List.tail_cons] at hpeel
          have hcongr : chainList S' t0 S.maxslots = some restM := by
            refine chainList_congr _ _ _ hpeel ?_
            intro u hu
            have huM : u ∈ i2 :: restM := List.mem_cons_of_mem i2 hu
            have hult : u < S.maxslots := hMlt u huM
            have hui2 : u ≠ i2 := fun hh => (List.nodup_cons.mp hMnd2).1 (hh ▸ hu)
            have huL : u ∉ idx :: restL := fun hh => hdisj u hh huM
            exact ⟨slotAt S u, slotAt S' u, getElem?_slots (by omega),
              getElem?_slots (by rw [hlen']; omega), (hsame u hult huL hui2).2.1⟩
          rw [hcongr]
          rfl
      refine chainCheck_intro (by rw [hm]; exact hchain2) ?_ ?_ ?_ ?_
      · refine List.nodup_cons.mpr ⟨?_, (List.nodup_cons.mp hMnd2).2⟩
        exact fun hh => hdisj idx hidxL (List.mem_cons_of_mem i2 hh)
      · intro t ht
        rw [hm]
        rcases List.mem_cons.mp ht with h1 | h1
        · omega
        · exact hMlt t (List.mem_cons_of_mem i2 h1)
      · rfl
      · intro t ht
        have htf : t ∈ i2 :: restM := List.mem_cons_of_mem i2 ht
        have hlt2 : t < S.maxslots := hMlt t htf
        have hti2 : t ≠ i2 := fun hh => (List.nodup_cons.mp hMnd2).1 (hh ▸ ht)
        have htL : t ∉ idx :: restL := fun hh => hdisj t hh htf
        rw [(hsame t hlt2 htL hti2).1]
        exact hMtl t ht
    · have hj2 : j ≠ i2 := by
        intro hh
        subst hh
        rcases hent with h5 | h5
        · rw [hfi2.1] at h5
          exact absurd h5 (by decide)
        · rw [hfi2.1] at h5
          exact absurd h5 (by decide)
      have hjL : j ∉ idx :: restL := by
        intro hh
        have h6 := (hfL j hh hj1).1
        rcases hent with h5 | h5
        · rw [h6] at h5
          exact absurd h5 (by decide)
        · rw [h6] at h5
          exact absurd h5 (by decide)
      have hjt : ¬((slotAt S i2).link = Int.ofNat j) := by
        intro hh
        obtain ⟨_, _, _, hjc, hnew⟩ := htouch j hh
        have h6 : (slotAt S' j).count = (slotAt S j).count := by rw [hnew]
        rcases hent with h5 | h5
        · rw [h6, hjc] at h5
          exact absurd h5 (by decide)
        · rw [h6, hjc] at h5
          exact absurd h5 (by decide)
      have heq := hother j hjn hjL hj2 hjt
      have hentS : entryP (slotAt S j) := by rw [← heq]; exact hent
      obtain ⟨Mj, hMj, hMjnd, hMjlt, hMjhd, hMjtl⟩ :=
        chainCheck_elim (hInv.chainsOk j hjn hentS)
      have hdisj2 := chains_disjoint hInv hjn hidx hentS heidx hj1 hMj hL
      have hdisj3 := chains_disjoint hInv hjn hi2lt hentS hek hj2 hMj hM
      have hchain2 : chainList S' j (S.maxslots + 1) = some Mj := by
        refine chainList_congr _ _ _ hMj ?_
        intro u hu
        have hult : u < S.maxslots := hMjlt u hu
        have huL : u ∉ idx :: restL := fun hh => hdisj2 u hu hh
        have hui2 : u ≠ i2 := fun hh => hdisj3 u hu (hh ▸ List.mem_cons_self i2 restM)
        exact ⟨slotAt S u, slotAt S' u, getElem?_slots (by omega),
          getElem?_slots (by rw [hlen']; omega), (hsame u hult huL hui2).2.1⟩
      refine chainCheck_intro (by rw [hm]; exact hchain2) hMjnd ?_ hMjhd ?_
      · intro t ht
        rw [hm]
        exact hMjlt t ht
      · intro t ht
        have htf : t ∈ Mj := by
          cases Mj with
          | nil => exact absurd ht (List.not_mem_nil t)
          | cons a r => exact List.mem_cons_of_mem a ht
        have hlt2 : t < S.maxslots := hMjlt t htf
        have htL : t ∉ idx :: restL := fun hh => hdisj2 t htf hh
        have hti2 : t ≠ i2 := fun hh => hdisj3 t htf (hh ▸ List.mem_cons_self i2 restM)
        rw [(hsame t hlt2 htL hti2).1]
        exact hMjtl t ht
  · -- keyUniq
    intro j hj k hk hjk hej hek2
    have hjn : j < S.maxslots := by rw [hm] at hj; exact hj
    have hkn : k < S.maxslots := by rw [hm] at hk; exact hk
    have hrep : ∀ x, x < S.maxslots → entryP (slotAt S' x) →
        ∃ r, r < S.maxslots ∧ entryP (slotAt S r) ∧
          (slotAt S' x).data = (slotAt S r).data ∧
          ((x = idx ∧ r = i2) ∨ (x = r ∧ x ≠ i2 ∧ x ≠ idx)) := by
      intro x hx hex
      by_cases hx1 : x = idx
      · subst hx1
        exact ⟨i2, hi2lt, hek, hfidx.2.2.2.2, Or.inl ⟨rfl, rfl⟩⟩
      · by_cases hx2 : x = i2
        · subst hx2
          rcases hex with h5 | h5
          · rw [hfi2.1] at h5
            exact absurd h5 (by decide)
          · rw [hfi2.1] at h5
            exact absurd h5 (by decide)
        · by_cases hxL : x ∈ idx :: restL
          · rcases hex with h5 | h5
            · rw [(hfL x hxL hx1).1] at h5
              exact absurd h5 (by decide)
            · rw [(hfL x hxL hx1).1] at h5
              exact absurd h5 (by decide)
          · by_cases hxt : (slotAt S i2).link = Int.ofNat x
            · obtain ⟨_, _, _, hxc, hnew⟩ := htouch x hxt
              have h6 : (slotAt S' x).count = (slotAt S x).count := by rw [hnew]
              rcases hex with h5 | h5
              · rw [h6, hxc] at h5
                exact absurd h5 (by decide)
              · rw [h6, hxc] at h5
                exact absurd h5 (by decide)
            · obtain ⟨hc1, _, _, hd1⟩ := hsame x hx hxL hx2
              refine ⟨x, hx, ?_, hd1, Or.inr ⟨rfl, hx2, hx1⟩⟩
              rcases hex with h5 | h5
              · exact Or.inl (by rw [← hc1]; exact h5)
              · exact Or.inr (by rw [← hc1]; exact h5)
    obtain ⟨rj, hrjlt, herj, hdj, hcj⟩ := hrep j hjn hej
    obtain ⟨rk, hrklt, herk, hdk, hck2⟩ := hrep k hkn hek2
    have hrjk : rj ≠ rk := by
      rcases hcj with ⟨hj1, hj2⟩ | ⟨hj1, hji2, hjidx⟩ <;>
        rcases hck2 with ⟨hk1, hk2⟩ | ⟨hk1, hki2, hkidx⟩
      · exact absurd (hj1.trans hk1.symm) hjk
      · rw [hj2, ← hk1]
        exact fun hh => hki2 hh.symm
      · rw [hk2, ← hj1]
        exact hji2
      · rw [← hj1, ← hk1]
        exact hjk
    intro hmE
    exact hInv.keyUniq rj hrjlt rk hrklt hrjk herj herk
      ((matchEquiv_data_congr hdj hdk).mp hmE)

/-- countP over a slot list as countP over its index range. -/
theorem countP_eq_range (p : Slot → Bool) (l : List Slot) :
    l.countP p = (List.range l.length).countP (fun j => p (l.getD j zeroSlot)) := by
  induction l with
  | nil => rfl
  | cons a l ih =>
    simp only [List.length_cons, List.range_succ_eq_map, List.countP_cons,
      List.countP_map, List.getD_cons_zero, List.getD_cons_succ]
    rw [ih]
    have h1 : ((fun j => p ((a :: l).getD j zeroSlot)) ∘ Nat.succ) =
        (fun j => p (l.getD j zeroSlot)) := by
      funext j
      simp only [Function.comp, List.getD_cons_succ]
    rw [h1]

/-- countP of a disjunction of pointwise exclusive tests adds up. -/
theorem countP_or_disjoint {a b : Nat → Bool} :
    ∀ {l : List Nat}, (∀ x ∈ l, ¬(a x = true ∧ b x = true)) →
      l.countP (fun x => a x || b x) = l.countP a + l.countP b := by
  intro l
  induction l with
  | nil => intro _; rfl
  | cons d l ih =>
    intro hx
    simp only [List.countP_cons]
    rw [ih (fun x hxl => hx x (List.mem_cons_of_mem d hxl))]
    have := hx d (List.mem_cons_self d l)
    cases ha : a d <;> cases hb : b d <;> simp [ha, hb] at this ⊢ <;> omega

/-- Exactly one index of the range matches a fixed index below the bound. -/
theorem countP_range_beq {n h : Nat} (hh : h < n) :
    (List.range n).countP (fun p => p == h) = 1 := by
  induction n with
  | zero => omega
  | succ n ih =>
    rw [List.range_succ, List.countP_append]
    by_cases hn : h = n
    · subst hn
      have h0 : (List.range h).countP (fun p => p == h) = 0 := by
        rw [List.countP_eq_zero]
        intro x hx
        simp only [beq_iff_eq]
        have := List.mem_range.mp hx
        omega
      rw [h0]
      simp
    · rw [ih (by omega)]
      have h0 : ([n].countP (fun p => p == h)) = 0 := by
        rw [List.countP_eq_zero]
        intro x hx
        simp only [List.mem_singleton] at hx
        subst hx
        simp only [beq_iff_eq]
        exact fun he => hn he.symm
      rw [h0]

/-- find? over a list with a unique satisfying element. -/
theorem find?_unique {p : Nat → Bool} {y : Nat} :
    ∀ {l : List Nat}, y ∈ l → p y = true → (∀ x ∈ l, p x = true → x = y) →
      l.find? p = some y := by
  intro l
  induction l with
  | nil => intro hy; exact absurd hy (List.not_mem_nil y)
  | cons d l ih =>
    intro hy hp hun
    by_cases hd : p d = true
    · rw [List.find?_cons_of_pos l hd]
      rw [hun d (List.mem_cons_self d l) hd]
    · rw [List.find?_cons_of_neg l hd]
      rcases List.mem_cons.mp hy with h1 | h1
      · rw [h1] at hp
        exact absurd hp hd
      · exact ih h1 hp (fun x hx hpx => hun x (List.mem_cons_of_mem d hx) hpx)

/-- Two keys matched by the same lookup leave matchEquiv key material. -/
theorem matchEquiv_of_matchKey {key : List Nat} {s t : Slot}
    (hs : matchKey key s = true) (ht : matchKey key t = true) : matchEquiv s t := by
  rw [matchKey] at hs ht
  by_cases hlen : key.length = pairKeylen s.data
  · rw [if_pos hlen] at hs
    by_cases hlen2 : key.length = pairKeylen t.data
    · rw [if_pos hlen2] at ht
      refine ⟨by omega, ?_⟩
      by_cases hsmall : key.length ≤ KEYMAX
      · rw [if_pos hsmall] at hs ht
        rw [if_pos (by omega)]
        simp only [decide_eq_true_eq] at hs ht
        rw [← hlen, ← hs, ← hlen2, ← ht]
      · rw [if_neg hsmall] at hs ht
        rw [if_neg (by omega)]
        simp only [Bool.and_eq_true, decide_eq_true_eq] at hs ht
        obtain ⟨hs1, hs2⟩ := hs
        obtain ⟨ht1, ht2⟩ := ht
        exact ⟨by rw [← hs1, ← ht1], by rw [← hs2, ← ht2]⟩
    · rw [if_neg hlen2] at ht
      exact Bool.noConfusion ht
  · rw [if_neg hlen] at hs
    exact Bool.noConfusion hs

/-- The value walk only reads count, link, size and data: states agreeing on
those fields along the chain assemble the same value. -/
theorem getDataChain_fields_congr {S T : HState} : ∀ (fuel : Nat) (i : Nat) (L : List Nat),
    chainList S i fuel = some L →
    (∀ j ∈ L, ∃ sj tj, S.slots[j]? = some sj ∧ T.slots[j]? = some tj ∧
      tj.count = sj.count ∧ tj.link = sj.link ∧ tj.size = sj.size ∧ tj.data = sj.data) →
    getDataChain T i fuel = getDataChain S i fuel := by
  intro fuel
  induction fuel with
  | zero => intro i L h _; rw [chainList] at h; exact Option.noConfusion h
  | succ fuel ih =>
    intro i L h hagree
    obtain ⟨rest, rfl⟩ := chainList_head _ _ _ _ h
    obtain ⟨si, ti, hsi, hti, htc, htl, hts, htd⟩ := hagree i (List.mem_cons_self i rest)
    rw [chainList] at h
    rw [hsi] at h
    simp only [Option.bind_eq_bind, Option.some_bind] at h
    rw [getDataChain, getDataChain, hsi, hti]
    simp only [Option.bind_eq_bind, Option.some_bind]
    rw [htc, htl, hts, htd]
    by_cases hl : si.link = -1
    · simp only [if_pos hl]
    · rw [if_neg hl] at h
      by_cases hl2 : si.link < 0
      · rw [if_pos hl2] at h; exact Option.noConfusion h
      · rw [if_neg hl2] at h
        rcases hr : chainList S si.link.toNat fuel with _ | rest2
        · rw [hr] at h; simp at h
        · rw [hr] at h
          simp only [Option.bind_eq_bind, Option.some_bind, Option.pure_def,
            Option.some.injEq, List.cons.injEq, true_and] at h
          have hrec : getDataChain T si.link.toNat fuel =
              getDataChain S si.link.toNat fuel := by
            refine ih si.link.toNat rest2 hr (fun j hj => ?_)
            refine hagree j (List.mem_cons_of_mem i ?_)
            rw [← h]
            exact hj
          simp only [if_neg hl, if_neg hl2, hrec]

/-- A wrapped start position scans the same ring segment. -/
theorem ringList_wrap {n : Nat} (p : Nat) :
    ∀ f, ringList n (wrapIdx n p) f = ringList n p f := by
  intro f
  cases f with
  | zero => rfl
  | succ f =>
    rw [ringList, ringList]
    have h1 : wrapIdx n (wrapIdx n p) = wrapIdx n p := by
      unfold wrapIdx
      split_ifs <;> omega
    rw [h1]

/-- Loop invariant of get_idx's scan: past the home position, with the
candidate accounting consistent with the remaining ring segment, the loop
returns the first matching candidate of that segment, or -1. -/
theorem getIdxLoop_spec {S : HState} (key : List Nat) {h : Nat}
    (hlenEq : S.slots.length = S.maxslots) (hh : h < S.maxslots)
    (hcand : ((List.range S.maxslots).countP (candB S h) : Int) = (slotAt S h).count) :
    ∀ fuel i cnt, i < S.maxslots → 1 ≤ rdist S.maxslots i h →
    rdist S.maxslots i h < fuel →
    cnt + (ringList S.maxslots i (rdist S.maxslots i h)).countP (candB S h) =
      (List.range S.maxslots).countP (candB S h) →
    getIdxLoop S key h cnt i fuel =
      some (match (ringList S.maxslots i (rdist S.maxslots i h)).find?
          (fun p => candB S h p && matchKey key (slotAt S p)) with
        | some p => Int.ofNat p
        | none => -1) := by
  intro fuel
  induction fuel with
  | zero => intro i cnt _ _ hdf _; omega
  | succ fuel ih =>
    intro i cnt hi hd1 hdf hinv
    have hn : 0 < S.maxslots := by omega
    obtain ⟨e, hde⟩ : ∃ e, rdist S.maxslots i h = e + 1 :=
      ⟨rdist S.maxslots i h - 1, by omega⟩
    have hring : ringList S.maxslots i (rdist S.maxslots i h) =
        i :: ringList S.maxslots (i + 1) e := by
      rw [hde, ringList]
      have h2 : wrapIdx S.maxslots i = i := by rw [wrapIdx, if_neg (by omega)]
      rw [h2]
    rw [getIdxLoop, getElem?_slots (by omega : h < S.slots.length)]
    simp only [Option.bind_eq_bind, Option.some_bind]
    by_cases hguard : (cnt : Int) < (slotAt S h).count
    · rw [if_pos hguard, getElem?_slots (by omega : i < S.slots.length)]
      simp only [Option.bind_eq_bind, Option.some_bind]
      have hwrap : (if S.maxslots ≤ i + 1 then 0 else i + 1) =
          wrapIdx S.maxslots (i + 1) := rfl
      by_cases hcB : candB S h i = true
      · have hhit : (slotAt S i).hash = h ∧
            ((slotAt S i).count > 0 ∨ (slotAt S i).count = -1) := by
          rw [candB] at hcB
          simp only [Bool.and_eq_true, Bool.or_eq_true, beq_iff_eq,
            decide_eq_true_eq] at hcB
          exact ⟨hcB.1, hcB.2⟩
        by_cases hmk : matchKey key (slotAt S i) = true
        · rw [if_pos ⟨hhit, hmk⟩, hring,
            List.find?_cons_of_pos _ (by simp [hcB, hmk])]
          rfl
        · have hmk2 : matchKey key (slotAt S i) = false := by
            cases hx : matchKey key (slotAt S i)
            · rfl
            · exact absurd hx hmk
          rw [if_neg (fun hc => hmk hc.2), if_pos hhit, hwrap]
          by_cases hnext : wrapIdx S.maxslots (i + 1) = h
          · rw [if_pos hnext]
            have he0 : e = 0 := by
              have h3 := rdist_step hi hh (by
                intro hih
                rw [(rdist_eq_zero_iff hi hh).mpr hih] at hd1
                omega)
              rw [hnext, (rdist_eq_zero_iff hh hh).mpr rfl] at h3
              omega
            rw [hring, he0]
            rw [List.find?_cons_of_neg _ (by simp [hmk2])]
            rfl
          · rw [if_neg hnext]
            have hine : i ≠ h := by
              intro hih
              rw [(rdist_eq_zero_iff hi hh).mpr hih] at hd1
              omega
            have hstep := rdist_step hi hh hine
            have hd2 : rdist S.maxslots (wrapIdx S.maxslots (i + 1)) h = e := by omega
            have happ := ih (wrapIdx S.maxslots (i + 1)) (cnt + 1) (wrapIdx_lt hn)
              (by
                rw [hd2]
                rcases Nat.eq_zero_or_pos e with he | he
                · exfalso
                  exact hnext ((rdist_eq_zero_iff (wrapIdx_lt hn) hh).mp (by omega))
                · omega)
              (by omega)
              (by
                rw [hd2, ringList_wrap]
                rw [hring, List.countP_cons] at hinv
                have hone : (if candB S h i = true then 1 else 0) = 1 := by
                  simp [hcB]
                rw [hone] at hinv
                omega)
            rw [happ, hd2, ringList_wrap]
            rw [hring, List.find?_cons_of_neg _ (by simp [hmk2])]
      · have hcB2 : candB S h i = false := by
          cases hx : candB S h i
          · rfl
          · exact absurd hx hcB
        have hnohit : ¬((slotAt S i).hash = h ∧
            ((slotAt S i).count > 0 ∨ (slotAt S i).count = -1)) := by
          intro hc
          refine hcB (by
            rw [candB]
            simp only [Bool.and_eq_true, Bool.or_eq_true, beq_iff_eq,
              decide_eq_true_eq]
            exact ⟨hc.1, hc.2⟩)
        rw [if_neg (fun hc => hnohit hc.1), if_neg hnohit, hwrap]
        by_cases hnext : wrapIdx S.maxslots (i + 1) = h
        · rw [if_pos hnext]
          have he0 : e = 0 := by
            have h3 := rdist_step hi hh (by
              intro hih
              rw [(rdist_eq_zero_iff hi hh).mpr hih] at hd1
              omega)
            rw [hnext, (rdist_eq_zero_iff hh hh).mpr rfl] at h3
            omega
          rw [hring, he0]
          rw [List.find?_cons_of_neg _ (by simp [hcB2])]
          rfl
        · rw [if_neg hnext]
          have hine : i ≠ h := by
            intro hih
            rw [(rdist_eq_zero_iff hi hh).mpr hih] at hd1
            omega
          have hstep := rdist_step hi hh hine
          have hd2 : rdist S.maxslots (wrapIdx S.maxslots (i + 1)) h = e := by omega
          have happ := ih (wrapIdx S.maxslots (i + 1)) cnt (wrapIdx_lt hn)
            (by
              rw [hd2]
              rcases Nat.eq_zero_or_pos e with he | he
              · exfalso
                exact hnext ((rdist_eq_zero_iff (wrapIdx_lt hn) hh).mp (by omega))
              · omega)
            (by omega)
            (by
              rw [hd2, ringList_wrap]
              rw [hring, List.countP_cons] at hinv
              rw [hcB2] at hinv
              simp only [Bool.false_eq_true, if_false] at hinv
              omega)
          rw [happ, hd2, ringList_wrap]
          rw [hring, List.find?_cons_of_neg _ (by simp [hcB2])]
    · rw [if_neg hguard]
      have hseg0 : (ringList S.maxslots i (rdist S.maxslots i h)).countP (candB S h)
          = 0 := by omega
      have hfind : (ringList S.maxslots i (rdist S.maxslots i h)).find?
          (fun p => candB S h p && matchKey key (slotAt S p)) = none := by
        rw [List.find?_eq_none]
        intro x hx
        have hxc := List.countP_eq_zero.mp hseg0 x hx
        simp only [Bool.and_eq_true]
        exact fun hc => hxc hc.1
      rw [hfind]
      rfl

/-- Candidate accounting under the invariants: the ring holds exactly the
leading slot's count many candidates for its home. -/
theorem candCount_eq {S : HState} (hInv : Inv S) {h : Nat} (hh : h < S.maxslots)
    (hpos : 0 < (slotAt S h).count) :
    ((List.range S.maxslots).countP (candB S h) : Int) = (slotAt S h).count := by
  have hchar : ∀ p, p < S.maxslots →
      candB S h p = ((p == h) ||
        ((slotAt S p).count == -1 && (slotAt S p).hash == h)) := by
    intro p hp
    by_cases hph : p = h
    · subst hph
      rw [candB]
      have e1 : ((slotAt S p).hash == p) = true := by
        rw [beq_iff_eq]
        exact (hInv.leadOk p hp (by omega)).1
      have e2 : decide (0 < (slotAt S p).count) = true := decide_eq_true (by omega)
      have e3 : (p == p) = true := by rw [beq_iff_eq]
      rw [e1, e2, e3]
      rfl
    · have e3 : (p == h) = false := by
        rw [beq_eq_false_iff_ne]
        exact hph
      by_cases hcp : 0 < (slotAt S p).count
      · have hhash : (slotAt S p).hash = p := (hInv.leadOk p hp (by omega)).1
        rw [candB]
        have e1 : ((slotAt S p).hash == h) = false := by
          rw [beq_eq_false_iff_ne, hhash]
          exact hph
        have e2 : ((slotAt S p).count == -1) = false := by
          rw [beq_eq_false_iff_ne]
          omega
        rw [e1, e2, e3]
        rfl
      · rw [candB]
        have e4 : decide (0 < (slotAt S p).count) = false := by
          rw [decide_eq_false_iff_not]
          omega
        rw [e4, e3]
        simp [Bool.and_comm]
  have h1 : (List.range S.maxslots).countP (candB S h) =
      (List.range S.maxslots).countP (fun p => (p == h) ||
        ((slotAt S p).count == -1 && (slotAt S p).hash == h)) :=
    List.countP_congr (fun p hp => by rw [hchar p (List.mem_range.mp hp)])
  rw [h1, countP_or_disjoint (by
    intro x hx
    simp only [beq_iff_eq, Bool.and_eq_true]
    rintro ⟨rfl, hc, -⟩
    omega)]
  rw [countP_range_beq hh]
  have h2 : (List.range S.maxslots).countP
      (fun p => (slotAt S p).count == -1 && (slotAt S p).hash == h) =
      collCountAt S h := by
    rw [collCountAt, countP_eq_range, hInv.lenEq]
    rfl
  rw [h2]
  have h3 := (hInv.leadOk h hh (by omega)).2
  omega

/-- get_idx under the invariants: the first candidate of the ring scan whose
stored key material matches, or -1. -/
theorem getIdx_spec {S : HState} (hInv : Inv S) (key : List Nat) {h : Nat}
    (hh : h < S.maxslots) (hpos : 0 < (slotAt S h).count) :
    get_idx S key h =
      some (match firstMatch S key h with
        | some p => Int.ofNat p
        | none => -1) := by
  have hn := hInv.capPos
  have hcnt := candCount_eq hInv hh hpos
  rw [get_idx, getElem?_slots (by rw [hInv.lenEq]; omega)]
  simp only [Option.bind_eq_bind, Option.some_bind]
  rw [if_pos hpos, getIdxLoop, getElem?_slots (by rw [hInv.lenEq]; omega)]
  simp only [Option.bind_eq_bind, Option.some_bind]
  rw [if_pos (show ((0 : Nat) : Int) < (slotAt S h).count by exact_mod_cast hpos)]
  obtain ⟨m, hnm⟩ : ∃ m, S.maxslots = m + 1 := ⟨S.maxslots - 1, by omega⟩
  have hringfull : ringList S.maxslots h S.maxslots =
      h :: ringList S.maxslots (h + 1) m := by
    have h4 : ringList S.maxslots h S.maxslots = ringList S.maxslots h (m + 1) := by
      rw [← hnm]
    rw [h4, ringList]
    have h2 : wrapIdx S.maxslots h = h := by rw [wrapIdx, if_neg (by omega)]
    rw [h2]
  have hhit : (slotAt S h).hash = h ∧
      ((slotAt S h).count > 0 ∨ (slotAt S h).count = -1) :=
    ⟨(hInv.leadOk h hh (by omega)).1, Or.inl hpos⟩
  have hcB : candB S h h = true := by
    rw [candB]
    have e1 : ((slotAt S h).hash == h) = true := by rw [beq_iff_eq]; exact hhit.1
    have e2 : decide (0 < (slotAt S h).count) = true := decide_eq_true (by omega)
    rw [e1, e2]
    rfl
  have hwrap : (if S.maxslots ≤ h + 1 then 0 else h + 1) =
      wrapIdx S.maxslots (h + 1) := rfl
  by_cases hmk : matchKey key (slotAt S h) = true
  · rw [if_pos ⟨hhit, hmk⟩, firstMatch, hringfull,
      List.find?_cons_of_pos _ (by simp [hcB, hmk])]
    rfl
  · have hmk2 : matchKey key (slotAt S h) = false := by
      cases hx : matchKey key (slotAt S h)
      · rfl
      · exact absurd hx hmk
    rw [if_neg (fun hc => hmk hc.2), if_pos hhit, hwrap]
    by_cases hnext : wrapIdx S.maxslots (h + 1) = h
    · rw [if_pos hnext]
      have hm0 : m = 0 := by
        rw [wrapIdx] at hnext
        split_ifs at hnext <;> omega
      rw [firstMatch, hringfull, hm0]
      rw [List.find?_cons_of_neg _ (by simp [hmk2])]
      rfl
    · rw [if_neg hnext]
      have hback : rdist S.maxslots (wrapIdx S.maxslots (h + 1)) h =
          S.maxslots - 1 := by
        simp only [rdist, wrapIdx]
        split_ifs <;> omega
      have htot : (List.range S.maxslots).countP (candB S h) =
          (ringList S.maxslots h S.maxslots).countP (candB S h) :=
        (List.Perm.countP_eq _ (ringList_perm hn h (by omega))).symm
      have happ := getIdxLoop_spec key hInv.lenEq hh hcnt S.maxslots
        (wrapIdx S.maxslots (h + 1)) 1 (wrapIdx_lt hn)
        (by
          rcases Nat.eq_zero_or_pos (rdist S.maxslots (wrapIdx S.maxslots (h + 1)) h)
            with he | he
          · exact absurd ((rdist_eq_zero_iff (wrapIdx_lt hn) hh).mp he) hnext
          · omega)
        (by
          have h6 : rdist S.maxslots (wrapIdx S.maxslots (h + 1)) h < S.maxslots :=
            rdist_lt (wrapIdx_lt hn) hh
          omega)
        (by
          rw [hback, htot, hringfull, List.countP_cons]
          have hone2 : (if candB S h h = true then 1 else 0) = 1 := by
            simp [hcB]
          rw [hone2]
          have h5 : ringList S.maxslots (wrapIdx S.maxslots (h + 1))
              (S.maxslots - 1) = ringList S.maxslots (h + 1) m := by
            rw [ringList_wrap]
            have : S.maxslots - 1 = m := by omega
            rw [this]
          rw [h5]
          omega)
      rw [happ, hback]
      have h5 : ringList S.maxslots (wrapIdx S.maxslots (h + 1))
          (S.maxslots - 1) = ringList S.maxslots (h + 1) m := by
        rw [ringList_wrap]
        have : S.maxslots - 1 = m := by omega
        rw [this]
      rw [h5, firstMatch, hringfull,
        List.find?_cons_of_neg _ (by simp [hmk2])]

/-- get_idx reports the key absent when the home slot is not leading. -/
theorem getIdx_neg {S : HState} {h : Nat} (key : List Nat)
    (hlen : h < S.slots.length) (hpos : ¬0 < (slotAt S h).count) :
    get_idx S key h = some (-1) := by
  rw [get_idx, getElem?_slots hlen]
  simp only [Option.bind_eq_bind, Option.some_bind]
  rw [if_neg hpos]
  rfl

/-- find? only depends on the predicate's values on the list. -/
theorem find?_congr_pred {p q : Nat → Bool} :
    ∀ {l : List Nat}, (∀ x ∈ l, p x = q x) → l.find? p = l.find? q := by
  intro l
  induction l with
  | nil => intro _; rfl
  | cons a l ih =>
    intro hpq
    have h1 : p a = q a := hpq a (List.mem_cons_self a l)
    cases ha : q a with
    | true =>
      rw [List.find?_cons_of_pos _ (by rw [h1, ha]), List.find?_cons_of_pos _ ha]
    | false =>
      rw [List.find?_cons_of_neg _ (by simp [h1, ha]),
          List.find?_cons_of_neg _ (by simp [ha])]
      exact ih (fun x hx => hpq x (List.mem_cons_of_mem a hx))

/-- matchKey reads only the stored payload bytes of the slot. -/
theorem matchKey_congr {key : List Nat} {s t : Slot} (h : s.data = t.data) :
    matchKey key s = matchKey key t := by
  rw [matchKey, matchKey, h]

/-- Conjunction split of a Bool equation. -/
theorem and_true_split {a b : Bool} (h : (a && b) = true) : a = true ∧ b = true := by
  simp only [Bool.and_eq_true] at h
  exact h

/-- A scan candidate is an entry slot whose home is the scanned index. -/
theorem entry_of_candB {S : HState} {h x : Nat} (hc : candB S h x = true) :
    entryP (slotAt S x) ∧ (slotAt S x).hash = h := by
  rw [candB] at hc
  simp only [Bool.and_eq_true, Bool.or_eq_true, beq_iff_eq, decide_eq_true_eq] at hc
  rcases hc with ⟨h1, h2⟩
  refine ⟨?_, h1⟩
  rcases h2 with h3 | h3
  · exact Or.inl (by omega)
  · exact Or.inr h3

/-- A slot whose home is elsewhere is no candidate. -/
theorem candB_false_hash {S : HState} {h x : Nat} (h1 : (slotAt S x).hash ≠ h) :
    candB S h x = false := by
  rw [candB]
  have e : ((slotAt S x).hash == h) = false := by
    rw [beq_eq_false_iff_ne]
    exact h1
  rw [e, Bool.false_and]

/-- An empty or extension slot is no candidate. -/
theorem candB_false_count {S : HState} {h x : Nat} {c : Int}
    (hc : (slotAt S x).count = c) (h0 : ¬0 < c) (h1 : c ≠ -1) :
    candB S h x = false := by
  rw [candB, hc]
  have e : (decide (0 < c) || (c == -1)) = false := by
    rw [Bool.or_eq_false_iff]
    refine ⟨?_, ?_⟩
    · rw [decide_eq_false_iff_not]
      exact h0
    · rw [beq_eq_false_iff_ne]
      exact h1
  rw [e, Bool.and_false]

/-- A colliding slot of the scanned home is a candidate. -/
theorem candB_coll {S : HState} {h x : Nat} (h1 : (slotAt S x).hash = h)
    (h2 : (slotAt S x).count = -1) : candB S h x = true := by
  rw [candB, h1, h2]
  have e1 : (h == h) = true := by rw [beq_iff_eq]
  have e2 : ((-1 : Int) == -1) = true := by rw [beq_iff_eq]
  rw [e2, Bool.or_true, Bool.and_true, e1]

/-- A leading slot of the scanned home is a candidate. -/
theorem candB_lead {S : HState} {h x : Nat} (h1 : (slotAt S x).hash = h)
    (h2 : 0 < (slotAt S x).count) : candB S h x = true := by
  rw [candB, h1]
  have e1 : (h == h) = true := by rw [beq_iff_eq]
  have e2 : decide (0 < (slotAt S x).count) = true := decide_eq_true h2
  rw [e1, Bool.true_and, e2, Bool.true_or]

/-- Lookups are unchanged by the relocation for every key other than the
removed leading entry's: with the slot layout produced by remove_by_idx's
leading-with-collisions branch, get returns the same result on the new state
as on the old one. -/
theorem promote_get_preserved {S S' : HState} (hInv : Inv S) (hInv' : Inv S')
    {idx i2 : Nat} {L : List Nat} {key : List Nat}
    (hidx : idx < S.maxslots) (hc2 : 2 ≤ (slotAt S idx).count)
    (hL : chainList S idx (S.maxslots + 1) = some L)
    (hi2lt : i2 < S.maxslots) (hi2ne : i2 ≠ idx) (hi2L : i2 ∉ L)
    (hi2c : (slotAt S i2).count = -1) (hi2h : (slotAt S i2).hash = idx)
    (hm : S'.maxslots = S.maxslots)
    (hidx' : slotAt S' idx = { slotAt S i2 with count := (slotAt S idx).count - 1 })
    (hi2' : slotAt S' i2 = { slotAt S i2 with count := 0 })
    (hL' : ∀ j ∈ L, j ≠ idx → slotAt S' j = { slotAt S j with count := 0 })
    (hcase : ((slotAt S i2).link = -1 ∧
        (∀ j, j < S.maxslots → j ∉ L → j ≠ i2 → slotAt S' j = slotAt S j)) ∨
      (∃ t0, (slotAt S i2).link = Int.ofNat t0 ∧ t0 < S.maxslots ∧ t0 ∉ L ∧
        t0 ≠ i2 ∧ (slotAt S t0).count = -2 ∧
        slotAt S' t0 = { slotAt S t0 with hash := idx } ∧
        (∀ j, j < S.maxslots → j ∉ L → j ≠ i2 → j ≠ t0 → slotAt S' j = slotAt S j)))
    (hmk : matchKey key (slotAt S idx) = false) :
    qhasharr_get S' key = qhasharr_get S key := by
  have hn := hInv.capPos
  have hlenEq := hInv.lenEq
  have hlen' := hInv'.lenEq
  have heidx : entryP (slotAt S idx) := Or.inl (by omega)
  have hek : entryP (slotAt S i2) := Or.inr hi2c
  obtain ⟨hLnd, hLlt, hLhd, hLtlT, hLnz⟩ := chain_facts hInv hidx heidx hL
  obtain ⟨restL, rfl⟩ := chainList_head _ _ _ _ hL
  obtain ⟨M0, hM, -, -, -, -⟩ := chainCheck_elim (hInv.chainsOk i2 hi2lt hek)
  obtain ⟨hMnd, hMlt, hMhd, hMtl, hMnz⟩ := chain_facts hInv hi2lt hek hM
  obtain ⟨restM, rfl⟩ := chainList_head _ _ _ _ hM
  have hdisj := chains_disjoint hInv hidx hi2lt heidx hek (fun he => hi2ne he.symm) hL hM
  have hcnt' : (slotAt S' idx).count = (slotAt S idx).count - 1 := by rw [hidx']
  have hhash' : (slotAt S' idx).hash = (slotAt S i2).hash := by rw [hidx']
  have hsize' : (slotAt S' idx).size = (slotAt S i2).size := by rw [hidx']
  have hlink' : (slotAt S' idx).link = (slotAt S i2).link := by rw [hidx']
  have hdata' : (slotAt S' idx).data = (slotAt S i2).data := by rw [hidx']
  have hmkrel : matchKey key (slotAt S' idx) = matchKey key (slotAt S i2) :=
    matchKey_congr hdata'
  have hhidx : (slotAt S idx).hash = idx := (hInv.leadOk idx hidx (by omega)).1
  have huntouched : ∀ j, j < S.maxslots → j ∉ idx :: restL → j ∉ i2 :: restM →
      slotAt S' j = slotAt S j := by
    intro j hj hjL hjM
    have hji2 : j ≠ i2 := fun he => hjM (by rw [he]; exact List.mem_cons_self _ _)
    rcases hcase with ⟨hlk, hfr⟩ | ⟨t0, hlkt, ht0lt, ht0L, ht0i2, ht0c, ht0', hfr⟩
    · exact hfr j hj hjL hji2
    · have hlkne : (slotAt S i2).link ≠ -1 := by
        rw [hlkt]
        simp only [Int.ofNat_eq_coe]
        omega
      have ht0restM : t0 ∈ restM := by
        have h5 := chainList_second _ S i2 _ hM hlkne
        rw [hlkt, Int.ofNat_eq_coe, Int.toNat_ofNat] at h5
        exact h5
      have hjt0 : j ≠ t0 :=
        fun he => hjM (by rw [he]; exact List.mem_cons_of_mem _ ht0restM)
      exact hfr j hj hjL hji2 hjt0
  have hchain_pres : ∀ p, p < S.maxslots → entryP (slotAt S p) →
      p ∉ idx :: restL → p ∉ i2 :: restM →
      getDataChain S' p (S.maxslots + 1) = getDataChain S p (S.maxslots + 1) := by
    intro p hp hep hpL hpM
    obtain ⟨Lp, hLp, -, -, -, -⟩ := chainCheck_elim (hInv.chainsOk p hp hep)
    obtain ⟨hLpnd, hLplt, hLphd, hLptl, hLpnz⟩ := chain_facts hInv hp hep hLp
    have hpidx : p ≠ idx := fun he => hpL (by rw [he]; exact List.mem_cons_self _ _)
    have hpi2 : p ≠ i2 := fun he => hpM (by rw [he]; exact List.mem_cons_self _ _)
    have hdp1 := chains_disjoint hInv hp hidx hep heidx hpidx hLp hL
    have hdp2 := chains_disjoint hInv hp hi2lt hep hek hpi2 hLp hM
    refine getDataChain_congr _ _ _ hLp ?_
    intro j hj
    have hjlt := hLplt j hj
    have hj1 : j ∉ idx :: restL := fun hjL2 => hdp1 j hj hjL2
    have hj2 : j ∉ i2 :: restM := fun hjM2 => hdp2 j hj hjM2
    rw [getElem?_slots (by rw [hlen', hm]; exact hjlt),
        getElem?_slots (by rw [hlenEq]; exact hjlt),
        huntouched j hjlt hj1 hj2]
  have hpred : ∀ h, h < S.maxslots →
      (h ≠ idx ∨ matchKey key (slotAt S i2) = false) →
      ∀ x, x < S.maxslots →
      (candB S' h x && matchKey key (slotAt S' x)) =
        (candB S h x && matchKey key (slotAt S x)) := by
    intro h hh hcs x hx
    by_cases hx1 : x = idx
    · rw [hx1]
      by_cases hhi : h = idx
      · rcases hcs with hne | hmkf
        · exact absurd hhi hne
        · rw [hmk, hmkrel, hmkf, Bool.and_false, Bool.and_false]
      · have e1 : candB S' h idx = false := candB_false_hash
          (show (slotAt S' idx).hash ≠ h by
            rw [hhash', hi2h]
            exact fun hc => hhi hc.symm)
        have e2 : candB S h idx = false := candB_false_hash
          (show (slotAt S idx).hash ≠ h by
            rw [hhidx]
            exact fun hc => hhi hc.symm)
        rw [e1, e2, Bool.false_and, Bool.false_and]
    · by_cases hx2 : x = i2
      · rw [hx2]
        have e1 : candB S' h i2 = false := candB_false_count
          (show (slotAt S' i2).count = 0 by rw [hi2']) (by omega) (by omega)
        by_cases hhi : h = idx
        · rcases hcs with hne | hmkf
          · exact absurd hhi hne
          · rw [e1, Bool.false_and, hmkf, Bool.and_false]
        · have e2 : candB S h i2 = false := candB_false_hash
            (show (slotAt S i2).hash ≠ h by
              rw [hi2h]
              exact fun hc => hhi hc.symm)
          rw [e1, e2, Bool.false_and, Bool.false_and]
      · by_cases hx3 : x ∈ restL
        · have e2 : candB S h x = false :=
            candB_false_count (hLtlT x hx3) (by omega) (by omega)
          have e1 : candB S' h x = false := candB_false_count
            (show (slotAt S' x).count = 0 by
              rw [hL' x (List.mem_cons_of_mem _ hx3) hx1]) (by omega) (by omega)
          rw [e1, e2, Bool.false_and, Bool.false_and]
        · have hxL : x ∉ idx :: restL := by
            intro hc
            rcases List.mem_cons.mp hc with he | he
            · exact hx1 he
            · exact hx3 he
          by_cases hx4 : x ∈ restM
          · have e2 : candB S h x = false :=
              candB_false_count (hMtl x hx4) (by omega) (by omega)
            have hcS' : (slotAt S' x).count = -2 := by
              rcases hcase with ⟨hlk, hfr⟩ | ⟨t0, hlkt, ht0lt, ht0L, ht0i2, ht0c, ht0', hfr⟩
              · have hsing : (i2 :: restM) = [i2] := chainList_single _ S i2 _ hM hlk
                rw [List.cons.injEq] at hsing
                rw [hsing.2] at hx4
                exact absurd hx4 (List.not_mem_nil x)
              · by_cases hxt : x = t0
                · have h4 : (slotAt S' x).count = (slotAt S t0).count := by
                    rw [hxt, ht0']
                  rw [h4]
                  exact ht0c
                · rw [hfr x hx hxL hx2 hxt]
                  exact hMtl x hx4
            have e1 : candB S' h x = false :=
              candB_false_count hcS' (by omega) (by omega)
            rw [e1, e2, Bool.false_and, Bool.false_and]
          · have hxM : x ∉ i2 :: restM := by
              intro hc
              rcases List.mem_cons.mp hc with he | he
              · exact hx2 he
              · exact hx4 he
            rw [candB, candB, huntouched x hx hxL hxM]
  have hcommon : ∀ h, h < S.maxslots →
      (h ≠ idx ∨ matchKey key (slotAt S i2) = false) →
      0 < (slotAt S h).count → 0 < (slotAt S' h).count →
      (do
        let r ← get_idx S' key h
        if r < 0 then pure none else get_data S' r) =
      (do
        let r ← get_idx S key h
        if r < 0 then pure none else get_data S r) := by
    intro h hh hcs hp1 hp2
    rw [getIdx_spec hInv key hh hp1, getIdx_spec hInv' key (by rw [hm]; exact hh) hp2]
    have hfm : firstMatch S' key h = firstMatch S key h := by
      rw [firstMatch, firstMatch, hm]
      refine find?_congr_pred (fun x hx => ?_)
      exact hpred h hh hcs x (mem_ringList_lt hn _ _ _ hx)
    rw [hfm]
    rcases hr : firstMatch S key h with _ | p
    · simp only [Option.bind_eq_bind, Option.some_bind]
      rw [if_pos (show (-1 : Int) < 0 by omega), if_pos (show (-1 : Int) < 0 by omega)]
    · have hr' := hr
      rw [firstMatch] at hr'
      have hpp : (candB S h p && matchKey key (slotAt S p)) = true := by
        have h0 := List.find?_some hr'
        simpa using h0
      have hpm : p ∈ ringList S.maxslots h S.maxslots := List.mem_of_find?_eq_some hr'
      have hplt : p < S.maxslots := mem_ringList_lt hn _ _ _ hpm
      have hpp' : (candB S' h p && matchKey key (slotAt S' p)) = true :=
        (hpred h hh hcs p hplt).trans hpp
      have hent : entryP (slotAt S p) :=
        (entry_of_candB (and_true_split hpp).1).1
      have hent' : entryP (slotAt S' p) :=
        (entry_of_candB (and_true_split hpp').1).1
      have hpidx : p ≠ idx := by
        intro he
        rw [he, hmk, Bool.and_false] at hpp
        exact Bool.noConfusion hpp
      have hpL : p ∉ idx :: restL := by
        intro hmem
        rcases List.mem_cons.mp hmem with he | he
        · exact hpidx he
        · have h3 := hLtlT p he
          rcases hent with h4 | h4 <;> omega
      have hpM : p ∉ i2 :: restM := by
        intro hmem
        rcases List.mem_cons.mp hmem with he | he
        · have h3 : (slotAt S' p).count = 0 := by rw [he, hi2']
          rcases hent' with h4 | h4 <;> omega
        · have h3 := hMtl p he
          rcases hent with h4 | h4 <;> omega
      have hval := hchain_pres p hplt hent hpL hpM
      simp only [Option.bind_eq_bind, Option.some_bind]
      rw [if_neg (show ¬Int.ofNat p < 0 by rw [Int.ofNat_eq_coe]; omega),
          if_neg (show ¬Int.ofNat p < 0 by rw [Int.ofNat_eq_coe]; omega)]
      rw [get_data, get_data]
      rw [if_neg (show ¬Int.ofNat p < 0 by rw [Int.ofNat_eq_coe]; omega),
          if_neg (show ¬Int.ofNat p < 0 by rw [Int.ofNat_eq_coe]; omega)]
      simp only [Int.ofNat_eq_coe, Int.toNat_ofNat]
      rw [hm, hval]
  rw [qhasharr_get, qhasharr_get, hm]
  rw [if_neg (show ¬S.maxslots = 0 by omega), if_neg (show ¬S.maxslots = 0 by omega)]
  show (do
      let r ← get_idx S' key (mix32 key % S.maxslots)
      if r < 0 then pure none else get_data S' r) =
    (do
      let r ← get_idx S key (mix32 key % S.maxslots)
      if r < 0 then pure none else get_data S r)
  have hh : mix32 key % S.maxslots < S.maxslots := Nat.mod_lt _ hn
  by_cases hcA : mix32 key % S.maxslots = idx
  · rw [hcA]
    by_cases hsib : matchKey key (slotAt S i2) = true
    · have hmk' : matchKey key (slotAt S' idx) = true := by
        rw [hmkrel]
        exact hsib
      have hfm2 : firstMatch S key idx = some i2 := by
        rw [firstMatch]
        refine find?_unique (((ringList_perm hn idx (le_of_lt hidx)).mem_iff).mpr
          (List.mem_range.mpr hi2lt)) ?_ ?_
        · show (candB S idx i2 && matchKey key (slotAt S i2)) = true
          rw [candB_coll hi2h hi2c, hsib]
          decide
        · intro x hxm hpx
          by_cases hxe : x = i2
          · exact hxe
          · exfalso
            have hxlt : x < S.maxslots := mem_ringList_lt hn _ _ _ hxm
            have hpx2 := and_true_split (by simpa using hpx)
            exact (hInv.keyUniq x hxlt i2 hi2lt) hxe (entry_of_candB hpx2.1).1 hek
              (matchEquiv_of_matchKey hpx2.2 hsib)
      have hfm1 : firstMatch S' key idx = some idx := by
        rw [firstMatch, hm]
        refine find?_unique (((ringList_perm hn idx (le_of_lt hidx)).mem_iff).mpr
          (List.mem_range.mpr hidx)) ?_ ?_
        · show (candB S' idx idx && matchKey key (slotAt S' idx)) = true
          rw [candB_lead (show (slotAt S' idx).hash = idx by rw [hhash', hi2h])
            (show 0 < (slotAt S' idx).count by omega), hmk']
          decide
        · intro x hxm hpx
          by_cases hxe : x = idx
          · exact hxe
          · exfalso
            have hxlt : x < S.maxslots := mem_ringList_lt hn _ _ _ hxm
            have hpx2 := and_true_split (by simpa using hpx)
            exact (hInv'.keyUniq x (by rw [hm]; exact hxlt) idx (by rw [hm]; exact hidx))
              hxe (entry_of_candB hpx2.1).1 (Or.inl (by omega))
              (matchEquiv_of_matchKey hpx2.2 hmk')
      have hvalue : getDataChain S' idx (S.maxslots + 1) =
          getDataChain S i2 (S.maxslots + 1) := by
        rw [getDataChain, getDataChain,
          getElem?_slots (by rw [hlen', hm]; exact hidx),
          getElem?_slots (by rw [hlenEq]; exact hi2lt)]
        simp only [Option.bind_eq_bind, Option.some_bind]
        rw [hcnt', hsize', hlink', hdata']
        rw [if_neg (show ¬((slotAt S idx).count - 1 = -2) by omega),
            if_neg (show ¬((slotAt S i2).count = -2) by omega)]
        by_cases hlk : (slotAt S i2).link = -1
        · simp only [if_pos hlk]
        · by_cases hlow : (slotAt S i2).link < 0
          · simp only [if_neg hlk, if_pos hlow]
          · have hrest : getDataChain S' (slotAt S i2).link.toNat S.maxslots =
                getDataChain S (slotAt S i2).link.toNat S.maxslots := by
              have hMtail := chainList_peel S.maxslots S i2 _ hM hlk
              refine getDataChain_fields_congr _ _ _ hMtail ?_
              intro j hj
              have hjM : j ∈ i2 :: restM := List.mem_cons_of_mem _ hj
              have hjlt : j < S.maxslots := hMlt j hjM
              have hji2 : j ≠ i2 := by
                intro hc
                rw [hc] at hj
                exact (List.nodup_cons.mp hMnd).1 hj
              have hjL : j ∉ idx :: restL := fun hc => hdisj j hc hjM
              rcases hcase with ⟨hlk1, hfr⟩ | ⟨t0, hlkt, ht0lt, ht0L, ht0i2, ht0c, ht0', hfr⟩
              · exact absurd hlk1 hlk
              · by_cases hjt : j = t0
                · exact ⟨slotAt S j, slotAt S' j,
                    getElem?_slots (by rw [hlenEq]; exact hjlt),
                    getElem?_slots (by rw [hlen', hm]; exact hjlt),
                    by rw [hjt, ht0'], by rw [hjt, ht0'],
                    by rw [hjt, ht0'], by rw [hjt, ht0']⟩
                · have hfrj := hfr j hjlt hjL hji2 hjt
                  exact ⟨slotAt S j, slotAt S' j,
                    getElem?_slots (by rw [hlenEq]; exact hjlt),
                    getElem?_slots (by rw [hlen', hm]; exact hjlt),
                    by rw [hfrj], by rw [hfrj], by rw [hfrj], by rw [hfrj]⟩
            simp only [if_neg hlk, if_neg hlow, hrest]
      rw [getIdx_spec hInv key hidx (by omega),
          getIdx_spec hInv' key (by rw [hm]; exact hidx) (by omega),
          hfm1, hfm2]
      simp only [Option.bind_eq_bind, Option.some_bind]
      rw [if_neg (show ¬Int.ofNat idx < 0 by rw [Int.ofNat_eq_coe]; omega),
          if_neg (show ¬Int.ofNat i2 < 0 by rw [Int.ofNat_eq_coe]; omega)]
      rw [get_data, get_data]
      rw [if_neg (show ¬Int.ofNat idx < 0 by rw [Int.ofNat_eq_coe]; omega),
          if_neg (show ¬Int.ofNat i2 < 0 by rw [Int.ofNat_eq_coe]; omega)]
      simp only [Int.ofNat_eq_coe, Int.toNat_ofNat]
      rw [hm, hvalue]
    · have hsibf : matchKey key (slotAt S i2) = false := by
        cases hx : matchKey key (slotAt S i2)
        · rfl
        · exact absurd hx hsib
      exact hcommon idx hidx (Or.inr hsibf) (by omega) (by omega)
  · by_cases hhp : 0 < (slotAt S (mix32 key % S.maxslots)).count
    · have huh : slotAt S' (mix32 key % S.maxslots) = slotAt S (mix32 key % S.maxslots) := by
        apply huntouched _ hh
        · intro hmem
          rcases List.mem_cons.mp hmem with he | he
          · exact hcA he
          · have h3 := hLtlT _ he
            omega
        · intro hmem
          rcases List.mem_cons.mp hmem with he | he
          · rw [he] at hhp
            omega
          · have h3 := hMtl _ he
            omega
      exact hcommon _ hh (Or.inl hcA) hhp (by rw [huh]; exact hhp)
    · have hs' : ¬0 < (slotAt S' (mix32 key % S.maxslots)).count := by
        by_cases h1 : mix32 key % S.maxslots ∈ idx :: restL
        · rcases List.mem_cons.mp h1 with he | he
          · exact absurd he hcA
          · have h3 : (slotAt S' (mix32 key % S.maxslots)).count = 0 := by
              rw [hL' _ (List.mem_cons_of_mem _ he) hcA]
            omega
        · by_cases h2 : mix32 key % S.maxslots ∈ i2 :: restM
          · rcases List.mem_cons.mp h2 with he | he
            · have h3 : (slotAt S' (mix32 key % S.maxslots)).count = 0 := by
                rw [he, hi2']
              omega
            · rcases hcase with ⟨hlk, hfr⟩ | ⟨t0, hlkt, ht0lt, ht0L, ht0i2, ht0c, ht0', hfr⟩
              · have hsing : (i2 :: restM) = [i2] := chainList_single _ S i2 _ hM hlk
                rw [List.cons.injEq] at hsing
                rw [hsing.2] at he
                exact absurd he (List.not_mem_nil _)
              · by_cases hxt : mix32 key % S.maxslots = t0
                · have h4 : (slotAt S' (mix32 key % S.maxslots)).count =
                      (slotAt S t0).count := by
                    rw [hxt, ht0']
                  omega
                · have hne2 : mix32 key % S.maxslots ≠ i2 := by
                    intro hc
                    rw [hc] at he
                    exact (List.nodup_cons.mp hMnd).1 he
                  rw [hfr _ hh h1 hne2 hxt]
                  exact hhp
          · rw [huntouched _ hh h1 h2]
            exact hhp
      rw [getIdx_neg key (by rw [hlenEq]; exact hh) hhp,
          getIdx_neg key (by rw [hlen', hm]; exact hh) hs']
      simp only [Option.bind_eq_bind, Option.some_bind]
      rw [if_pos (show (-1 : Int) < 0 by omega), if_pos (show (-1 : Int) < 0 by omega)]

/-- C3 (amended): on a state satisfying the (corrected) section-3 invariants,
remove_by_idx on a leading slot with collisions (count above 1) succeeds: the
forward scan finds a colliding slot i2 of this home, the sibling is bytewise
relocated over the home index with count lowered by one, the donor slot is
cleared, entries is decremented, the corrected invariants hold afterwards, and
every key other than the removed leading entry's is still found by get with
its value unchanged.  (The literal section-3 invariant 2 of the spec is not
preserved, as the separate counterexample shows; the corrected invariant with
entries counting leading and colliding slots is.) -/
theorem C3_promote_branch_correct {S : HState} (hInv : Inv S) {idx : Nat}
    (hidx : idx < S.maxslots) (hc2 : 2 ≤ (slotAt S idx).count) :
    ∃ i2 S', qhasharr_remove_by_idx S idx = some (none, S') ∧
      i2 ≠ idx ∧ (slotAt S i2).count = -1 ∧ (slotAt S i2).hash = idx ∧
      slotAt S' idx = { slotAt S i2 with count := (slotAt S idx).count - 1 } ∧
      (slotAt S' i2).count = 0 ∧
      S'.num = S.num - 1 ∧
      Inv S' ∧
      (∀ key, matchKey key (slotAt S idx) = false →
        qhasharr_get S' key = qhasharr_get S key) := by
  obtain ⟨i2, L, S', hrun, hL, hi2lt, hi2ne, hi2L, hi2c, hi2h, hm, hlen2, hnum, hused,
    hidxq, hi2q, hLq, hcaseq⟩ := remove_promote_shape hInv hidx hc2
  have hidx' := slotAt_eq_of_getElem? hidxq
  have hi2' := slotAt_eq_of_getElem? hi2q
  have hL' : ∀ j ∈ L, j ≠ idx → slotAt S' j = { slotAt S j with count := 0 } :=
    fun j hj hne => slotAt_eq_of_getElem? (hLq j hj hne)
  have hcase' : ((slotAt S i2).link = -1 ∧
      (∀ j, j < S.maxslots → j ∉ L → j ≠ i2 → slotAt S' j = slotAt S j)) ∨
      (∃ t0, (slotAt S i2).link = Int.ofNat t0 ∧ t0 < S.maxslots ∧ t0 ∉ L ∧
        t0 ≠ i2 ∧ (slotAt S t0).count = -2 ∧
        slotAt S' t0 = { slotAt S t0 with hash := idx } ∧
        (∀ j, j < S.maxslots → j ∉ L → j ≠ i2 → j ≠ t0 → slotAt S' j = slotAt S j)) := by
    rcases hcaseq with ⟨h1, h2⟩ | ⟨t0, h1, h2, h3, h4, h5, h6, h7⟩
    · exact Or.inl ⟨h1, fun j _ hj1 hj2 => slotAt_congr (h2 j hj1 hj2)⟩
    · exact Or.inr ⟨t0, h1, h2, h3, h4, h5, slotAt_eq_of_getElem? h6,
        fun j _ hj1 hj2 hj3 => slotAt_congr (h7 j hj1 hj2 hj3)⟩
  have hInv' := Inv_promote hInv hidx hc2 hL hi2lt hi2ne hi2L hi2c hi2h hm hlen2
    hnum hused hidx' hi2' hL' hcase'
  refine ⟨i2, S', hrun, hi2ne, hi2c, hi2h, hidx', by rw [hi2'], hnum, hInv', ?_⟩
  intro key hk
  exact promote_get_preserved hInv hInv' hidx hc2 hL hi2lt hi2ne hi2L hi2c hi2h hm
    hidx' hi2' hL' hcase' hk

/-- Witness for C3 on a concrete table: the 5-slot table holding the colliding
keys 97 and 101 (slot 0 leads with count 2), with remove_by_idx at index 0. -/
theorem C3_promote_witness :
    ∃ i2 S', qhasharr_remove_by_idx C2two 0 = some (none, S') ∧
      i2 ≠ 0 ∧ (slotAt C2two i2).count = -1 ∧ (slotAt C2two i2).hash = 0 ∧
      slotAt S' 0 = { slotAt C2two i2 with count := (slotAt C2two 0).count - 1 } ∧
      (slotAt S' i2).count = 0 ∧
      S'.num = C2two.num - 1 ∧
      Inv S' ∧
      (∀ key, matchKey key (slotAt C2two 0) = false →
        qhasharr_get S' key = qhasharr_get C2two key) :=
  C3_promote_branch_correct (by constructor <;> decide) (by decide) (by decide)

end QHashArr
